import Mathlib

/-!
# Verification of the failed-literal probing pass (sat_probing.cpp)

This file shallowly embeds the probing simplification pass of the SAT solver
(`src/sat/sat_probing.cpp`) in Lean and proves properties of it.

The probing component drives an external collaborator search engine through a
narrow interface (push/pop scopes, assignment, unit propagation, trail access).
The engine itself (`sat_solver`) is not part of the sources under review, so it
is modelled from the specification of that interface; the probing procedures
`reset_cache`, `cache_bins`, `try_lit`, `process_core`, `process` and
`operator()` (called `run` here) are translated directly from the C++ source.

Machine integers: the cost counter `m_counter` is a C `int`; probing only
decrements it a bounded number of times per pass and negates/doubles it, so it
is modelled as `Int` (no overflow behaviour is relied upon by the code).
-/

namespace SatProbing

/-- A boolean variable, an opaque index (z3 `bool_var`). -/
abbrev BVar := Nat

/-- A literal: a variable together with a sign; `sign = true` means the negated
literal, matching z3 `sat::literal`. -/
structure Literal where
  var : BVar
  sign : Bool
deriving DecidableEq, Repr

/-- The dense index of a literal, `2 * var + sign` (z3 `literal::index`). -/
def Literal.index (l : Literal) : Nat := 2 * l.var + (if l.sign then 1 else 0)

/-- Negation flips the sign bit (z3 `operator~`). -/
def Literal.neg (l : Literal) : Literal := ⟨l.var, !l.sign⟩

/-- The literal whose dense index is `i` (inverse of `Literal.index`). -/
def indexLit (i : Nat) : Literal := ⟨i / 2, i % 2 = 1⟩

/-- Tri-state assignment value (z3 `lbool`). -/
inductive LBool where
  | ltrue
  | lfalse
  | lundefined
deriving DecidableEq, Repr

/-- Modelled from the spec: the collaborator search engine state visible through
the interface probing uses (section 6 of the spec).  The engine sources
(`sat_solver`) are not under review; the fields are the trail of assigned
literals, the stack of scope marks (trail sizes at each push), the persistent
inconsistency flag, the clause database, the eliminated-variable set, and the
DRAT proof log (a list of recorded binary facts). -/
structure Solver where
  numVars : Nat
  clauses : List (List Literal)
  elim : List BVar
  trail : List Literal
  scopes : List Nat
  inconsistent : Bool
  dratEnabled : Bool
  drat : List (Literal × Literal)
deriving DecidableEq, Repr

/-- Modelled from the spec: the value of a literal under the current trail. -/
def Solver.valueLit (s : Solver) (l : Literal) : LBool :=
  if l ∈ s.trail then .ltrue
  else if l.neg ∈ s.trail then .lfalse
  else .lundefined

/-- Modelled from the spec: the value of a variable (`solver::value(bool_var)`),
the value of its positive literal. -/
def Solver.valueVar (s : Solver) (v : BVar) : LBool :=
  s.valueLit ⟨v, false⟩

/-- Modelled from the spec: `push_scope` records the current trail size. -/
def Solver.push (s : Solver) : Solver :=
  { s with scopes := s.trail.length :: s.scopes }

/-- Modelled from the spec: `pop_scope(1)` undoes all trail appends since the
matching push and clears any conflict discovered inside the popped scope (a
conflict under an assumption is recoverable by backtracking). -/
def Solver.pop1 (s : Solver) : Solver :=
  match s.scopes with
  | [] => s
  | n :: rest => { s with trail := s.trail.take n, scopes := rest, inconsistent := false }

/-- Modelled from the spec: `assign(lit)` forces a literal true at the current
scope, appending it to the trail; assigning an already-true literal is a no-op,
assigning a false literal raises a conflict. -/
def Solver.assign (s : Solver) (l : Literal) : Solver :=
  match s.valueLit l with
  | .ltrue => s
  | .lfalse => { s with inconsistent := true }
  | .lundefined => { s with trail := s.trail ++ [l] }

/-- Modelled from the spec: emit a DRAT-style binary proof fact (`m_drat.add`);
a no-op when proof logging is disabled. -/
def Solver.dratAdd (s : Solver) (a b : Literal) : Solver :=
  if s.dratEnabled then { s with drat := s.drat ++ [(a, b)] } else s

/-- Modelled from the spec: whether a clause is unit under the current trail,
returning the single unassigned literal when every other literal is false and
no literal is true. -/
def unitLitOf (s : Solver) (c : List Literal) : Option Literal :=
  if c.any (fun y => s.valueLit y = .ltrue) then none
  else
    match c.filter (fun y => s.valueLit y = .lundefined) with
    | [x] => if c.all (fun y => y = x || s.valueLit y = .lfalse) then some x else none
    | _ => none

/-- Modelled from the spec: scan the clause database for a falsified clause
(`some none`) or a unit clause (`some (some x)`); `none` means fixpoint. -/
def findUnit (s : Solver) : List (List Literal) → Option (Option Literal)
  | [] => none
  | c :: cs =>
    if c.all (fun y => s.valueLit y = .lfalse) then some none
    else
      match unitLitOf s c with
      | some x => some (some x)
      | none => findUnit s cs

/-- Modelled from the spec: unit propagation to fixpoint, with explicit fuel
(each step assigns one new literal, so `numVars + 1` steps always suffice on
well-formed states). -/
def propagateFuel : Nat → Solver → Solver
  | 0, s => s
  | fuel + 1, s =>
    if s.inconsistent then s
    else
      match findUnit s s.clauses with
      | none => s
      | some none => { s with inconsistent := true }
      | some (some x) => propagateFuel fuel (s.assign x)

/-- Modelled from the spec: `propagate()` runs unit propagation to fixpoint or
to the first conflict. -/
def Solver.propagate (s : Solver) : Solver :=
  propagateFuel (s.numVars + 1) s

/-- Modelled from the spec: `was_eliminated(v)`. -/
def Solver.wasEliminated (s : Solver) (v : BVar) : Bool := v ∈ s.elim

/-- Modelled from the spec: the binary-clause neighbours of `l` reachable
through the watch list of `~l`, i.e. the other literal of every binary clause
containing `l` (z3 stores the watch for a binary clause `l ∨ l2` in the list
indexed by `~l`). -/
def binNeighbors (s : Solver) (l : Literal) : List Literal :=
  s.clauses.filterMap (fun c =>
    match c with
    | [a, b] => if a = l then some b else if b = l then some a else none
    | _ => none)

/-- One entry of the binary-implication cache (`probing::cache_entry`). -/
structure CacheEntry where
  available : Bool
  lits : List Literal
deriving DecidableEq, Repr

/-- The probing component state: the collaborator engine plus the fields of the
`probing` class (`m_counter`, `m_stopped_at`, `m_num_assigned`, `m_assigned`,
`m_to_assert`, `m_cached_bins`) and its configuration.  `allocSize` stands for
`memory::get_allocation_size()`, the global allocator figure consulted by the
cache memory ceiling; it is environment data, not mutated by probing. -/
structure PState where
  s : Solver
  counter : Int
  stoppedAt : Nat
  numAssigned : Nat
  assigned : List Literal
  toAssert : List Literal
  cachedBins : List CacheEntry
  allocSize : Nat
  probing : Bool
  probingLimit : Nat
  probingCache : Bool
  probingBinary : Bool
  probingCacheLimit : Nat
deriving DecidableEq, Repr

/-- Translation of `probing::reset_cache` (sat_probing.cpp lines 36 to 41):
mark the entry for `l` unavailable and release its storage, a no-op when the
cache array does not reach the index of `l`. -/
def reset_cache (st : PState) (l : Literal) : PState :=
  if l.index < st.cachedBins.length then
    { st with cachedBins := st.cachedBins.set l.index ⟨false, []⟩ }
  else st

/-- Grow the cache array so it has at least `n` entries (`vector::reserve`). -/
def reserveCache (c : List CacheEntry) (n : Nat) : List CacheEntry :=
  c ++ List.replicate (n - c.length) ⟨false, []⟩

/-- Translation of `probing::cache_bins` (sat_probing.cpp lines 45 to 61):
record the trail fragment starting at `oldTrSz` as the cached consequence list
of `l`, skipped when caching is off or the memory ceiling is exceeded; one DRAT
fact `~l ∨ l2` is emitted per recorded literal when proof logging is on. -/
def cache_bins (st : PState) (l : Literal) (oldTrSz : Nat) : PState :=
  if !st.probingCache then st
  else if st.allocSize > st.probingCacheLimit then st
  else
    let frag := st.s.trail.drop oldTrSz
    let bins := (reserveCache st.cachedBins (l.index + 1)).set l.index ⟨true, frag⟩
    let st := { st with cachedBins := bins }
    if st.s.dratEnabled then
      { st with s := { st.s with drat := st.s.drat ++ frag.map (fun x => (l.neg, x)) } }
    else st

/-- Modelled from the spec: `lookup(lit)` of the binary-implication cache (the
accessor `cached_implied_lits` lives in the header `sat_probing.h`, which is
not among the sources under review): returns the cached consequence list when
the cache is enabled and an available entry exists for `l`. -/
def cachedImpliedLits (st : PState) (l : Literal) : Option (List Literal) :=
  if !st.probingCache then none
  else
    match st.cachedBins.get? l.index with
    | none => none
    | some e => if e.available then some e.lits else none

/-- One step of the permanent-assertion loops of `try_lit` (lines 71 to 80 and
110 to 117): emit the two DRAT facts `l ∨ lit` and `~l ∨ lit`, assert `lit`
and count it. -/
def assertStep (l : Literal) (st : PState) (lit : Literal) : PState :=
  let st := { st with s := (st.s.dratAdd l lit).dratAdd l.neg lit }
  { st with s := st.s.assign lit, numAssigned := st.numAssigned + 1 }

/-- Translation of `probing::try_lit` (sat_probing.cpp lines 66 to 121).
Returns true when the caller should keep going.  When `updtCache` is false and
a cache entry exists, each cached literal already present in `m_assigned` is
asserted permanently without opening a scope; otherwise the literal is assumed
in a fresh scope and propagated: a conflict permanently asserts its negation,
else the trail literals also in `m_assigned` are collected, optionally cached,
and asserted after the scope is closed. -/
def try_lit (st : PState) (l : Literal) (updtCache : Bool) : Bool × PState :=
  let impliedLits := if updtCache then none else cachedImpliedLits st l
  match impliedLits with
  | some lits =>
    let st := lits.foldl (fun st lit =>
      if lit ∈ st.assigned then assertStep l st lit else st) st
    let st := { st with s := st.s.propagate }
    (!st.s.inconsistent, st)
  | none =>
    let st := { st with toAssert := [] }
    let st := { st with s := st.s.push.assign l, counter := st.counter - 1 }
    let oldTrSz := st.s.trail.length
    let st := { st with s := st.s.propagate }
    if st.s.inconsistent then
      let st := { st with s := ((st.s.pop1).assign l.neg).propagate }
      (false, st)
    else
      let st := { st with toAssert := (st.s.trail.drop oldTrSz).filter (fun x => x ∈ st.assigned) }
      let st := if updtCache then cache_bins st l oldTrSz else st
      let st := { st with s := st.s.pop1 }
      let st := st.toAssert.foldl (assertStep l) st
      let st := { st with s := st.s.propagate }
      (!st.s.inconsistent, st)

/-- The extended binary-neighbour loop of `process_core` (sat_probing.cpp lines
169 to 189): probe each binary neighbour `l2` of `~l` with cache reuse, in
list order, skipping neighbours below the index of `l` and assigned
neighbours, stopping when a probe fails or the engine becomes inconsistent. -/
def binLoop (l : Literal) : List Literal → PState → PState
  | [], st => st
  | l2 :: rest, st =>
    if l.index > l2.index then binLoop l rest st
    else if st.s.valueLit l2 ≠ .lundefined then binLoop l rest st
    else
      match try_lit st l2 false with
      | (ok, st') =>
        if !ok then st'
        else if st'.s.inconsistent then st'
        else binLoop l rest st'

/-- Translation of `probing::process_core` (sat_probing.cpp lines 123 to 190):
charge one cost unit, assume `v` true in a new scope and propagate; on
conflict permanently assert `v` false, propagate and count one forced
assignment; otherwise collect the scope trail fragment into `m_assigned`,
cache it for the positive literal, close the scope, probe the negative literal
with cache population, and optionally extend along binary neighbours. -/
def process_core (st : PState) (v : BVar) : PState :=
  let st := { st with counter := st.counter - 1 }
  let l : Literal := ⟨v, false⟩
  let st := { st with s := st.s.push.assign l }
  let oldTrSz := st.s.trail.length
  let st := { st with s := st.s.propagate }
  if st.s.inconsistent then
    let st := { st with s := ((st.s.pop1).assign l.neg).propagate }
    { st with numAssigned := st.numAssigned + 1 }
  else
    let st := { st with assigned := st.s.trail.drop oldTrSz }
    let st := cache_bins st l oldTrSz
    let st := { st with s := st.s.pop1 }
    match try_lit st l.neg true with
    | (ok, st) =>
      if !ok then st
      else if st.probingBinary then binLoop l (binNeighbors st.s l) st
      else st

/-- Translation of `probing::process` (sat_probing.cpp lines 192 to 201): run
`process_core` and, when any new permanent assignment was made, reset the cost
counter to its pre-call value (a successful probe is free). -/
def process (st : PState) (v : BVar) : PState :=
  let oldCounter := st.counter
  let oldNumAssigned := st.numAssigned
  let st' := process_core st v
  if oldNumAssigned < st'.numAssigned then { st' with counter := oldCounter } else st'

/-- Translation of `probing::finalize` (sat_probing.cpp lines 312 to 316):
release the scratch containers and the whole binary-implication cache. -/
def finalize (st : PState) : PState :=
  { st with assigned := [], toAssert := [], cachedBins := [] }

/-- The variable scan of `probing::operator()` (sat_probing.cpp lines 249 to
269): iterate the positions `is`, visiting variable `(stoppedAt + i) % num`;
break with `false` recording the resume cursor when the budget is exhausted,
break with `true` when the engine is inconsistent, purge stale cache entries
of assigned or eliminated variables, and process the rest. -/
def runLoop (num : Nat) (limit : Int) : List Nat → PState → Bool × PState
  | [], st => (true, st)
  | i :: rest, st =>
    let v := (st.stoppedAt + i) % num
    if st.counter < limit then (false, { st with stoppedAt := v })
    else if st.s.inconsistent then (true, st)
    else if st.s.valueVar v ≠ .lundefined || st.s.wasEliminated v then
      let st := if st.probingCache then reset_cache (reset_cache st ⟨v, false⟩) ⟨v, true⟩ else st
      runLoop num limit rest st
    else runLoop num limit rest (process st v)

/-- Translation of `probing::operator()` (sat_probing.cpp lines 226 to 293):
skip when probing is disabled, the engine is inconsistent after emptying the
propagation queue, or (unless forced) the cost budget is not yet exhausted;
clear the whole cache under memory pressure; scan the variables from the
resume cursor; on full completion clear the cursor; negate the accumulated
cost and double it when the pass assigned nothing new; release the scratch
containers.  The equivalence-pair branch is dead code (the only code that
populates `m_equivs` is disabled in the source), so it is omitted. -/
def run (st : PState) (force : Bool) : Bool × PState :=
  if !st.probing then (true, st)
  else
    let st := { st with s := st.s.propagate }
    if st.s.inconsistent then (true, st)
    else if !force && st.counter > 0 then (true, st)
    else
      let st := if st.probingCache && st.allocSize > st.probingCacheLimit then
                  { st with cachedBins := [] } else st
      let oldNumAssigned := st.numAssigned
      let st := { st with counter := 0 }
      let num := st.s.numVars
      let limit : Int := -(st.probingLimit : Int)
      match runLoop num limit (List.range num) st with
      | (r, st) =>
        let st := if r then { st with stoppedAt := 0 } else st
        let st := { st with counter := -st.counter }
        let st := if oldNumAssigned = st.numAssigned then { st with counter := st.counter * 2 } else st
        (r, finalize st)

/-!
## Basic lemmas about the collaborator engine operations
-/

@[simp]
theorem assign_numVars (s : Solver) (l : Literal) : (s.assign l).numVars = s.numVars := by
  unfold Solver.assign; split <;> rfl

@[simp]
theorem assign_clauses (s : Solver) (l : Literal) : (s.assign l).clauses = s.clauses := by
  unfold Solver.assign; split <;> rfl

@[simp]
theorem assign_elim (s : Solver) (l : Literal) : (s.assign l).elim = s.elim := by
  unfold Solver.assign; split <;> rfl

@[simp]
theorem assign_scopes (s : Solver) (l : Literal) : (s.assign l).scopes = s.scopes := by
  unfold Solver.assign; split <;> rfl

@[simp]
theorem assign_dratEnabled (s : Solver) (l : Literal) : (s.assign l).dratEnabled = s.dratEnabled := by
  unfold Solver.assign; split <;> rfl

@[simp]
theorem assign_drat (s : Solver) (l : Literal) : (s.assign l).drat = s.drat := by
  unfold Solver.assign; split <;> rfl

theorem assign_trail_extend (s : Solver) (l : Literal) :
    ∃ e, (s.assign l).trail = s.trail ++ e := by
  unfold Solver.assign; split
  · exact ⟨[], by simp⟩
  · exact ⟨[], by simp⟩
  · exact ⟨[l], rfl⟩

@[simp]
theorem dratAdd_trail (s : Solver) (a b : Literal) : (s.dratAdd a b).trail = s.trail := by
  unfold Solver.dratAdd; split <;> rfl

@[simp]
theorem dratAdd_scopes (s : Solver) (a b : Literal) : (s.dratAdd a b).scopes = s.scopes := by
  unfold Solver.dratAdd; split <;> rfl

@[simp]
theorem dratAdd_inconsistent (s : Solver) (a b : Literal) :
    (s.dratAdd a b).inconsistent = s.inconsistent := by
  unfold Solver.dratAdd; split <;> rfl

@[simp]
theorem dratAdd_numVars (s : Solver) (a b : Literal) : (s.dratAdd a b).numVars = s.numVars := by
  unfold Solver.dratAdd; split <;> rfl

@[simp]
theorem dratAdd_clauses (s : Solver) (a b : Literal) : (s.dratAdd a b).clauses = s.clauses := by
  unfold Solver.dratAdd; split <;> rfl

@[simp]
theorem dratAdd_elim (s : Solver) (a b : Literal) : (s.dratAdd a b).elim = s.elim := by
  unfold Solver.dratAdd; split <;> rfl

@[simp]
theorem dratAdd_dratEnabled (s : Solver) (a b : Literal) :
    (s.dratAdd a b).dratEnabled = s.dratEnabled := by
  unfold Solver.dratAdd; split <;> rfl

@[simp]
theorem dratAdd_valueLit (s : Solver) (a b x : Literal) :
    (s.dratAdd a b).valueLit x = s.valueLit x := by
  unfold Solver.dratAdd Solver.valueLit; split <;> rfl

@[simp]
theorem propagateFuel_numVars (n : Nat) : ∀ s : Solver, (propagateFuel n s).numVars = s.numVars := by
  induction n with
  | zero => intro s; rfl
  | succ n ih =>
    intro s
    unfold propagateFuel
    split
    · rfl
    · split
      · rfl
      · rfl
      · rw [ih]; simp

@[simp]
theorem propagateFuel_clauses (n : Nat) : ∀ s : Solver, (propagateFuel n s).clauses = s.clauses := by
  induction n with
  | zero => intro s; rfl
  | succ n ih =>
    intro s
    unfold propagateFuel
    split
    · rfl
    · split
      · rfl
      · rfl
      · rw [ih]; simp

@[simp]
theorem propagateFuel_elim (n : Nat) : ∀ s : Solver, (propagateFuel n s).elim = s.elim := by
  induction n with
  | zero => intro s; rfl
  | succ n ih =>
    intro s
    unfold propagateFuel
    split
    · rfl
    · split
      · rfl
      · rfl
      · rw [ih]; simp

@[simp]
theorem propagateFuel_scopes (n : Nat) : ∀ s : Solver, (propagateFuel n s).scopes = s.scopes := by
  induction n with
  | zero => intro s; rfl
  | succ n ih =>
    intro s
    unfold propagateFuel
    split
    · rfl
    · split
      · rfl
      · rfl
      · rw [ih]; simp

@[simp]
theorem propagateFuel_dratEnabled (n : Nat) :
    ∀ s : Solver, (propagateFuel n s).dratEnabled = s.dratEnabled := by
  induction n with
  | zero => intro s; rfl
  | succ n ih =>
    intro s
    unfold propagateFuel
    split
    · rfl
    · split
      · rfl
      · rfl
      · rw [ih]; simp

@[simp]
theorem propagateFuel_drat (n : Nat) : ∀ s : Solver, (propagateFuel n s).drat = s.drat := by
  induction n with
  | zero => intro s; rfl
  | succ n ih =>
    intro s
    unfold propagateFuel
    split
    · rfl
    · split
      · rfl
      · rfl
      · rw [ih]; simp

theorem propagateFuel_trail_extend (n : Nat) :
    ∀ s : Solver, ∃ e, (propagateFuel n s).trail = s.trail ++ e := by
  induction n with
  | zero => intro s; exact ⟨[], by simp [propagateFuel]⟩
  | succ n ih =>
    intro s
    unfold propagateFuel
    split
    · exact ⟨[], by simp⟩
    · split
      · exact ⟨[], by simp⟩
      · exact ⟨[], by simp⟩
      · rename_i x _
        obtain ⟨e1, he1⟩ := ih (s.assign x)
        obtain ⟨e2, he2⟩ := assign_trail_extend s x
        exact ⟨e2 ++ e1, by rw [he1, he2, List.append_assoc]⟩

@[simp]
theorem propagate_numVars (s : Solver) : s.propagate.numVars = s.numVars :=
  propagateFuel_numVars _ s

@[simp]
theorem propagate_clauses (s : Solver) : s.propagate.clauses = s.clauses :=
  propagateFuel_clauses _ s

@[simp]
theorem propagate_elim (s : Solver) : s.propagate.elim = s.elim :=
  propagateFuel_elim _ s

@[simp]
theorem propagate_scopes (s : Solver) : s.propagate.scopes = s.scopes :=
  propagateFuel_scopes _ s

@[simp]
theorem propagate_dratEnabled (s : Solver) : s.propagate.dratEnabled = s.dratEnabled :=
  propagateFuel_dratEnabled _ s

@[simp]
theorem propagate_drat (s : Solver) : s.propagate.drat = s.drat :=
  propagateFuel_drat _ s

theorem propagate_trail_extend (s : Solver) : ∃ e, s.propagate.trail = s.trail ++ e :=
  propagateFuel_trail_extend _ s

@[simp]
theorem push_scopes (s : Solver) : s.push.scopes = s.trail.length :: s.scopes := rfl

@[simp]
theorem push_trail (s : Solver) : s.push.trail = s.trail := rfl

@[simp]
theorem pop1_scopes (s : Solver) : s.pop1.scopes = s.scopes.tail := by
  unfold Solver.pop1; split <;> rename_i h <;> simp [h]

theorem pop1_of_scopes_cons (s : Solver) (n : Nat) (rest : List Nat) (h : s.scopes = n :: rest) :
    s.pop1 = { s with trail := s.trail.take n, scopes := rest, inconsistent := false } := by
  unfold Solver.pop1
  rw [h]

/-- Popping the scope opened by a push, after the trail has only been extended,
restores the original trail. -/
theorem pop1_restores_trail (s : Solver) (s2 : Solver) (e : List Literal)
    (hsc : s2.scopes = s.trail.length :: s.scopes) (htr : s2.trail = s.trail ++ e) :
    s2.pop1 = { s2 with trail := s.trail, scopes := s.scopes, inconsistent := false } := by
  rw [pop1_of_scopes_cons s2 _ _ hsc, htr]
  simp

/-!
## Frame lemmas for the probing procedures

`Cfg` collects the components that the probing procedures never modify (the
scope stack of the engine, the resume cursor and the whole configuration);
each procedure is shown to preserve it.
-/

/-- The frame of a probing state: scope stack, resume cursor, environment and
configuration. -/
def Cfg (st : PState) : List Nat × Nat × Nat × Bool × Nat × Bool × Bool × Nat :=
  (st.s.scopes, st.stoppedAt, st.allocSize, st.probing, st.probingLimit,
   st.probingCache, st.probingBinary, st.probingCacheLimit)

theorem cfg_eq_iff (a b : PState) : Cfg a = Cfg b ↔
    (a.s.scopes = b.s.scopes ∧ a.stoppedAt = b.stoppedAt ∧ a.allocSize = b.allocSize ∧
     a.probing = b.probing ∧ a.probingLimit = b.probingLimit ∧ a.probingCache = b.probingCache ∧
     a.probingBinary = b.probingBinary ∧ a.probingCacheLimit = b.probingCacheLimit) := by
  simp [Cfg, Prod.ext_iff]

theorem assertStep_cfg (l : Literal) (st : PState) (x : Literal) :
    Cfg (assertStep l st x) = Cfg st := by
  simp [assertStep, Cfg]

@[simp]
theorem assertStep_counter (l : Literal) (st : PState) (x : Literal) :
    (assertStep l st x).counter = st.counter := by
  simp [assertStep]

@[simp]
theorem assertStep_assigned (l : Literal) (st : PState) (x : Literal) :
    (assertStep l st x).assigned = st.assigned := by
  simp [assertStep]

@[simp]
theorem assertStep_numAssigned (l : Literal) (st : PState) (x : Literal) :
    (assertStep l st x).numAssigned = st.numAssigned + 1 := by
  simp [assertStep]

@[simp]
theorem assertStep_cachedBins (l : Literal) (st : PState) (x : Literal) :
    (assertStep l st x).cachedBins = st.cachedBins := by
  simp [assertStep]

@[simp]
theorem assertStep_toAssert (l : Literal) (st : PState) (x : Literal) :
    (assertStep l st x).toAssert = st.toAssert := by
  simp [assertStep]

theorem assertFold_cfg (l : Literal) (xs : List Literal) :
    ∀ st : PState, Cfg (xs.foldl (assertStep l) st) = Cfg st := by
  induction xs with
  | nil => intro st; rfl
  | cons x xs ih => intro st; rw [List.foldl_cons, ih, assertStep_cfg]

@[simp]
theorem assertFold_counter (l : Literal) (xs : List Literal) :
    ∀ st : PState, (xs.foldl (assertStep l) st).counter = st.counter := by
  induction xs with
  | nil => intro st; rfl
  | cons x xs ih => intro st; rw [List.foldl_cons, ih, assertStep_counter]

@[simp]
theorem assertFold_numAssigned (l : Literal) (xs : List Literal) :
    ∀ st : PState, (xs.foldl (assertStep l) st).numAssigned = st.numAssigned + xs.length := by
  induction xs with
  | nil => intro st; simp
  | cons x xs ih =>
    intro st
    rw [List.foldl_cons, ih, assertStep_numAssigned, List.length_cons]
    omega

@[simp]
theorem assertFold_assigned (l : Literal) (xs : List Literal) :
    ∀ st : PState, (xs.foldl (assertStep l) st).assigned = st.assigned := by
  induction xs with
  | nil => intro st; rfl
  | cons x xs ih => intro st; rw [List.foldl_cons, ih, assertStep_assigned]

@[simp]
theorem assertFold_cachedBins (l : Literal) (xs : List Literal) :
    ∀ st : PState, (xs.foldl (assertStep l) st).cachedBins = st.cachedBins := by
  induction xs with
  | nil => intro st; rfl
  | cons x xs ih => intro st; rw [List.foldl_cons, ih, assertStep_cachedBins]

@[simp]
theorem assertFold_toAssert (l : Literal) (xs : List Literal) :
    ∀ st : PState, (xs.foldl (assertStep l) st).toAssert = st.toAssert := by
  induction xs with
  | nil => intro st; rfl
  | cons x xs ih => intro st; rw [List.foldl_cons, ih, assertStep_toAssert]

/-- The conditional fold of the cache-hit path is the plain assertion fold over
the filtered list (the membership test reads `m_assigned`, which the assertion
step never modifies). -/
theorem cacheFold_eq_assertFold (l : Literal) (lits : List Literal) :
    ∀ st : PState,
      lits.foldl (fun st lit => if lit ∈ st.assigned then assertStep l st lit else st) st
        = (lits.filter (fun x => x ∈ st.assigned)).foldl (assertStep l) st := by
  induction lits with
  | nil => intro st; rfl
  | cons x xs ih =>
    intro st
    rw [List.foldl_cons]
    by_cases h : x ∈ st.assigned
    · rw [if_pos h, ih, assertStep_assigned]
      have : List.filter (fun x => decide (x ∈ st.assigned)) (x :: xs)
          = x :: List.filter (fun x => decide (x ∈ st.assigned)) xs := by
        simp [List.filter_cons, h]
      rw [this, List.foldl_cons]
    · rw [if_neg h, ih]
      have : List.filter (fun x => decide (x ∈ st.assigned)) (x :: xs)
          = List.filter (fun x => decide (x ∈ st.assigned)) xs := by
        simp [List.filter_cons, h]
      rw [this]

theorem cache_bins_cfg (st : PState) (l : Literal) (o : Nat) :
    Cfg (cache_bins st l o) = Cfg st := by
  unfold cache_bins
  split
  · rfl
  · split
    · rfl
    · dsimp only
      split <;> simp [Cfg]

@[simp]
theorem cache_bins_counter (st : PState) (l : Literal) (o : Nat) :
    (cache_bins st l o).counter = st.counter := by
  unfold cache_bins
  split
  · rfl
  · split
    · rfl
    · dsimp only
      split <;> rfl

@[simp]
theorem cache_bins_numAssigned (st : PState) (l : Literal) (o : Nat) :
    (cache_bins st l o).numAssigned = st.numAssigned := by
  unfold cache_bins
  split
  · rfl
  · split
    · rfl
    · dsimp only
      split <;> rfl

@[simp]
theorem cache_bins_assigned (st : PState) (l : Literal) (o : Nat) :
    (cache_bins st l o).assigned = st.assigned := by
  unfold cache_bins
  split
  · rfl
  · split
    · rfl
    · dsimp only
      split <;> rfl

@[simp]
theorem cache_bins_toAssert (st : PState) (l : Literal) (o : Nat) :
    (cache_bins st l o).toAssert = st.toAssert := by
  unfold cache_bins
  split
  · rfl
  · split
    · rfl
    · dsimp only
      split <;> rfl

@[simp]
theorem cache_bins_trail (st : PState) (l : Literal) (o : Nat) :
    (cache_bins st l o).s.trail = st.s.trail := by
  unfold cache_bins
  split
  · rfl
  · split
    · rfl
    · dsimp only
      split <;> rfl

@[simp]
theorem cache_bins_inconsistent (st : PState) (l : Literal) (o : Nat) :
    (cache_bins st l o).s.inconsistent = st.s.inconsistent := by
  unfold cache_bins
  split
  · rfl
  · split
    · rfl
    · dsimp only
      split <;> rfl

@[simp]
theorem cache_bins_scopes (st : PState) (l : Literal) (o : Nat) :
    (cache_bins st l o).s.scopes = st.s.scopes := by
  have := cache_bins_cfg st l o
  rw [cfg_eq_iff] at this
  exact this.1

theorem reset_cache_cfg (st : PState) (l : Literal) : Cfg (reset_cache st l) = Cfg st := by
  unfold reset_cache
  split <;> simp [Cfg]

@[simp]
theorem reset_cache_counter (st : PState) (l : Literal) :
    (reset_cache st l).counter = st.counter := by
  unfold reset_cache; split <;> rfl

@[simp]
theorem reset_cache_numAssigned (st : PState) (l : Literal) :
    (reset_cache st l).numAssigned = st.numAssigned := by
  unfold reset_cache; split <;> rfl

@[simp]
theorem reset_cache_s (st : PState) (l : Literal) : (reset_cache st l).s = st.s := by
  unfold reset_cache; split <;> rfl

/-- Projection pack derived from a `Cfg` equation. -/
theorem cfg_proj (a b : PState) (h : Cfg a = Cfg b) :
    a.s.scopes = b.s.scopes ∧ a.stoppedAt = b.stoppedAt ∧ a.allocSize = b.allocSize ∧
    a.probing = b.probing ∧ a.probingLimit = b.probingLimit ∧ a.probingCache = b.probingCache ∧
    a.probingBinary = b.probingBinary ∧ a.probingCacheLimit = b.probingCacheLimit :=
  (cfg_eq_iff a b).1 h

@[simp]
theorem assertFold_scopes (l : Literal) (xs : List Literal) (st : PState) :
    ((xs.foldl (assertStep l) st)).s.scopes = st.s.scopes :=
  (cfg_proj _ _ (assertFold_cfg l xs st)).1

@[simp]
theorem assertFold_stoppedAt (l : Literal) (xs : List Literal) (st : PState) :
    ((xs.foldl (assertStep l) st)).stoppedAt = st.stoppedAt :=
  (cfg_proj _ _ (assertFold_cfg l xs st)).2.1

@[simp]
theorem assertFold_allocSize (l : Literal) (xs : List Literal) (st : PState) :
    ((xs.foldl (assertStep l) st)).allocSize = st.allocSize :=
  (cfg_proj _ _ (assertFold_cfg l xs st)).2.2.1

@[simp]
theorem assertFold_probing (l : Literal) (xs : List Literal) (st : PState) :
    ((xs.foldl (assertStep l) st)).probing = st.probing :=
  (cfg_proj _ _ (assertFold_cfg l xs st)).2.2.2.1

@[simp]
theorem assertFold_probingLimit (l : Literal) (xs : List Literal) (st : PState) :
    ((xs.foldl (assertStep l) st)).probingLimit = st.probingLimit :=
  (cfg_proj _ _ (assertFold_cfg l xs st)).2.2.2.2.1

@[simp]
theorem assertFold_probingCache (l : Literal) (xs : List Literal) (st : PState) :
    ((xs.foldl (assertStep l) st)).probingCache = st.probingCache :=
  (cfg_proj _ _ (assertFold_cfg l xs st)).2.2.2.2.2.1

@[simp]
theorem assertFold_probingBinary (l : Literal) (xs : List Literal) (st : PState) :
    ((xs.foldl (assertStep l) st)).probingBinary = st.probingBinary :=
  (cfg_proj _ _ (assertFold_cfg l xs st)).2.2.2.2.2.2.1

@[simp]
theorem assertFold_probingCacheLimit (l : Literal) (xs : List Literal) (st : PState) :
    ((xs.foldl (assertStep l) st)).probingCacheLimit = st.probingCacheLimit :=
  (cfg_proj _ _ (assertFold_cfg l xs st)).2.2.2.2.2.2.2

@[simp]
theorem cache_bins_stoppedAt (st : PState) (l : Literal) (o : Nat) :
    (cache_bins st l o).stoppedAt = st.stoppedAt :=
  (cfg_proj _ _ (cache_bins_cfg st l o)).2.1

@[simp]
theorem cache_bins_allocSize (st : PState) (l : Literal) (o : Nat) :
    (cache_bins st l o).allocSize = st.allocSize :=
  (cfg_proj _ _ (cache_bins_cfg st l o)).2.2.1

@[simp]
theorem cache_bins_probing (st : PState) (l : Literal) (o : Nat) :
    (cache_bins st l o).probing = st.probing :=
  (cfg_proj _ _ (cache_bins_cfg st l o)).2.2.2.1

@[simp]
theorem cache_bins_probingLimit (st : PState) (l : Literal) (o : Nat) :
    (cache_bins st l o).probingLimit = st.probingLimit :=
  (cfg_proj _ _ (cache_bins_cfg st l o)).2.2.2.2.1

@[simp]
theorem cache_bins_probingCache (st : PState) (l : Literal) (o : Nat) :
    (cache_bins st l o).probingCache = st.probingCache :=
  (cfg_proj _ _ (cache_bins_cfg st l o)).2.2.2.2.2.1

@[simp]
theorem cache_bins_probingBinary (st : PState) (l : Literal) (o : Nat) :
    (cache_bins st l o).probingBinary = st.probingBinary :=
  (cfg_proj _ _ (cache_bins_cfg st l o)).2.2.2.2.2.2.1

@[simp]
theorem cache_bins_probingCacheLimit (st : PState) (l : Literal) (o : Nat) :
    (cache_bins st l o).probingCacheLimit = st.probingCacheLimit :=
  (cfg_proj _ _ (cache_bins_cfg st l o)).2.2.2.2.2.2.2

theorem try_lit_cfg (st : PState) (l : Literal) (u : Bool) :
    Cfg ((try_lit st l u).2) = Cfg st := by
  unfold try_lit
  cases hu : (if u then none else cachedImpliedLits st l) with
  | some lits =>
    dsimp only
    rw [cacheFold_eq_assertFold, cfg_eq_iff]
    refine ⟨?_, ?_, ?_, ?_, ?_, ?_, ?_, ?_⟩ <;> simp
  | none =>
    dsimp only
    split
    · rw [cfg_eq_iff]
      refine ⟨?_, ?_, ?_, ?_, ?_, ?_, ?_, ?_⟩ <;> simp
    · split
      · rw [cfg_eq_iff]
        refine ⟨?_, ?_, ?_, ?_, ?_, ?_, ?_, ?_⟩ <;> simp
      · rw [cfg_eq_iff]
        refine ⟨?_, ?_, ?_, ?_, ?_, ?_, ?_, ?_⟩ <;> simp

theorem try_lit_counter (st : PState) (l : Literal) (u : Bool) :
    ((try_lit st l u).2).counter = st.counter - 1 ∨
      (u = false ∧ ((try_lit st l u).2).counter = st.counter) := by
  unfold try_lit
  cases hu : (if u then none else cachedImpliedLits st l) with
  | some lits =>
    have hu' : u = false := by
      cases u
      · rfl
      · simp at hu
    dsimp only
    refine Or.inr ⟨hu', ?_⟩
    rw [cacheFold_eq_assertFold]
    simp
  | none =>
    dsimp only
    split
    · exact Or.inl (by simp)
    · split <;> exact Or.inl (by simp)

theorem try_lit_true_counter (st : PState) (l : Literal) :
    ((try_lit st l true).2).counter = st.counter - 1 := by
  rcases try_lit_counter st l true with h | ⟨h, _⟩
  · exact h
  · cases h

theorem binLoop_cfg (l : Literal) (ns : List Literal) :
    ∀ st : PState, Cfg (binLoop l ns st) = Cfg st := by
  induction ns with
  | nil => intro st; rfl
  | cons x xs ih =>
    intro st
    unfold binLoop
    split
    · exact ih st
    split
    · exact ih st
    have h := try_lit_cfg st x false
    rcases hp : try_lit st x false with ⟨ok, st'⟩
    rw [hp] at h
    dsimp only
    split
    · exact h
    split
    · exact h
    · rw [ih st', h]

theorem binLoop_counter_le (l : Literal) (ns : List Literal) :
    ∀ st : PState, (binLoop l ns st).counter ≤ st.counter := by
  induction ns with
  | nil => intro st; exact le_refl _
  | cons x xs ih =>
    intro st
    unfold binLoop
    split
    · exact ih st
    split
    · exact ih st
    have h : ((try_lit st x false).2).counter ≤ st.counter := by
      rcases try_lit_counter st x false with h | ⟨_, h⟩ <;> omega
    rcases hp : try_lit st x false with ⟨ok, st'⟩
    rw [hp] at h
    dsimp only
    split
    · exact h
    split
    · exact h
    · exact le_trans (ih st') h

theorem process_core_cfg (st : PState) (v : BVar) :
    Cfg (process_core st v) = Cfg st := by
  unfold process_core
  dsimp only
  split
  · rw [cfg_eq_iff]
    refine ⟨?_, ?_, ?_, ?_, ?_, ?_, ?_, ?_⟩ <;> simp
  · split
    · rw [try_lit_cfg, cfg_eq_iff]
      refine ⟨?_, ?_, ?_, ?_, ?_, ?_, ?_, ?_⟩ <;> simp
    · split
      · rw [binLoop_cfg, try_lit_cfg, cfg_eq_iff]
        refine ⟨?_, ?_, ?_, ?_, ?_, ?_, ?_, ?_⟩ <;> simp
      · rw [try_lit_cfg, cfg_eq_iff]
        refine ⟨?_, ?_, ?_, ?_, ?_, ?_, ?_, ?_⟩ <;> simp

theorem process_core_counter_le (st : PState) (v : BVar) :
    (process_core st v).counter ≤ st.counter - 1 := by
  unfold process_core
  dsimp only
  split
  · simp
  · split
    · rw [try_lit_true_counter]
      simp
    · split
      · refine le_trans (binLoop_counter_le _ _ _) ?_
        rw [try_lit_true_counter]
        simp
      · rw [try_lit_true_counter]
        simp

theorem process_core_nonconflict_counter (st : PState) (v : BVar)
    (h : (st.s.push.assign ⟨v, false⟩).propagate.inconsistent = false) :
    (process_core st v).counter ≤ st.counter - 2 := by
  unfold process_core
  dsimp only
  rw [if_neg (by rw [h]; exact Bool.false_ne_true)]
  split
  · rw [try_lit_true_counter]
    simp
    omega
  · split
    · refine le_trans (binLoop_counter_le _ _ _) ?_
      rw [try_lit_true_counter]
      simp
      omega
    · rw [try_lit_true_counter]
      simp
      omega

theorem process_cfg (st : PState) (v : BVar) : Cfg (process st v) = Cfg st := by
  unfold process
  dsimp only
  split
  · exact process_core_cfg st v
  · exact process_core_cfg st v

theorem process_counter_eq (st : PState) (v : BVar) :
    (process st v).counter =
      if st.numAssigned < (process_core st v).numAssigned then st.counter
      else (process_core st v).counter := by
  unfold process
  dsimp only
  split <;> rename_i h <;> simp [h]

@[simp]
theorem process_scopes (st : PState) (v : BVar) :
    (process st v).s.scopes = st.s.scopes :=
  (cfg_proj _ _ (process_cfg st v)).1

@[simp]
theorem process_stoppedAt (st : PState) (v : BVar) :
    (process st v).stoppedAt = st.stoppedAt :=
  (cfg_proj _ _ (process_cfg st v)).2.1

@[simp]
theorem process_allocSize (st : PState) (v : BVar) :
    (process st v).allocSize = st.allocSize :=
  (cfg_proj _ _ (process_cfg st v)).2.2.1

@[simp]
theorem process_probing (st : PState) (v : BVar) :
    (process st v).probing = st.probing :=
  (cfg_proj _ _ (process_cfg st v)).2.2.2.1

@[simp]
theorem process_probingLimit (st : PState) (v : BVar) :
    (process st v).probingLimit = st.probingLimit :=
  (cfg_proj _ _ (process_cfg st v)).2.2.2.2.1

@[simp]
theorem process_probingCache (st : PState) (v : BVar) :
    (process st v).probingCache = st.probingCache :=
  (cfg_proj _ _ (process_cfg st v)).2.2.2.2.2.1

@[simp]
theorem process_probingBinary (st : PState) (v : BVar) :
    (process st v).probingBinary = st.probingBinary :=
  (cfg_proj _ _ (process_cfg st v)).2.2.2.2.2.2.1

@[simp]
theorem process_probingCacheLimit (st : PState) (v : BVar) :
    (process st v).probingCacheLimit = st.probingCacheLimit :=
  (cfg_proj _ _ (process_cfg st v)).2.2.2.2.2.2.2

@[simp]
theorem reset_cache_stoppedAt (st : PState) (l : Literal) :
    (reset_cache st l).stoppedAt = st.stoppedAt :=
  (cfg_proj _ _ (reset_cache_cfg st l)).2.1

@[simp]
theorem reset_cache_allocSize (st : PState) (l : Literal) :
    (reset_cache st l).allocSize = st.allocSize :=
  (cfg_proj _ _ (reset_cache_cfg st l)).2.2.1

@[simp]
theorem reset_cache_probing (st : PState) (l : Literal) :
    (reset_cache st l).probing = st.probing :=
  (cfg_proj _ _ (reset_cache_cfg st l)).2.2.2.1

@[simp]
theorem reset_cache_probingLimit (st : PState) (l : Literal) :
    (reset_cache st l).probingLimit = st.probingLimit :=
  (cfg_proj _ _ (reset_cache_cfg st l)).2.2.2.2.1

@[simp]
theorem reset_cache_probingCache (st : PState) (l : Literal) :
    (reset_cache st l).probingCache = st.probingCache :=
  (cfg_proj _ _ (reset_cache_cfg st l)).2.2.2.2.2.1

@[simp]
theorem reset_cache_probingBinary (st : PState) (l : Literal) :
    (reset_cache st l).probingBinary = st.probingBinary :=
  (cfg_proj _ _ (reset_cache_cfg st l)).2.2.2.2.2.2.1

@[simp]
theorem reset_cache_probingCacheLimit (st : PState) (l : Literal) :
    (reset_cache st l).probingCacheLimit = st.probingCacheLimit :=
  (cfg_proj _ _ (reset_cache_cfg st l)).2.2.2.2.2.2.2

/-- The variable scan never touches the scope stack, the environment or the
configuration of the probing component. -/
theorem runLoop_pres (num : Nat) (limit : Int) : ∀ (is : List Nat) (st : PState),
    ((runLoop num limit is st).2).s.scopes = st.s.scopes ∧
    ((runLoop num limit is st).2).allocSize = st.allocSize ∧
    ((runLoop num limit is st).2).probing = st.probing ∧
    ((runLoop num limit is st).2).probingLimit = st.probingLimit ∧
    ((runLoop num limit is st).2).probingCache = st.probingCache ∧
    ((runLoop num limit is st).2).probingBinary = st.probingBinary ∧
    ((runLoop num limit is st).2).probingCacheLimit = st.probingCacheLimit := by
  intro is
  induction is with
  | nil => intro st; exact ⟨rfl, rfl, rfl, rfl, rfl, rfl, rfl⟩
  | cons i rest ih =>
    intro st
    unfold runLoop
    dsimp only
    split
    · exact ⟨rfl, rfl, rfl, rfl, rfl, rfl, rfl⟩
    split
    · exact ⟨rfl, rfl, rfl, rfl, rfl, rfl, rfl⟩
    split
    · split
      · obtain ⟨h1, h2, h3, h4, h5, h6, h7⟩ :=
          ih (reset_cache (reset_cache st ⟨(st.stoppedAt + i) % num, false⟩)
            ⟨(st.stoppedAt + i) % num, true⟩)
        refine ⟨?_, ?_, ?_, ?_, ?_, ?_, ?_⟩ <;> simp_all
      · exact ih st
    · obtain ⟨h1, h2, h3, h4, h5, h6, h7⟩ := ih (process st ((st.stoppedAt + i) % num))
      refine ⟨?_, ?_, ?_, ?_, ?_, ?_, ?_⟩ <;> simp_all

@[simp]
theorem finalize_s (st : PState) : (finalize st).s = st.s := rfl

@[simp]
theorem finalize_counter (st : PState) : (finalize st).counter = st.counter := rfl

@[simp]
theorem finalize_stoppedAt (st : PState) : (finalize st).stoppedAt = st.stoppedAt := rfl

@[simp]
theorem finalize_numAssigned (st : PState) : (finalize st).numAssigned = st.numAssigned := rfl

@[simp]
theorem finalize_cachedBins (st : PState) : (finalize st).cachedBins = [] := rfl

@[simp]
theorem runLoop_scopes (num : Nat) (limit : Int) (is : List Nat) (st : PState) :
    ((runLoop num limit is st).2).s.scopes = st.s.scopes :=
  (runLoop_pres num limit is st).1

@[simp]
theorem runLoop_allocSize (num : Nat) (limit : Int) (is : List Nat) (st : PState) :
    ((runLoop num limit is st).2).allocSize = st.allocSize :=
  (runLoop_pres num limit is st).2.1

@[simp]
theorem runLoop_probing (num : Nat) (limit : Int) (is : List Nat) (st : PState) :
    ((runLoop num limit is st).2).probing = st.probing :=
  (runLoop_pres num limit is st).2.2.1

@[simp]
theorem runLoop_probingLimit (num : Nat) (limit : Int) (is : List Nat) (st : PState) :
    ((runLoop num limit is st).2).probingLimit = st.probingLimit :=
  (runLoop_pres num limit is st).2.2.2.1

@[simp]
theorem runLoop_probingCache (num : Nat) (limit : Int) (is : List Nat) (st : PState) :
    ((runLoop num limit is st).2).probingCache = st.probingCache :=
  (runLoop_pres num limit is st).2.2.2.2.1

@[simp]
theorem runLoop_probingBinary (num : Nat) (limit : Int) (is : List Nat) (st : PState) :
    ((runLoop num limit is st).2).probingBinary = st.probingBinary :=
  (runLoop_pres num limit is st).2.2.2.2.2.1

@[simp]
theorem runLoop_probingCacheLimit (num : Nat) (limit : Int) (is : List Nat) (st : PState) :
    ((runLoop num limit is st).2).probingCacheLimit = st.probingCacheLimit :=
  (runLoop_pres num limit is st).2.2.2.2.2.2

theorem run_scopes (st : PState) (force : Bool) :
    ((run st force).2).s.scopes = st.s.scopes := by
  unfold run
  dsimp only
  split
  · rfl
  split
  · simp
  split
  · simp
  split
  · dsimp only
    split <;> split <;> simp
  · dsimp only
    split <;> split <;> simp

/-- When the scan returns true (no budget break), the resume cursor is
untouched. -/
theorem runLoop_true_stoppedAt (num : Nat) (limit : Int) : ∀ (is : List Nat) (st : PState),
    (runLoop num limit is st).1 = true →
    ((runLoop num limit is st).2).stoppedAt = st.stoppedAt := by
  intro is
  induction is with
  | nil => intro st _; rfl
  | cons i rest ih =>
    intro st h
    unfold runLoop at h ⊢
    dsimp only at h ⊢
    split at h
    · cases h
    split at h
    · rename_i hb hinc
      rw [if_neg hb, if_pos hinc]
    split at h
    · split at h
      · rename_i hb hinc hskip hcache
        rw [if_neg hb, if_neg hinc, if_pos hskip, if_pos hcache, ih _ h]
        simp
      · rename_i hb hinc hskip hcache
        rw [if_neg hb, if_neg hinc, if_pos hskip, if_neg hcache, ih _ h]
    · rename_i hb hinc hskip
      rw [if_neg hb, if_neg hinc, if_neg hskip, ih _ h]
      simp

/-- When the scan returns false, it broke at some position `i` of the index
list with the budget exhausted, recording `(stoppedAt + i) % num` as the new
resume cursor and performing no further work. -/
theorem runLoop_false_spec (num : Nat) (limit : Int) : ∀ (is : List Nat) (st : PState),
    (runLoop num limit is st).1 = false →
    ∃ i ∈ is, ∃ stx : PState, stx.counter < limit ∧
      runLoop num limit is st = (false, { stx with stoppedAt := (st.stoppedAt + i) % num }) := by
  intro is
  induction is with
  | nil => intro st h; cases h
  | cons i rest ih =>
    intro st h
    unfold runLoop at h ⊢
    dsimp only at h ⊢
    split at h
    · rename_i hbudget
      refine ⟨i, List.mem_cons_self _ _, st, hbudget, ?_⟩
      rw [if_pos hbudget]
    split at h
    · cases h
    split at h
    · split at h
      · rename_i hcase hskip hcached
        obtain ⟨i2, hi2, stx, hcnt, heq⟩ := ih _ h
        refine ⟨i2, List.mem_cons_of_mem _ hi2, stx, hcnt, ?_⟩
        rw [if_neg hcase, if_neg (by simp_all), if_pos hskip, if_pos hcached, heq]
        simp
      · rename_i hcase hskip hcached
        obtain ⟨i2, hi2, stx, hcnt, heq⟩ := ih _ h
        refine ⟨i2, List.mem_cons_of_mem _ hi2, stx, hcnt, ?_⟩
        rw [if_neg hcase, if_neg (by simp_all), if_pos hskip, if_neg hcached, heq]
    · rename_i hcase hincons hskip
      obtain ⟨i2, hi2, stx, hcnt, heq⟩ := ih _ h
      refine ⟨i2, List.mem_cons_of_mem _ hi2, stx, hcnt, ?_⟩
      rw [if_neg hcase, if_neg (by simp_all), if_neg hskip, heq]
      simp

/-!
## Assignment-value lemmas
-/

theorem valueLit_ltrue_iff (s : Solver) (l : Literal) :
    s.valueLit l = .ltrue ↔ l ∈ s.trail := by
  unfold Solver.valueLit
  split
  · simp_all
  · split <;> simp_all

theorem valueLit_lfalse_iff (s : Solver) (l : Literal) :
    s.valueLit l = .lfalse ↔ l ∉ s.trail ∧ l.neg ∈ s.trail := by
  unfold Solver.valueLit
  split
  · simp_all
  · split <;> simp_all

theorem valueLit_lundef_iff (s : Solver) (l : Literal) :
    s.valueLit l = .lundefined ↔ l ∉ s.trail ∧ l.neg ∉ s.trail := by
  unfold Solver.valueLit
  split
  · simp_all
  · split <;> simp_all

theorem assign_of_ltrue (s : Solver) (l : Literal) (h : s.valueLit l = .ltrue) :
    s.assign l = s := by
  simp only [Solver.assign, h]

theorem assign_of_lfalse (s : Solver) (l : Literal) (h : s.valueLit l = .lfalse) :
    s.assign l = { s with inconsistent := true } := by
  simp only [Solver.assign, h]

theorem assign_of_lundefined (s : Solver) (l : Literal) (h : s.valueLit l = .lundefined) :
    s.assign l = { s with trail := s.trail ++ [l] } := by
  simp only [Solver.assign, h]

theorem assign_preserves_ltrue (s : Solver) (x l : Literal) (h : s.valueLit l = .ltrue) :
    (s.assign x).valueLit l = .ltrue := by
  unfold Solver.assign
  split
  · exact h
  · exact h
  · rename_i hx
    rw [valueLit_ltrue_iff] at h ⊢
    exact List.mem_append_left _ h

theorem assign_preserves_lfalse (s : Solver) (x l : Literal) (h : s.valueLit l = .lfalse) :
    (s.assign x).valueLit l = .lfalse := by
  unfold Solver.assign
  split
  · exact h
  · exact h
  · rename_i hx
    rw [valueLit_lundef_iff] at hx
    rw [valueLit_lfalse_iff] at h ⊢
    constructor
    · intro hmem
      rcases List.mem_append.1 hmem with hm | hm
      · exact h.1 hm
      · rcases List.mem_singleton.1 hm with rfl
        exact hx.2 h.2
    · exact List.mem_append_left _ h.2

theorem propagateFuel_preserves_ltrue (n : Nat) :
    ∀ (s : Solver) (l : Literal), s.valueLit l = .ltrue →
      (propagateFuel n s).valueLit l = .ltrue := by
  induction n with
  | zero => intro s l h; exact h
  | succ n ih =>
    intro s l h
    unfold propagateFuel
    split
    · exact h
    · split
      · exact h
      · exact h
      · exact ih _ _ (assign_preserves_ltrue _ _ _ h)

theorem propagateFuel_preserves_lfalse (n : Nat) :
    ∀ (s : Solver) (l : Literal), s.valueLit l = .lfalse →
      (propagateFuel n s).valueLit l = .lfalse := by
  induction n with
  | zero => intro s l h; exact h
  | succ n ih =>
    intro s l h
    unfold propagateFuel
    split
    · exact h
    · split
      · exact h
      · exact h
      · exact ih _ _ (assign_preserves_lfalse _ _ _ h)

theorem propagate_preserves_lfalse (s : Solver) (l : Literal) (h : s.valueLit l = .lfalse) :
    s.propagate.valueLit l = .lfalse :=
  propagateFuel_preserves_lfalse _ s l h

theorem propagate_preserves_ltrue (s : Solver) (l : Literal) (h : s.valueLit l = .ltrue) :
    s.propagate.valueLit l = .ltrue :=
  propagateFuel_preserves_ltrue _ s l h

/-!
## The conflict path of process_core
-/

/-- On the immediate-conflict path the variable processor pops the probing
scope, permanently asserts the negation, propagates and counts one forced
assignment; nothing else of the probing state changes except the one cost
unit charged on entry. -/
theorem process_core_conflict_eq (st : PState) (v : BVar)
    (hconf : (st.s.push.assign ⟨v, false⟩).propagate.inconsistent = true) :
    process_core st v =
      { st with
        counter := st.counter - 1,
        s := (((st.s.push.assign ⟨v, false⟩).propagate.pop1).assign
                (Literal.neg ⟨v, false⟩)).propagate,
        numAssigned := st.numAssigned + 1 } := by
  unfold process_core
  dsimp only
  rw [if_pos hconf]

/-- Popping the probing scope restores the engine exactly (only the transient
conflict flag is cleared). -/
theorem probe_pop1 (s : Solver) (l : Literal) :
    ((s.push.assign l).propagate).pop1 = { s with inconsistent := false } := by
  obtain ⟨e1, he1⟩ := assign_trail_extend s.push l
  obtain ⟨e2, he2⟩ := propagate_trail_extend (s.push.assign l)
  have hsc : ((s.push.assign l).propagate).scopes = s.trail.length :: s.scopes := by simp
  have htr : ((s.push.assign l).propagate).trail = s.trail ++ (e1 ++ e2) := by
    rw [he2, he1, push_trail, List.append_assoc]
  rw [pop1_restores_trail s _ _ hsc htr]
  simp [Solver.mk.injEq, Solver.push]

/-!
## Concrete states used as witnesses
-/

/-- A fresh solver over `n` variables with clause database `cls`. -/
def mkSolver (n : Nat) (cls : List (List Literal)) : Solver :=
  { numVars := n, clauses := cls, elim := [], trail := [], scopes := [],
    inconsistent := false, dratEnabled := false, drat := [] }

/-- A fresh probing state over a solver, with probing fully enabled and an
ample budget. -/
def mkPState (s : Solver) : PState :=
  { s := s, counter := 0, stoppedAt := 0, numAssigned := 0, assigned := [], toAssert := [],
    cachedBins := [], allocSize := 0, probing := true, probingLimit := 1000,
    probingCache := true, probingBinary := true, probingCacheLimit := 1000 }

/-!
## Claim theorems
-/

/-- C6: every speculative scope opened by the single-literal prober, the
variable processor or the driver is closed before the procedure returns, on
every exit path including the conflict path and early returns: the
collaborator scope stack (hence the scope depth) is unchanged across any call
to `try_lit`, `process` or `run`. -/
theorem scopes_balanced_all_paths :
    (∀ (st : PState) (l : Literal) (u : Bool), ((try_lit st l u).2).s.scopes = st.s.scopes) ∧
    (∀ (st : PState) (v : BVar), (process st v).s.scopes = st.s.scopes) ∧
    (∀ (st : PState) (force : Bool), ((run st force).2).s.scopes = st.s.scopes) :=
  ⟨fun st l u => (cfg_proj _ _ (try_lit_cfg st l u)).1,
   fun st v => process_scopes st v,
   fun st force => run_scopes st force⟩

/-- C3: if any permanent assignment occurred during `process v` (the forced
count grew across `process_core`), the cost counter is restored to its
pre-call value; otherwise it keeps the decremented value left by
`process_core`, which is at least one unit below the pre-call value. -/
theorem process_counter_restore (st : PState) (v : BVar) :
    ((process st v).counter =
      if st.numAssigned < (process_core st v).numAssigned then st.counter
      else (process_core st v).counter) ∧
    (process_core st v).counter ≤ st.counter - 1 :=
  ⟨process_counter_eq st v, process_core_counter_le st v⟩

/-- C10: the cache operations are total over the cache array: `reset_cache`
on a literal at or past the current size is a no-op, in range it only rewrites
that entry, and `cache_bins` (when it records) first grows the array past the
index of `l` so the write lands in bounds. -/
theorem cache_ops_in_bounds (st : PState) (l : Literal) (o : Nat) :
    (st.cachedBins.length ≤ l.index → reset_cache st l = st) ∧
    (l.index < st.cachedBins.length →
      reset_cache st l = { st with cachedBins := st.cachedBins.set l.index ⟨false, []⟩ }) ∧
    (st.probingCache = true → st.allocSize ≤ st.probingCacheLimit →
      l.index < (cache_bins st l o).cachedBins.length ∧
      (cache_bins st l o).cachedBins.get? l.index = some ⟨true, st.s.trail.drop o⟩) := by
  refine ⟨?_, ?_, ?_⟩
  · intro h
    unfold reset_cache
    rw [if_neg (by omega)]
  · intro h
    unfold reset_cache
    rw [if_pos h]
  · intro hpc hmem
    have hlen : l.index < ((reserveCache st.cachedBins (l.index + 1)).set l.index
        ⟨true, st.s.trail.drop o⟩).length := by
      rw [List.length_set]
      unfold reserveCache
      rw [List.length_append, List.length_replicate]
      omega
    unfold cache_bins
    rw [if_neg (by simp [hpc]), if_neg (by omega)]
    dsimp only
    split
    · constructor
      · simpa using hlen
      · simpa using List.get?_set_eq_of_lt _ hlen
    · constructor
      · simpa using hlen
      · simpa using List.get?_set_eq_of_lt _ hlen

theorem cache_ops_in_bounds_witness :
    (mkPState (mkSolver 1 [])).probingCache = true ∧
    (mkPState (mkSolver 1 [])).allocSize ≤ (mkPState (mkSolver 1 [])).probingCacheLimit ∧
    ((Literal.index ⟨0, false⟩ <
        (cache_bins (mkPState (mkSolver 1 [])) ⟨0, false⟩ 0).cachedBins.length) ∧
      (cache_bins (mkPState (mkSolver 1 [])) ⟨0, false⟩ 0).cachedBins.get?
          (Literal.index ⟨0, false⟩) =
        some ⟨true, (mkPState (mkSolver 1 [])).s.trail.drop 0⟩) :=
  ⟨rfl, by decide,
   (cache_ops_in_bounds (mkPState (mkSolver 1 [])) ⟨0, false⟩ 0).2.2 rfl (by decide)⟩

/-- C8 (amended): a visit of the variable processor charges one probe unit on
entry unconditionally and one more unit for every propagation-based probe run
by `try_lit` during the visit: on the immediate-conflict path the visit
consumes exactly one unit, on every other path at least two (one for the
entry charge and one for the mandatory probe of the negated literal), so the
per-visit consumption is not the outcome-independent single unit the claim
states. -/
theorem process_core_cost_units (st : PState) (v : BVar) :
    ((st.s.push.assign ⟨v, false⟩).propagate.inconsistent = true →
      (process_core st v).counter = st.counter - 1) ∧
    ((st.s.push.assign ⟨v, false⟩).propagate.inconsistent = false →
      (process_core st v).counter ≤ st.counter - 2) := by
  constructor
  · intro hconf
    rw [process_core_conflict_eq st v hconf]
  · intro h
    exact process_core_nonconflict_counter st v h

theorem process_core_cost_units_witness :
    ((mkPState (mkSolver 1 [])).s.push.assign ⟨0, false⟩).propagate.inconsistent = false ∧
    (process_core (mkPState (mkSolver 1 [])) 0).counter ≤ (mkPState (mkSolver 1 [])).counter - 2 :=
  ⟨by decide, (process_core_cost_units (mkPState (mkSolver 1 [])) 0).2 (by decide)⟩

/-- C8 counterexample: on a one-variable empty formula the visit of variable 0
takes the non-conflict path and consumes two probe units, not one: the counter
drops from 0 to -2. -/
theorem process_core_cost_units_cex :
    (process_core (mkPState (mkSolver 1 [])) 0).counter = -2 ∧
    (mkPState (mkSolver 1 [])).counter = 0 ∧
    (process_core (mkPState (mkSolver 1 [])) 0).counter ≠
      (mkPState (mkSolver 1 [])).counter - 1 := by
  refine ⟨by decide, by decide, by decide⟩

/-- C1: for an unassigned, uneliminated variable whose positive assumption
propagates to a conflict, `process` closes the speculative scope, permanently
asserts `v` false, propagates at the outer scope, counts exactly one forced
assignment, and leaves the scope stack (hence the scope depth) unchanged; the
cost counter is restored because an assignment occurred. -/
theorem process_conflict_asserts_negation (st : PState) (v : BVar)
    (hundef : st.s.valueVar v = .lundefined)
    (helim : st.s.wasEliminated v = false)
    (hconf : (st.s.push.assign ⟨v, false⟩).propagate.inconsistent = true) :
    process st v =
      { st with
        s := (((st.s.push.assign ⟨v, false⟩).propagate.pop1).assign
                (Literal.neg ⟨v, false⟩)).propagate,
        numAssigned := st.numAssigned + 1 } ∧
    (process st v).s.scopes = st.s.scopes ∧
    (process st v).numAssigned = st.numAssigned + 1 ∧
    (process st v).s.valueVar v = .lfalse := by
  have h1 : process st v =
      { st with
        s := (((st.s.push.assign ⟨v, false⟩).propagate.pop1).assign
                (Literal.neg ⟨v, false⟩)).propagate,
        numAssigned := st.numAssigned + 1 } := by
    unfold process
    dsimp only
    rw [process_core_conflict_eq st v hconf]
    rw [if_pos (by simp)]
  have hval : (process st v).s.valueVar v = .lfalse := by
    rw [h1]
    dsimp only
    rw [probe_pop1]
    unfold Solver.valueVar at hundef ⊢
    rw [valueLit_lundef_iff] at hundef
    have hneg : Literal.neg ⟨v, false⟩ = (⟨v, true⟩ : Literal) := rfl
    have hassign : ({ st.s with inconsistent := false } : Solver).assign (Literal.neg ⟨v, false⟩)
        = { st.s with inconsistent := false, trail := st.s.trail ++ [⟨v, true⟩] } := by
      rw [hneg, assign_of_lundefined]
      rw [valueLit_lundef_iff]
      refine ⟨hundef.2, ?_⟩
      have : (Literal.neg ⟨v, true⟩) = (⟨v, false⟩ : Literal) := rfl
      rw [this]
      exact hundef.1
    rw [hassign]
    apply propagate_preserves_lfalse
    rw [valueLit_lfalse_iff]
    constructor
    · intro hmem
      rcases List.mem_append.1 hmem with hm | hm
      · exact hundef.1 hm
      · simp at hm
    · refine List.mem_append_right _ ?_
      have : (Literal.neg ⟨v, false⟩) = (⟨v, true⟩ : Literal) := rfl
      rw [this]
      simp
  refine ⟨h1, ?_, ?_, hval⟩
  · rw [h1]
    simp
  · rw [h1]

theorem process_conflict_asserts_negation_witness :
    (mkPState (mkSolver 1 [[(⟨0, true⟩ : Literal)]])).s.valueVar 0 = .lundefined ∧
    (mkPState (mkSolver 1 [[(⟨0, true⟩ : Literal)]])).s.wasEliminated 0 = false ∧
    ((mkPState (mkSolver 1 [[(⟨0, true⟩ : Literal)]])).s.push.assign
        ⟨0, false⟩).propagate.inconsistent = true ∧
    (process (mkPState (mkSolver 1 [[(⟨0, true⟩ : Literal)]])) 0).s.valueVar 0 = .lfalse ∧
    (process (mkPState (mkSolver 1 [[(⟨0, true⟩ : Literal)]])) 0).numAssigned =
      (mkPState (mkSolver 1 [[(⟨0, true⟩ : Literal)]])).numAssigned + 1 :=
  ⟨by decide, by decide, by decide,
   (process_conflict_asserts_negation _ 0 (by decide) (by decide) (by decide)).2.2.2,
   (process_conflict_asserts_negation _ 0 (by decide) (by decide) (by decide)).2.2.1⟩

/-- C4: the driver scans variable indices starting at the resume cursor and
wrapping modulo the variable count (position `i` of the scan visits variable
`(stoppedAt + i) % numVars`); when the cost budget is exhausted it records the
current, not yet processed, variable as the resume cursor and returns false,
and when it returns true (no budget interruption) it resets the resume cursor
to zero. -/
theorem run_resume_cursor (st : PState) (force : Bool)
    (hp : st.probing = true)
    (hc : (st.s.propagate).inconsistent = false)
    (hf : force = true ∨ ¬ st.counter > 0) :
    ((run st force).1 = true → (run st force).2.stoppedAt = 0) ∧
    ((run st force).1 = false → ∃ i < st.s.numVars, ∃ stx : PState,
        stx.counter < -(st.probingLimit : Int) ∧
        (run st force).2.stoppedAt = (st.stoppedAt + i) % st.s.numVars) := by
  unfold run
  rw [if_neg (by simp [hp])]
  dsimp only
  rw [if_neg (by simpa using hc)]
  rw [if_neg (by rcases hf with hf | hf <;> simp [hf])]
  dsimp only
  split
  · constructor
    · intro h
      dsimp only at h ⊢
      rw [if_pos h]
      simp [apply_ite PState.stoppedAt]
    · intro h
      dsimp only at h ⊢
      obtain ⟨i, hi, stx, hcnt, heq⟩ := runLoop_false_spec _ _ _ _ h
      refine ⟨i, by simpa using List.mem_range.1 hi, stx, by simpa using hcnt, ?_⟩
      rw [heq]
      simp [apply_ite PState.stoppedAt]
  · constructor
    · intro h
      dsimp only at h ⊢
      rw [if_pos h]
      simp [apply_ite PState.stoppedAt]
    · intro h
      dsimp only at h ⊢
      obtain ⟨i, hi, stx, hcnt, heq⟩ := runLoop_false_spec _ _ _ _ h
      refine ⟨i, by simpa using List.mem_range.1 hi, stx, by simpa using hcnt, ?_⟩
      rw [heq]
      simp [apply_ite PState.stoppedAt]

/-- The budget-interrupted concrete driver state used by the C4 witness:
two variables, empty formula, a zero per-pass cost ceiling. -/
def stBudget : PState := { mkPState (mkSolver 2 []) with probingLimit := 0 }

theorem run_resume_cursor_witness :
    (run stBudget true).1 = false ∧
    (∃ i < stBudget.s.numVars, ∃ stx : PState,
        stx.counter < -(stBudget.probingLimit : Int) ∧
        (run stBudget true).2.stoppedAt = (stBudget.stoppedAt + i) % stBudget.s.numVars) :=
  ⟨by decide, (run_resume_cursor stBudget true (by decide) (by decide) (Or.inl rfl)).2 (by decide)⟩

/-- The state in which the driver starts its variable scan: propagation queue
emptied, cache dropped under memory pressure, cost counter zeroed. -/
def preLoopState (st : PState) : PState :=
  let st1 : PState := { st with s := st.s.propagate }
  let st2 : PState := if st1.probingCache && st1.allocSize > st1.probingCacheLimit then
    { st1 with cachedBins := [] } else st1
  { st2 with counter := 0 }

/-- The variable scan a driver pass performs, as the driver invokes it. -/
def passLoop (st : PState) : Bool × PState :=
  runLoop (preLoopState st).s.numVars (-((preLoopState st).probingLimit : Int))
    (List.range (preLoopState st).s.numVars) (preLoopState st)

/-- C9: at the end of an executed driver pass the accumulated cost counter is
negated and additionally doubled exactly when the pass made no new permanent
assignment; and the cost counter alone (hence together with the resume
cursor) decides whether a later non-forced invocation performs any probing
work: a positive counter makes it return immediately after emptying the
propagation queue. -/
theorem run_cost_accumulation (st : PState) (force : Bool)
    (hp : st.probing = true)
    (hc : (st.s.propagate).inconsistent = false)
    (hf : force = true ∨ ¬ st.counter > 0) :
    ((run st force).2.counter =
      if st.numAssigned = (passLoop st).2.numAssigned
      then -(passLoop st).2.counter * 2
      else -(passLoop st).2.counter) ∧
    (∀ st2 : PState, st2.probing = true → (st2.s.propagate).inconsistent = false →
      st2.counter > 0 → run st2 false = (true, { st2 with s := st2.s.propagate })) := by
  constructor
  · unfold run
    rw [if_neg (by simp [hp])]
    dsimp only
    rw [if_neg (by simpa using hc)]
    rw [if_neg (by rcases hf with hf | hf <;> simp [hf])]
    unfold passLoop preLoopState
    dsimp only
    split
    · rename_i hcond
      simp only [hcond]
      simp [apply_ite PState.counter, apply_ite PState.numAssigned]
    · rename_i hcond
      simp only [Bool.not_eq_true] at hcond
      simp only [hcond]
      simp [apply_ite PState.counter, apply_ite PState.numAssigned]
  · intro st2 hp2 hc2 hcnt2
    unfold run
    rw [if_neg (by simp [hp2])]
    dsimp only
    rw [if_neg (by simpa using hc2)]
    rw [if_pos (by simp [hcnt2])]

theorem run_cost_accumulation_witness :
    ((mkPState (mkSolver 1 [])).counter > 0 → False) ∧
    ({ mkPState (mkSolver 1 []) with counter := 5 }.counter > 0) ∧
    run { mkPState (mkSolver 1 []) with counter := 5 } false =
      (true, { { mkPState (mkSolver 1 []) with counter := 5 } with
        s := { mkPState (mkSolver 1 []) with counter := 5 }.s.propagate }) :=
  ⟨by decide, by decide,
   (run_cost_accumulation (mkPState (mkSolver 1 [])) true (by decide) (by decide)
      (Or.inl rfl)).2 _ (by decide) (by decide) (by decide)⟩

/-- C7 (amended): a cache entry, once created for a literal, remains available
while the pass runs until the underlying variable becomes assigned or
eliminated or memory pressure clears the cache, but only within the driver
pass that is running: the end-of-pass cleanup (`finalize`, sat_probing.cpp
line 278) releases the entire cache on every executed pass, so no entry
survives into a later driver invocation. -/
theorem run_clears_cache_at_pass_end (st : PState) (force : Bool)
    (hp : st.probing = true)
    (hc : (st.s.propagate).inconsistent = false)
    (hf : force = true ∨ ¬ st.counter > 0) :
    (run st force).2.cachedBins = [] := by
  unfold run
  rw [if_neg (by simp [hp])]
  dsimp only
  rw [if_neg (by simpa using hc)]
  rw [if_neg (by rcases hf with hf | hf <;> simp [hf])]
  dsimp only
  split <;> simp

theorem run_clears_cache_at_pass_end_witness :
    ((mkPState (mkSolver 1 [])).probing = true) ∧
    (run (mkPState (mkSolver 1 [])) true).2.cachedBins = [] :=
  ⟨rfl, run_clears_cache_at_pass_end (mkPState (mkSolver 1 [])) true (by decide) (by decide)
    (Or.inl rfl)⟩

/-- C7 counterexample: on a one-variable empty formula, a full forced pass
creates a cache entry for the positive literal of variable 0 while processing
it (visible in the loop intermediate state), the variable is never assigned or
eliminated and there is no memory pressure, yet after the pass the whole cache
array is empty and the lookup fails: the entry did not survive the end of the
pass. -/
theorem cache_entry_survives_pass_cex :
    (cachedImpliedLits (process (preLoopState (mkPState (mkSolver 1 []))) 0)
      ⟨0, false⟩).isSome = true ∧
    (run (mkPState (mkSolver 1 [])) true).1 = true ∧
    (run (mkPState (mkSolver 1 [])) true).2.cachedBins = [] ∧
    (cachedImpliedLits ((run (mkPState (mkSolver 1 [])) true).2) ⟨0, false⟩).isSome = false ∧
    (run (mkPState (mkSolver 1 [])) true).2.s.valueVar 0 = .lundefined ∧
    (run (mkPState (mkSolver 1 [])) true).2.s.wasEliminated 0 = false ∧
    (mkPState (mkSolver 1 [])).allocSize ≤ (mkPState (mkSolver 1 [])).probingCacheLimit := by
  refine ⟨by decide, by decide, by decide, by decide, by decide, by decide, by decide⟩

theorem assertStep_trail_of_lundefined (l : Literal) (st : PState) (x : Literal)
    (h : st.s.valueLit x = .lundefined) :
    (assertStep l st x).s.trail = st.s.trail ++ [x] := by
  unfold assertStep
  dsimp only
  rw [assign_of_lundefined]
  · simp
  · simpa using h

@[simp]
theorem assertStep_dratEnabled (l : Literal) (st : PState) (x : Literal) :
    (assertStep l st x).s.dratEnabled = st.s.dratEnabled := by
  simp [assertStep]

theorem assertStep_drat_enabled (l : Literal) (st : PState) (x : Literal)
    (h : st.s.dratEnabled = true) :
    (assertStep l st x).s.drat = st.s.drat ++ [(l, x), (l.neg, x)] := by
  unfold assertStep Solver.dratAdd
  dsimp only
  rw [if_pos h]
  dsimp only
  rw [if_pos h]
  simp

theorem assertFold_drat (l : Literal) (xs : List Literal) :
    ∀ st : PState, st.s.dratEnabled = true →
      (xs.foldl (assertStep l) st).s.drat
        = st.s.drat ++ xs.flatMap (fun x => [(l, x), (l.neg, x)]) := by
  induction xs with
  | nil => intro st _; simp
  | cons x xs ih =>
    intro st h
    rw [List.foldl_cons, ih _ (by simpa using h), assertStep_drat_enabled _ _ _ h]
    simp

theorem assertFold_trail (l : Literal) (xs : List Literal) :
    ∀ st : PState,
      (∀ x ∈ xs, st.s.valueLit x = .lundefined) →
      ((xs.map Literal.var).Nodup) →
      (xs.foldl (assertStep l) st).s.trail = st.s.trail ++ xs := by
  induction xs with
  | nil => intro st _ _; simp
  | cons x xs ih =>
    intro st h1 h2
    have hx : (assertStep l st x).s.trail = st.s.trail ++ [x] :=
      assertStep_trail_of_lundefined l st x (h1 x (List.mem_cons_self _ _))
    rw [List.map_cons] at h2
    have hvarx : x.var ∉ xs.map Literal.var := (List.nodup_cons.1 h2).1
    have h1' : ∀ y ∈ xs, ((assertStep l st x).s).valueLit y = .lundefined := by
      intro y hy
      have hy1 := h1 y (List.mem_cons_of_mem _ hy)
      rw [valueLit_lundef_iff] at hy1 ⊢
      have hvar : y.var ≠ x.var := by
        intro hcon
        exact hvarx (hcon ▸ List.mem_map_of_mem Literal.var hy)
      rw [hx]
      constructor
      · intro hmem
        rcases List.mem_append.1 hmem with hm | hm
        · exact hy1.1 hm
        · rcases List.mem_singleton.1 hm with rfl
          exact hvar rfl
      · intro hmem
        rcases List.mem_append.1 hmem with hm | hm
        · exact hy1.2 hm
        · have : y.neg = x := List.mem_singleton.1 hm
          apply hvar
          rw [show y.var = y.neg.var from rfl, this]
    rw [List.foldl_cons, ih _ h1' (List.nodup_cons.1 h2).2, hx, List.append_assoc]
    rfl

/-- C2: on the cache-hit path of the single-literal prober (cache use allowed,
an entry available for `l`), the literals asserted are exactly the
intersection of the cached consequence list with the previously collected
`m_assigned` set: the forced count grows by exactly the size of that
intersection, two DRAT justifications are emitted per asserted literal when
proof logging is on, no speculative scope is opened (the scope stack is
untouched), and when the intersection is clean (unassigned, distinct
variables) the trail before the final propagation is the old trail extended by
exactly that intersection, each literal appended once. -/
theorem try_lit_cache_hit (st : PState) (l : Literal) (lits : List Literal)
    (hcache : cachedImpliedLits st l = some lits) :
    ((try_lit st l false).2).s.scopes = st.s.scopes ∧
    ((try_lit st l false).2).numAssigned =
      st.numAssigned + (lits.filter (fun x => x ∈ st.assigned)).length ∧
    (st.s.dratEnabled = true →
      ((try_lit st l false).2).s.drat = st.s.drat ++
        (lits.filter (fun x => x ∈ st.assigned)).flatMap (fun x => [(l, x), (l.neg, x)])) ∧
    ((∀ x ∈ lits.filter (fun x => x ∈ st.assigned), st.s.valueLit x = .lundefined) →
      ((lits.filter (fun x => x ∈ st.assigned)).map Literal.var).Nodup →
      ∃ mid : Solver, ((try_lit st l false).2).s = mid.propagate ∧
        mid.trail = st.s.trail ++ lits.filter (fun x => x ∈ st.assigned)) := by
  have hred : (try_lit st l false).2 =
      { (lits.foldl (fun st lit => if lit ∈ st.assigned then assertStep l st lit else st) st) with
        s := (lits.foldl (fun st lit => if lit ∈ st.assigned then assertStep l st lit else st)
          st).s.propagate } := by
    unfold try_lit
    rw [hcache]
    rfl
  rw [hred, cacheFold_eq_assertFold]
  refine ⟨by simp, by simp, ?_, ?_⟩
  · intro hdrat
    dsimp only
    rw [propagate_drat, assertFold_drat _ _ _ hdrat]
  · intro hclean hvars
    exact ⟨((lits.filter (fun x => x ∈ st.assigned)).foldl (assertStep l) st).s, rfl,
      assertFold_trail l _ st hclean hvars⟩

/-- The concrete state used by the C2 witness: a two-variable formula, an
available cache entry for the positive literal of variable 0 whose cached list
holds both literals of variable 1, and an `m_assigned` set containing exactly
one of them. -/
def stCacheHit : PState :=
  { mkPState (mkSolver 2 []) with
    assigned := [⟨1, false⟩],
    cachedBins := [⟨true, [⟨1, false⟩, ⟨1, true⟩]⟩] }

theorem try_lit_cache_hit_witness :
    cachedImpliedLits stCacheHit ⟨0, false⟩ = some [⟨1, false⟩, ⟨1, true⟩] ∧
    ((try_lit stCacheHit ⟨0, false⟩ false).2).numAssigned =
      stCacheHit.numAssigned +
        (([⟨1, false⟩, ⟨1, true⟩] : List Literal).filter
          (fun x => x ∈ stCacheHit.assigned)).length ∧
    ((try_lit stCacheHit ⟨0, false⟩ false).2).s.scopes = stCacheHit.s.scopes :=
  ⟨by decide,
   (try_lit_cache_hit stCacheHit ⟨0, false⟩ [⟨1, false⟩, ⟨1, true⟩] (by decide)).2.1,
   (try_lit_cache_hit stCacheHit ⟨0, false⟩ [⟨1, false⟩, ⟨1, true⟩] (by decide)).1⟩

/-!
## Semantic unit-propagation closure

For the cache-soundness claim the operational `propagate` is related to a
semantic closure: `UPmem cls U x` holds when literal `x` is derivable from the
starting literals `U` by repeatedly firing clauses whose other literals are
all falsified.
-/

/-- Derivability of a literal by unit propagation over clause set `cls` from
the starting literal list `U`. -/
inductive UPmem (cls : List (List Literal)) (U : List Literal) : Literal → Prop
  | base (x : Literal) : x ∈ U → UPmem cls U x
  | step (c : List Literal) (x : Literal) : c ∈ cls → x ∈ c →
      (∀ y ∈ c, y ≠ x → UPmem cls U y.neg) → UPmem cls U x

theorem UPmem_mono (cls : List (List Literal)) (U U' : List Literal)
    (hU : ∀ a ∈ U, a ∈ U') : ∀ x, UPmem cls U x → UPmem cls U' x := by
  intro x h
  induction h with
  | base x hx => exact UPmem.base x (hU x hx)
  | step c x hc hx hall ih => exact UPmem.step c x hc hx (fun y hy hne => ih y hy hne)

/-- Substitution: derivability from a set of derivable literals is
derivability from the base set. -/
theorem UPmem_trans (cls : List (List Literal)) (U U' : List Literal)
    (hU : ∀ a ∈ U', UPmem cls U a) : ∀ x, UPmem cls U' x → UPmem cls U x := by
  intro x h
  induction h with
  | base x hx => exact hU x hx
  | step c x hc hx hall ih => exact UPmem.step c x hc hx (fun y hy hne => ih y hy hne)

/-- Consistency of a closure: no literal is derivable together with its
negation. -/
def UPconsistent (cls : List (List Literal)) (U : List Literal) : Prop :=
  ∀ x, ¬(UPmem cls U x ∧ UPmem cls U x.neg)

/-- Well-formedness of the clause database: clauses are nonempty, duplicate
free and mention only variables below the variable count. -/
def WfClauses (n : Nat) (cls : List (List Literal)) : Prop :=
  ∀ c ∈ cls, c ≠ [] ∧ c.Nodup ∧ ∀ x ∈ c, x.var < n

/-- Well-formedness of an engine state: well-formed clauses and a trail whose
variables are distinct and below the variable count. -/
def WfSolver (s : Solver) : Prop :=
  WfClauses s.numVars s.clauses ∧
  (s.trail.map Literal.var).Nodup ∧
  (∀ x ∈ s.trail, x.var < s.numVars)

instance (n : Nat) (cls : List (List Literal)) : Decidable (WfClauses n cls) := by
  unfold WfClauses
  infer_instance

instance (s : Solver) : Decidable (WfSolver s) := by
  unfold WfSolver
  infer_instance

theorem neg_var (l : Literal) : l.neg.var = l.var := rfl

@[simp]
theorem neg_neg (l : Literal) : l.neg.neg = l := by
  unfold Literal.neg
  simp

/-- A duplicate-variable-free trail never contains a literal together with its
negation. -/
theorem not_mem_neg_of_nodupVars (t : List Literal) (h : (t.map Literal.var).Nodup)
    (x : Literal) (hx : x ∈ t) : x.neg ∉ t := by
  intro hneg
  have hne : x.neg ≠ x := by
    intro hcon
    have : x.neg.sign = x.sign := by rw [hcon]
    simp [Literal.neg] at this
  have := List.inj_on_of_nodup_map h hx hneg
  exact hne ((this (neg_var x).symm).symm)

theorem unitLitOf_spec (s : Solver) (c : List Literal) (x : Literal)
    (h : unitLitOf s c = some x) :
    x ∈ c ∧ s.valueLit x = .lundefined ∧
      (∀ y ∈ c, y ≠ x → s.valueLit y = .lfalse) ∧
      (∀ y ∈ c, s.valueLit y ≠ .ltrue) := by
  unfold unitLitOf at h
  split at h
  · cases h
  · rename_i hany
    split at h
    · rename_i x' hf
      split at h
      · rename_i hall
        cases h
        have hxf : x ∈ c.filter (fun y => decide (s.valueLit y = .lundefined)) := by
          rw [hf]
          exact List.mem_singleton.2 rfl
        have hxc := List.mem_filter.1 hxf
        refine ⟨hxc.1, by simpa using hxc.2, ?_, ?_⟩
        · intro y hy hne
          have := (List.all_eq_true.1 hall) y hy
          rcases Bool.or_eq_true_iff.1 this with h1 | h1
          · exact absurd (by simpa using h1) hne
          · simpa using h1
        · intro y hy hcon
          exact hany (List.any_eq_true.2 ⟨y, hy, by simpa using hcon⟩)
      · cases h
    · cases h

theorem findUnit_some_unit (s : Solver) :
    ∀ cls x, findUnit s cls = some (some x) → ∃ c ∈ cls, unitLitOf s c = some x := by
  intro cls
  induction cls with
  | nil => intro x h; cases h
  | cons c cs ih =>
    intro x h
    unfold findUnit at h
    split at h
    · simp at h
    · split at h
      · rename_i x' hx'
        simp only [Option.some.injEq] at h
        exact ⟨c, List.mem_cons_self _ _, by rw [hx', h]⟩
      · obtain ⟨c2, hc2, h2⟩ := ih x h
        exact ⟨c2, List.mem_cons_of_mem _ hc2, h2⟩

theorem findUnit_some_none (s : Solver) :
    ∀ cls, findUnit s cls = some none →
      ∃ c ∈ cls, ∀ y ∈ c, s.valueLit y = .lfalse := by
  intro cls
  induction cls with
  | nil => intro h; cases h
  | cons c cs ih =>
    intro h
    unfold findUnit at h
    split at h
    · rename_i hall
      refine ⟨c, List.mem_cons_self _ _, ?_⟩
      intro y hy
      simpa using (List.all_eq_true.1 hall) y hy
    · split at h
      · cases h
      · obtain ⟨c2, hc2, h2⟩ := ih h
        exact ⟨c2, List.mem_cons_of_mem _ hc2, h2⟩

theorem findUnit_none_spec (s : Solver) :
    ∀ cls, findUnit s cls = none →
      ∀ c ∈ cls, (∃ y ∈ c, s.valueLit y ≠ .lfalse) ∧ unitLitOf s c = none := by
  intro cls
  induction cls with
  | nil => intro _ c hc; cases hc
  | cons c cs ih =>
    intro h c2 hc2
    unfold findUnit at h
    split at h
    · cases h
    · rename_i hnall
      have hu : unitLitOf s c = none := by
        rcases hv : unitLitOf s c with _ | x
        · rfl
        · rw [hv] at h; cases h
      rw [hu] at h
      rcases List.mem_cons.1 hc2 with rfl | hmem
      · refine ⟨?_, hu⟩
        by_contra hcon
        push_neg at hcon
        exact hnall (List.all_eq_true.2 (fun y hy => by simpa using hcon y hy))
      · exact ih h c2 hmem

theorem filter_eq_singleton (p : Literal → Bool) :
    ∀ (c : List Literal) (x : Literal), x ∈ c → p x = true →
      (∀ y ∈ c, y ≠ x → p y = false) → c.Nodup → c.filter p = [x] := by
  intro c
  induction c with
  | nil => intro x hx; cases hx
  | cons a as ih =>
    intro x hx hpx hothers hnd
    rcases List.mem_cons.1 hx with rfl | hmem
    · rw [List.filter_cons_of_pos hpx]
      have : as.filter p = [] := by
        rw [List.filter_eq_nil_iff]
        intro y hy
        have hne : y ≠ x := by
          intro hcon
          subst hcon
          exact (List.nodup_cons.1 hnd).1 hy
        simp [hothers y (List.mem_cons_of_mem _ hy) hne]
      rw [this]
    · have hax : a ≠ x := by
        intro hcon
        subst hcon
        exact (List.nodup_cons.1 hnd).1 hmem
      rw [List.filter_cons_of_neg (by simp [hothers a (List.mem_cons_self _ _) hax])]
      exact ih x hmem hpx (fun y hy => hothers y (List.mem_cons_of_mem _ hy))
        (List.nodup_cons.1 hnd).2

/-- Completeness of the operational fixpoint: when no clause is falsified or
unit, every semantically derivable literal is already on the trail. -/
theorem closed_of_findUnit_none (s : Solver) (hwf : WfSolver s)
    (hfu : findUnit s s.clauses = none) :
    ∀ x, UPmem s.clauses s.trail x → x ∈ s.trail := by
  intro x h
  induction h with
  | base x hx => exact hx
  | step c x hc hx hall ih =>
    by_cases hxt : x ∈ s.trail
    · exact hxt
    obtain ⟨hne, hunit⟩ := findUnit_none_spec s s.clauses hfu c hc
    have hyf : ∀ y ∈ c, y ≠ x → s.valueLit y = .lfalse := by
      intro y hy hne2
      rw [valueLit_lfalse_iff]
      refine ⟨?_, ih y hy hne2⟩
      intro hyt
      exact not_mem_neg_of_nodupVars _ hwf.2.1 y hyt (ih y hy hne2)
    by_cases hxf : x.neg ∈ s.trail
    · obtain ⟨y, hy, hynf⟩ := hne
      by_cases hyx : y = x
      · subst hyx
        exact absurd ((valueLit_lfalse_iff s y).2 ⟨hxt, hxf⟩) hynf
      · exact absurd (hyf y hy hyx) hynf
    · have hxu : s.valueLit x = .lundefined := (valueLit_lundef_iff s x).2 ⟨hxt, hxf⟩
      have hsome : unitLitOf s c = some x := by
        unfold unitLitOf
        rw [if_neg ?notrue]
        case notrue =>
          intro hcon
          obtain ⟨y, hy, hyt⟩ := List.any_eq_true.1 hcon
          by_cases hyx : y = x
          · subst hyx
            rw [hxu] at hyt
            simp at hyt
          · rw [hyf y hy hyx] at hyt
            simp at hyt
        rw [filter_eq_singleton _ c x hx (by simpa using hxu)
          (fun y hy hne2 => by simp [hyf y hy hne2]) (hwf.1 c hc).2.1]
        dsimp only
        rw [if_pos ?hall2]
        case hall2 =>
          refine List.all_eq_true.2 (fun y hy => ?_)
          by_cases hyx : y = x
          · simp [hyx]
          · simp [hyf y hy hyx]
      rw [hunit] at hsome
      cases hsome

theorem var_eq_cases (y x : Literal) (h : y.var = x.var) : y = x ∨ y = x.neg := by
  cases y with
  | mk yv ys =>
    cases x with
    | mk xv xs =>
      simp only at h
      subst h
      cases ys <;> cases xs <;> simp [Literal.neg]

theorem assign_wf (s : Solver) (x : Literal) (hwf : WfSolver s)
    (hxu : s.valueLit x = .lundefined) (hvar : x.var < s.numVars) :
    WfSolver (s.assign x) := by
  rw [assign_of_lundefined s x hxu]
  obtain ⟨hc, hnd, hvb⟩ := hwf
  rw [valueLit_lundef_iff] at hxu
  refine ⟨hc, ?_, ?_⟩
  · simp only [List.map_append, List.map_cons, List.map_nil]
    rw [List.nodup_append]
    refine ⟨hnd, List.nodup_singleton _, ?_⟩
    intro a ha hb
    rcases List.mem_singleton.1 hb with rfl
    obtain ⟨y, hy, hyv⟩ := List.mem_map.1 ha
    rcases var_eq_cases y x hyv with rfl | rfl
    · exact hxu.1 hy
    · rw [show x.neg.var = x.var from rfl] at hyv
      exact hxu.2 (by simpa [neg_neg] using hy)
  · intro z hz
    rcases List.mem_append.1 hz with hz | hz
    · exact hvb z hz
    · rcases List.mem_singleton.1 hz with rfl
      exact hvar

theorem propagateFuel_trail_spec (n : Nat) :
    ∀ s : Solver, ∃ e, (propagateFuel n s).trail = s.trail ++ e ∧
      ∀ x ∈ e, s.valueLit x = .lundefined ∧ UPmem s.clauses s.trail x := by
  induction n with
  | zero => intro s; exact ⟨[], by simp [propagateFuel], by simp⟩
  | succ n ih =>
    intro s
    unfold propagateFuel
    split
    · exact ⟨[], by simp, by simp⟩
    split
    · exact ⟨[], by simp, by simp⟩
    · exact ⟨[], by simp, by simp⟩
    · rename_i x hx
      obtain ⟨c, hc, hu⟩ := findUnit_some_unit s s.clauses x hx
      obtain ⟨hxc, hxu, hyf, hnt⟩ := unitLitOf_spec s c x hu
      have hassign : s.assign x = { s with trail := s.trail ++ [x] } :=
        assign_of_lundefined s x hxu
      obtain ⟨e, he, hprop⟩ := ih (s.assign x)
      have hderiv : UPmem s.clauses s.trail x :=
        UPmem.step c x hc hxc
          (fun y hy hne => UPmem.base _ ((valueLit_lfalse_iff s y).1 (hyf y hy hne)).2)
      have hbase : ∀ a ∈ s.trail ++ [x], UPmem s.clauses s.trail a := by
        intro a ha
        rcases List.mem_append.1 ha with ha | ha
        · exact UPmem.base _ ha
        · rcases List.mem_singleton.1 ha with rfl
          exact hderiv
      refine ⟨x :: e, ?_, ?_⟩
      · rw [he, hassign]
        simp
      · intro z hz
        rcases List.mem_cons.1 hz with rfl | hz2
        · exact ⟨hxu, hderiv⟩
        · obtain ⟨h1, h2⟩ := hprop z hz2
          rw [hassign] at h1 h2
          constructor
          · rw [valueLit_lundef_iff] at h1 ⊢
            exact ⟨fun hm => h1.1 (List.mem_append_left _ hm),
                   fun hm => h1.2 (List.mem_append_left _ hm)⟩
          · exact UPmem_trans s.clauses s.trail (s.trail ++ [x]) hbase z h2

theorem propagateFuel_wf (n : Nat) :
    ∀ s : Solver, WfSolver s → WfSolver (propagateFuel n s) := by
  induction n with
  | zero => intro s h; exact h
  | succ n ih =>
    intro s h
    unfold propagateFuel
    split
    · exact h
    split
    · exact h
    · exact ⟨h.1, h.2.1, h.2.2⟩
    · rename_i x hx
      obtain ⟨c, hc, hu⟩ := findUnit_some_unit s s.clauses x hx
      obtain ⟨hxc, hxu, _, _⟩ := unitLitOf_spec s c x hu
      exact ih _ (assign_wf s x h hxu ((h.1 c hc).2.2 x hxc))

theorem propagateFuel_conflict (n : Nat) :
    ∀ s : Solver, WfClauses s.numVars s.clauses → s.inconsistent = false →
      (propagateFuel n s).inconsistent = true →
      ∃ x, UPmem s.clauses s.trail x ∧ UPmem s.clauses s.trail x.neg := by
  induction n with
  | zero =>
    intro s _ h1 h2
    rw [show propagateFuel 0 s = s from rfl] at h2
    rw [h1] at h2
    cases h2
  | succ n ih =>
    intro s hwc h1 h2
    unfold propagateFuel at h2
    rw [if_neg (by rw [h1]; exact Bool.false_ne_true)] at h2
    split at h2
    · rw [h1] at h2; cases h2
    · rename_i hfu
      obtain ⟨c, hc, hall⟩ := findUnit_some_none s s.clauses hfu
      rcases c with _ | ⟨x, rest⟩
      · exact absurd rfl (hwc [] hc).1
      · refine ⟨x, ?_, ?_⟩
        · exact UPmem.step _ x hc (List.mem_cons_self _ _)
            (fun y hy hne =>
              UPmem.base _ ((valueLit_lfalse_iff s y).1 (hall y hy)).2)
        · exact UPmem.base _
            ((valueLit_lfalse_iff s x).1 (hall x (List.mem_cons_self _ _))).2
    · rename_i x hx
      obtain ⟨c, hc, hu⟩ := findUnit_some_unit s s.clauses x hx
      obtain ⟨hxc, hxu, hyf, _⟩ := unitLitOf_spec s c x hu
      have hassign : s.assign x = { s with trail := s.trail ++ [x] } :=
        assign_of_lundefined s x hxu
      have hderiv : UPmem s.clauses s.trail x :=
        UPmem.step c x hc hxc
          (fun y hy hne => UPmem.base _ ((valueLit_lfalse_iff s y).1 (hyf y hy hne)).2)
      have hbase : ∀ a ∈ s.trail ++ [x], UPmem s.clauses s.trail a := by
        intro a ha
        rcases List.mem_append.1 ha with ha | ha
        · exact UPmem.base _ ha
        · rcases List.mem_singleton.1 ha with rfl
          exact hderiv
      obtain ⟨z, hz1, hz2⟩ := ih (s.assign x) (by rw [hassign]; exact hwc)
        (by rw [hassign]; exact h1) h2
      rw [hassign] at hz1 hz2
      exact ⟨z, UPmem_trans _ _ _ hbase z hz1, UPmem_trans _ _ _ hbase z.neg hz2⟩

theorem nodup_bounded_length (L : List Nat) (n : Nat) (hnd : L.Nodup)
    (hb : ∀ v ∈ L, v < n) : L.length ≤ n := by
  have h1 : L.toFinset ⊆ Finset.range n := by
    intro v hv
    rw [Finset.mem_range]
    exact hb v (List.mem_toFinset.1 hv)
  have h2 := Finset.card_le_card h1
  rw [List.toFinset_card_of_nodup hnd, Finset.card_range] at h2
  exact h2

theorem trail_length_le (s : Solver) (hwf : WfSolver s) : s.trail.length ≤ s.numVars := by
  have := nodup_bounded_length (s.trail.map Literal.var) s.numVars hwf.2.1
    (fun v hv => by
      obtain ⟨y, hy, rfl⟩ := List.mem_map.1 hv
      exact hwf.2.2 y hy)
  simpa using this

theorem propagateFuel_reaches (n : Nat) :
    ∀ s : Solver, WfSolver s → s.numVars + 1 ≤ s.trail.length + n →
      (propagateFuel n s).inconsistent = true ∨
      findUnit (propagateFuel n s) ((propagateFuel n s).clauses) = none := by
  induction n with
  | zero =>
    intro s hwf hlen
    have := trail_length_le s hwf
    omega
  | succ n ih =>
    intro s hwf hlen
    unfold propagateFuel
    split
    · rename_i h; exact Or.inl h
    split
    · rename_i h hfu
      exact Or.inr hfu
    · exact Or.inl rfl
    · rename_i x hx
      obtain ⟨c, hc, hu⟩ := findUnit_some_unit s s.clauses x hx
      obtain ⟨hxc, hxu, _, _⟩ := unitLitOf_spec s c x hu
      have hwf2 := assign_wf s x hwf hxu ((hwf.1 c hc).2.2 x hxc)
      have hlen2 : (s.assign x).numVars + 1 ≤ (s.assign x).trail.length + n := by
        rw [assign_of_lundefined s x hxu]
        simp only [List.length_append, List.length_cons, List.length_nil]
        simp
        omega
      exact ih (s.assign x) hwf2 hlen2

theorem propagate_id_of_inconsistent (s : Solver) (h : s.inconsistent = true) :
    s.propagate = s := by
  show propagateFuel (s.numVars + 1) s = s
  unfold propagateFuel
  rw [if_pos h]

theorem propagate_id_of_closed (s : Solver) (h1 : s.inconsistent = false)
    (h2 : findUnit s s.clauses = none) : s.propagate = s := by
  show propagateFuel (s.numVars + 1) s = s
  unfold propagateFuel
  rw [if_neg (by rw [h1]; exact Bool.false_ne_true), h2]

/-- The main characterization of `propagate` on a well-formed state: the trail
is extended by semantically derivable, previously undefined literals, and the
result is either in conflict or at an operational fixpoint. -/
theorem propagate_spec (s : Solver) (hwf : WfSolver s) :
    (∃ e, s.propagate.trail = s.trail ++ e ∧
      ∀ x ∈ e, s.valueLit x = .lundefined ∧ UPmem s.clauses s.trail x) ∧
    WfSolver s.propagate ∧
    (s.propagate.inconsistent = true ∨
      findUnit s.propagate s.propagate.clauses = none) := by
  refine ⟨propagateFuel_trail_spec _ s, propagateFuel_wf _ s hwf, ?_⟩
  exact propagateFuel_reaches (s.numVars + 1) s hwf (by omega)

theorem propagate_conflict_sound (s : Solver) (hwc : WfClauses s.numVars s.clauses)
    (h1 : s.inconsistent = false) (h2 : s.propagate.inconsistent = true) :
    ∃ x, UPmem s.clauses s.trail x ∧ UPmem s.clauses s.trail x.neg :=
  propagateFuel_conflict _ s hwc h1 h2

/-- On a well-formed, conflict-free state whose start literals have a
consistent closure, propagation cannot end in conflict. -/
theorem propagate_no_conflict (s : Solver) (hwc : WfClauses s.numVars s.clauses)
    (h1 : s.inconsistent = false) (hcons : UPconsistent s.clauses s.trail) :
    s.propagate.inconsistent = false := by
  by_contra hcon
  rw [Bool.not_eq_false] at hcon
  obtain ⟨x, hx1, hx2⟩ := propagate_conflict_sound s hwc h1 hcon
  exact hcons x ⟨hx1, hx2⟩

/-!
## Core equality of engine states (everything except the proof log)
-/

/-- Two engine states agree on everything except possibly the DRAT log. -/
def coreEq (s1 s2 : Solver) : Prop :=
  s1.numVars = s2.numVars ∧ s1.clauses = s2.clauses ∧ s1.elim = s2.elim ∧
  s1.trail = s2.trail ∧ s1.scopes = s2.scopes ∧
  s1.inconsistent = s2.inconsistent ∧ s1.dratEnabled = s2.dratEnabled

instance (s1 s2 : Solver) : Decidable (coreEq s1 s2) := by
  unfold coreEq
  infer_instance

theorem coreEq_refl (s : Solver) : coreEq s s :=
  ⟨rfl, rfl, rfl, rfl, rfl, rfl, rfl⟩

theorem coreEq_symm (s1 s2 : Solver) (h : coreEq s1 s2) : coreEq s2 s1 :=
  ⟨h.1.symm, h.2.1.symm, h.2.2.1.symm, h.2.2.2.1.symm, h.2.2.2.2.1.symm,
   h.2.2.2.2.2.1.symm, h.2.2.2.2.2.2.symm⟩

theorem coreEq_trans (s1 s2 s3 : Solver) (h : coreEq s1 s2) (h2 : coreEq s2 s3) :
    coreEq s1 s3 :=
  ⟨h.1.trans h2.1, h.2.1.trans h2.2.1, h.2.2.1.trans h2.2.2.1,
   h.2.2.2.1.trans h2.2.2.2.1, h.2.2.2.2.1.trans h2.2.2.2.2.1,
   h.2.2.2.2.2.1.trans h2.2.2.2.2.2.1, h.2.2.2.2.2.2.trans h2.2.2.2.2.2.2⟩

theorem valueLit_congr (s1 s2 : Solver) (h : s1.trail = s2.trail) (l : Literal) :
    s1.valueLit l = s2.valueLit l := by
  unfold Solver.valueLit
  rw [h]

theorem unitLitOf_congr (s1 s2 : Solver) (h : s1.trail = s2.trail) (c : List Literal) :
    unitLitOf s1 c = unitLitOf s2 c := by
  have hv : ∀ y, s1.valueLit y = s2.valueLit y := valueLit_congr s1 s2 h
  unfold unitLitOf
  simp only [hv]

theorem findUnit_congr (s1 s2 : Solver) (h : s1.trail = s2.trail) :
    ∀ cls, findUnit s1 cls = findUnit s2 cls := by
  intro cls
  induction cls with
  | nil => rfl
  | cons c cs ih =>
    have hv : ∀ y, s1.valueLit y = s2.valueLit y := valueLit_congr s1 s2 h
    unfold findUnit
    simp only [hv, unitLitOf_congr s1 s2 h, ih]

theorem assign_coreEq (s1 s2 : Solver) (h : coreEq s1 s2) (l : Literal) :
    coreEq (s1.assign l) (s2.assign l) := by
  obtain ⟨h1, h2, h3, h4, h5, h6, h7⟩ := h
  unfold Solver.assign
  rw [valueLit_congr s1 s2 h4]
  split <;> exact ⟨h1, h2, h3, by simp [h4], h5, by simp [h6], h7⟩

theorem push_coreEq (s1 s2 : Solver) (h : coreEq s1 s2) : coreEq s1.push s2.push := by
  obtain ⟨h1, h2, h3, h4, h5, h6, h7⟩ := h
  exact ⟨h1, h2, h3, h4, by simp [Solver.push, h4, h5], h6, h7⟩

theorem pop1_coreEq (s1 s2 : Solver) (h : coreEq s1 s2) : coreEq s1.pop1 s2.pop1 := by
  obtain ⟨h1, h2, h3, h4, h5, h6, h7⟩ := h
  unfold Solver.pop1
  rw [h5]
  split <;> exact ⟨h1, h2, h3, by simp [h4], by simp_all, by simp_all, h7⟩

theorem dratAdd_coreEq (s : Solver) (a b : Literal) : coreEq (s.dratAdd a b) s := by
  unfold Solver.dratAdd
  split
  · exact ⟨rfl, rfl, rfl, rfl, rfl, rfl, rfl⟩
  · exact coreEq_refl s

theorem propagateFuel_coreEq (n : Nat) :
    ∀ s1 s2 : Solver, coreEq s1 s2 →
      coreEq (propagateFuel n s1) (propagateFuel n s2) := by
  induction n with
  | zero => intro s1 s2 h; exact h
  | succ n ih =>
    intro s1 s2 h
    have hinc : s1.inconsistent = s2.inconsistent := h.2.2.2.2.2.1
    have hfu : findUnit s1 s1.clauses = findUnit s2 s2.clauses := by
      rw [findUnit_congr s1 s2 h.2.2.2.1 s1.clauses, h.2.1]
    unfold propagateFuel
    by_cases h1 : s1.inconsistent = true
    · rw [if_pos h1, if_pos (by rw [← hinc]; exact h1)]
      exact h
    · rw [if_neg h1, if_neg (by rw [← hinc]; exact h1)]
      rcases hcase : findUnit s1 s1.clauses with _ | xo
      · have hcase2 : findUnit s2 s2.clauses = none := by rw [← hfu, hcase]
        rw [hcase2]
        exact h
      · have hcase2 : findUnit s2 s2.clauses = some xo := by rw [← hfu, hcase]
        rw [hcase2]
        rcases xo with _ | x
        · exact ⟨h.1, h.2.1, h.2.2.1, h.2.2.2.1, h.2.2.2.2.1, rfl, h.2.2.2.2.2.2⟩
        · exact ih _ _ (assign_coreEq s1 s2 h x)

theorem propagate_coreEq (s1 s2 : Solver) (h : coreEq s1 s2) :
    coreEq s1.propagate s2.propagate := by
  unfold Solver.propagate
  rw [h.1]
  exact propagateFuel_coreEq _ s1 s2 h

theorem wf_coreEq (s1 s2 : Solver) (h : coreEq s1 s2) (hwf : WfSolver s2) :
    WfSolver s1 := by
  unfold WfSolver at hwf ⊢
  rw [h.1, h.2.1, h.2.2.2.1]
  exact hwf

@[simp]
theorem push_valueLit (s : Solver) (l : Literal) : s.push.valueLit l = s.valueLit l := rfl

theorem set_inconsistent_id (s : Solver) (h : s.inconsistent = false) :
    ({ s with inconsistent := false } : Solver) = s := by
  cases s
  simp_all

theorem push_assign_eq (s : Solver) (l : Literal) (h : s.valueLit l = .lundefined) :
    s.push.assign l =
      { s with scopes := s.trail.length :: s.scopes, trail := s.trail ++ [l] } := by
  rw [assign_of_lundefined s.push l (by rw [push_valueLit]; exact h)]
  rfl

theorem wf_push (s : Solver) (h : WfSolver s) : WfSolver s.push := h

/-- The invariant under which a binary-neighbour probe of `l2` (with `L` the
literal whose scoped propagation preceded the loop) can be shown to derive
nothing new. -/
theorem probe_no_conflict_of_closure (st : PState) (L l2 : Literal)
    (hwf : WfSolver st.s)
    (hni : st.s.inconsistent = false)
    (hv : st.s.valueLit l2 = .lundefined)
    (hl2 : UPmem st.s.clauses (st.s.trail ++ [L]) l2)
    (hLcons : UPconsistent st.s.clauses (st.s.trail ++ [L])) :
    (st.s.push.assign l2).propagate.inconsistent = false := by
  have hsub : ∀ x, UPmem st.s.clauses (st.s.trail ++ [l2]) x →
      UPmem st.s.clauses (st.s.trail ++ [L]) x := by
    intro x hx
    refine UPmem_trans _ _ _ ?_ x hx
    intro a ha
    rcases List.mem_append.1 ha with ha | ha
    · exact UPmem.base _ (List.mem_append_left _ ha)
    · rcases List.mem_singleton.1 ha with rfl
      exact hl2
  have hAeq := push_assign_eq st.s l2 hv
  apply propagate_no_conflict
  · rw [hAeq]
    exact hwf.1
  · rw [hAeq]
    exact hni
  · rw [hAeq]
    dsimp only
    intro x hx
    exact hLcons x ⟨hsub x hx.1, hsub x.neg hx.2⟩

/-- On the invariant, the probe fragment of `l2` contains nothing of
`m_assigned`: every double-forced candidate is already permanently true. -/
theorem probe_fragment_filter_nil (st : PState) (L l2 : Literal)
    (hwf : WfSolver st.s)
    (hv : st.s.valueLit l2 = .lundefined)
    (hl2 : UPmem st.s.clauses (st.s.trail ++ [L]) l2)
    (hA : ∀ x ∈ st.assigned, UPmem st.s.clauses (st.s.trail ++ [L]) x → x ∈ st.s.trail) :
    ((st.s.push.assign l2).propagate.trail.drop
      ((st.s.push.assign l2).trail.length)).filter (fun x => x ∈ st.assigned) = [] := by
  have hsub : ∀ x, UPmem st.s.clauses (st.s.trail ++ [l2]) x →
      UPmem st.s.clauses (st.s.trail ++ [L]) x := by
    intro x hx
    refine UPmem_trans _ _ _ ?_ x hx
    intro a ha
    rcases List.mem_append.1 ha with ha | ha
    · exact UPmem.base _ (List.mem_append_left _ ha)
    · rcases List.mem_singleton.1 ha with rfl
      exact hl2
  have hAeq := push_assign_eq st.s l2 hv
  obtain ⟨P, hP, hPel⟩ := propagateFuel_trail_spec ((st.s.push.assign l2).numVars + 1)
    (st.s.push.assign l2)
  rw [show (st.s.push.assign l2).propagate = propagateFuel ((st.s.push.assign l2).numVars + 1)
    (st.s.push.assign l2) from rfl, hP, List.drop_left]
  rw [List.filter_eq_nil_iff]
  intro x hx
  obtain ⟨hxu, hxd⟩ := hPel x hx
  rw [hAeq] at hxu hxd
  dsimp only at hxu hxd
  intro hxa
  have hxa2 : x ∈ st.assigned := by simpa using hxa
  have hxt : x ∈ st.s.trail := hA x hxa2 (hsub x hxd)
  rw [valueLit_lundef_iff] at hxu
  exact hxu.1 (List.mem_append_left _ hxt)

/-- A cache-miss probe of a binary neighbour derives nothing: it returns true
and only resets `m_to_assert` and charges one cost unit. -/
theorem try_lit_miss_noop (st : PState) (L l2 : Literal)
    (hwf : WfSolver st.s)
    (hni : st.s.inconsistent = false)
    (hcl : findUnit st.s st.s.clauses = none)
    (hv : st.s.valueLit l2 = .lundefined)
    (hl2 : UPmem st.s.clauses (st.s.trail ++ [L]) l2)
    (hLcons : UPconsistent st.s.clauses (st.s.trail ++ [L]))
    (hA : ∀ x ∈ st.assigned, UPmem st.s.clauses (st.s.trail ++ [L]) x → x ∈ st.s.trail)
    (hmiss : cachedImpliedLits st l2 = none) :
    try_lit st l2 false = (true, { st with toAssert := [], counter := st.counter - 1 }) := by
  have hnc := probe_no_conflict_of_closure st L l2 hwf hni hv hl2 hLcons
  have hfil := probe_fragment_filter_nil st L l2 hwf hv hl2 hA
  have hpop : (st.s.push.assign l2).propagate.pop1 = st.s := by
    rw [probe_pop1 st.s l2, set_inconsistent_id st.s hni]
  unfold try_lit
  rw [hmiss]
  dsimp only
  rw [hnc, hfil]
  simp only [if_neg (show ¬(false = true) from by decide)]
  rw [hpop]
  simp only [List.foldl_nil]
  rw [propagate_id_of_closed st.s hni hcl]
  simp [hni]

theorem cachedImpliedLits_spec (st : PState) (l : Literal) (lits : List Literal)
    (h : cachedImpliedLits st l = some lits) :
    st.probingCache = true ∧
    ∃ e, st.cachedBins.get? l.index = some e ∧ e.available = true ∧ e.lits = lits := by
  unfold cachedImpliedLits at h
  split at h
  · cases h
  · rename_i hpc
    refine ⟨by simpa using hpc, ?_⟩
    split at h
    · cases h
    · rename_i e he
      split at h
      · rename_i hav
        refine ⟨e, he, hav, ?_⟩
        injection h with hh
      · cases h

theorem indexLit_index (l : Literal) : indexLit l.index = l := by
  cases l with
  | mk v s =>
    unfold indexLit Literal.index
    cases s
    · simp
    · simp [Nat.mul_add_div, Nat.mul_add_mod]

theorem cacheFold_hit_noop (l : Literal) (lits : List Literal) :
    ∀ st : PState, (∀ x ∈ lits, x ∈ st.assigned → st.s.valueLit x = .ltrue) →
      ∃ (s2 : Solver) (k : Nat), coreEq s2 st.s ∧
        lits.foldl (fun st lit => if lit ∈ st.assigned then assertStep l st lit else st) st
          = { st with s := s2, numAssigned := st.numAssigned + k } := by
  induction lits with
  | nil =>
    intro st h
    exact ⟨st.s, 0, coreEq_refl _, by simp⟩
  | cons x xs ih =>
    intro st h
    rw [List.foldl_cons]
    by_cases hx : x ∈ st.assigned
    · rw [if_pos hx]
      have hxt : st.s.valueLit x = .ltrue := h x (List.mem_cons_self _ _) hx
      have hstep : assertStep l st x =
          { st with
              s := (st.s.dratAdd l x).dratAdd l.neg x
              numAssigned := st.numAssigned + 1 } := by
        unfold assertStep
        dsimp only
        rw [assign_of_ltrue _ _ (by rw [dratAdd_valueLit, dratAdd_valueLit]; exact hxt)]
      have hcd : coreEq ((st.s.dratAdd l x).dratAdd l.neg x) st.s :=
        coreEq_trans _ _ _ (dratAdd_coreEq (st.s.dratAdd l x) l.neg x) (dratAdd_coreEq st.s l x)
      have hcond : ∀ y ∈ xs, y ∈ (assertStep l st x).assigned →
          (assertStep l st x).s.valueLit y = .ltrue := by
        intro y hy hya
        rw [hstep] at hya ⊢
        dsimp only at hya ⊢
        rw [valueLit_congr _ st.s hcd.2.2.2.1]
        exact h y (List.mem_cons_of_mem _ hy) hya
      obtain ⟨s2, k, hc2, heq⟩ := ih (assertStep l st x) hcond
      refine ⟨s2, k + 1, ?_, ?_⟩
      · refine coreEq_trans _ _ _ hc2 ?_
        rw [hstep]
        exact hcd
      · rw [heq, hstep]
        dsimp only
        have : st.numAssigned + 1 + k = st.numAssigned + (k + 1) := by omega
        rw [this]
    · rw [if_neg hx]
      exact ih st (fun y hy => h y (List.mem_cons_of_mem _ hy))

/-- A cache-hit probe of a binary neighbour derives nothing: every asserted
cached literal is already permanently true, so the engine core is unchanged
(only the proof log and the forced count can move). -/
theorem try_lit_hit_noop (st : PState) (L l2 : Literal) (lits : List Literal)
    (hni : st.s.inconsistent = false)
    (hcl : findUnit st.s st.s.clauses = none)
    (hl2 : UPmem st.s.clauses (st.s.trail ++ [L]) l2)
    (hA : ∀ x ∈ st.assigned, UPmem st.s.clauses (st.s.trail ++ [L]) x → x ∈ st.s.trail)
    (hcache : cachedImpliedLits st l2 = some lits)
    (hvalid : ∀ x ∈ lits, UPmem st.s.clauses (st.s.trail ++ [l2]) x) :
    ∃ (s2 : Solver) (k : Nat), coreEq s2 st.s ∧
      try_lit st l2 false = (true, { st with s := s2, numAssigned := st.numAssigned + k }) := by
  have hsub : ∀ x, UPmem st.s.clauses (st.s.trail ++ [l2]) x →
      UPmem st.s.clauses (st.s.trail ++ [L]) x := by
    intro x hx
    refine UPmem_trans _ _ _ ?_ x hx
    intro a ha
    rcases List.mem_append.1 ha with ha | ha
    · exact UPmem.base _ (List.mem_append_left _ ha)
    · rcases List.mem_singleton.1 ha with rfl
      exact hl2
  have htrue : ∀ x ∈ lits, x ∈ st.assigned → st.s.valueLit x = .ltrue := by
    intro x hx hxa
    exact (valueLit_ltrue_iff st.s x).2 (hA x hxa (hsub x (hvalid x hx)))
  obtain ⟨s2, k, hc, heq⟩ := cacheFold_hit_noop l2 lits st htrue
  have hni2 : s2.inconsistent = false := by rw [hc.2.2.2.2.2.1]; exact hni
  have hcl2 : findUnit s2 s2.clauses = none := by
    rw [findUnit_congr s2 st.s hc.2.2.2.1, hc.2.1]
    exact hcl
  refine ⟨s2, k, hc, ?_⟩
  unfold try_lit
  rw [hcache]
  simp only [if_neg (show ¬(false = true) from by decide)]
  rw [heq]
  dsimp only
  rw [propagate_id_of_closed s2 hni2 hcl2]
  simp [hni2]

/-- Validity of the binary-implication cache: every available entry lists only
literals derivable by unit propagation once the literal of the entry is
assumed on top of the current trail. -/
def CacheValid (st : PState) : Prop :=
  ∀ i e, st.cachedBins.get? i = some e → e.available = true →
    ∀ x ∈ e.lits, UPmem st.s.clauses (st.s.trail ++ [indexLit i]) x

theorem binNeighbors_spec (s : Solver) (l l2 : Literal) (h : l2 ∈ binNeighbors s l) :
    ∃ c ∈ s.clauses, c = [l, l2] ∨ c = [l2, l] := by
  unfold binNeighbors at h
  obtain ⟨c, hc, hmap⟩ := List.mem_filterMap.1 h
  rcases c with _ | ⟨a, _ | ⟨b, _ | _⟩⟩ <;> simp only [] at hmap
  · cases hmap
  · cases hmap
  · split at hmap
    · rename_i ha
      cases hmap
      exact ⟨[a, l2], hc, Or.inl (by rw [ha])⟩
    · split at hmap
      · rename_i ha hb
        cases hmap
        exact ⟨[l2, b], hc, Or.inr (by rw [hb])⟩
      · cases hmap
  · cases hmap

theorem neighbor_derivable (s : Solver) (l l2 : Literal) (c : List Literal)
    (hc : c ∈ s.clauses) (hcor : c = [l, l2] ∨ c = [l2, l]) :
    UPmem s.clauses (s.trail ++ [l.neg]) l2 := by
  rcases hcor with rfl | rfl
  · refine UPmem.step [l, l2] l2 hc (by simp) ?_
    intro y hy hne
    rcases List.mem_cons.1 hy with rfl | hy2
    · exact UPmem.base _ (List.mem_append_right _ (by simp))
    · rcases List.mem_singleton.1 hy2 with rfl
      exact absurd rfl hne
  · refine UPmem.step [l2, l] l2 hc (by simp) ?_
    intro y hy hne
    rcases List.mem_cons.1 hy with rfl | hy2
    · exact absurd rfl hne
    · rcases List.mem_singleton.1 hy2 with rfl
      exact UPmem.base _ (List.mem_append_right _ (by simp))

theorem neighbor_var_lt (s : Solver) (hwf : WfSolver s) (l l2 : Literal) (c : List Literal)
    (hc : c ∈ s.clauses) (hcor : c = [l, l2] ∨ c = [l2, l]) : l2.var < s.numVars := by
  rcases hcor with rfl | rfl
  · exact (hwf.1 _ hc).2.2 l2 (by simp)
  · exact (hwf.1 _ hc).2.2 l2 (by simp)

/-- The extended binary-neighbour loop derives nothing: on the invariant
established by the probe of the negated literal, every iteration (cache hit
or miss) leaves the engine core, the cache and `m_assigned` unchanged. -/
theorem binLoop_noop (l : Literal) (ns : List Literal) :
    ∀ st : PState,
      WfSolver st.s →
      st.s.inconsistent = false →
      findUnit st.s st.s.clauses = none →
      UPconsistent st.s.clauses (st.s.trail ++ [l.neg]) →
      (∀ x ∈ st.assigned, UPmem st.s.clauses (st.s.trail ++ [l.neg]) x → x ∈ st.s.trail) →
      CacheValid st →
      (∀ l2 ∈ ns, ∃ c ∈ st.s.clauses, c = [l, l2] ∨ c = [l2, l]) →
      coreEq (binLoop l ns st).s st.s ∧
      (binLoop l ns st).cachedBins = st.cachedBins ∧
      (binLoop l ns st).assigned = st.assigned := by
  induction ns with
  | nil => intro st _ _ _ _ _ _ _; exact ⟨coreEq_refl _, rfl, rfl⟩
  | cons l2 rest ih =>
    intro st hwf hni hcl hLcons hA hcv hns
    unfold binLoop
    split
    · exact ih st hwf hni hcl hLcons hA hcv (fun a ha => hns a (List.mem_cons_of_mem _ ha))
    split
    · exact ih st hwf hni hcl hLcons hA hcv (fun a ha => hns a (List.mem_cons_of_mem _ ha))
    rename_i hskip hval
    have hv : st.s.valueLit l2 = .lundefined := by
      by_contra hcon
      exact hval (by simpa using hcon)
    obtain ⟨c, hc, hcor⟩ := hns l2 (List.mem_cons_self _ _)
    have hl2d : UPmem st.s.clauses (st.s.trail ++ [l.neg]) l2 :=
      neighbor_derivable st.s l l2 c hc hcor
    rcases hcc : cachedImpliedLits st l2 with _ | lits
    · have hmeq := try_lit_miss_noop st l.neg l2 hwf hni hcl hv hl2d hLcons hA hcc
      rw [hmeq]
      simp only [if_neg (show ¬((!true) = true) from by decide)]
      rw [if_neg (show ¬(({ st with
            toAssert := ([] : List Literal)
            counter := st.counter - 1 } : PState).s.inconsistent = true) from by
          dsimp only; rw [hni]; exact Bool.false_ne_true)]
      exact ih _ hwf hni hcl hLcons hA hcv
        (fun a ha => hns a (List.mem_cons_of_mem _ ha))
    · obtain ⟨hpc, e, he, hav, helits⟩ := cachedImpliedLits_spec st l2 lits hcc
      have hvalid : ∀ x ∈ lits, UPmem st.s.clauses (st.s.trail ++ [l2]) x := by
        intro x hx
        have h2 := hcv l2.index e he hav x (by rw [helits]; exact hx)
        rw [indexLit_index] at h2
        exact h2
      obtain ⟨s2, k, hc2, heq⟩ := try_lit_hit_noop st l.neg l2 lits hni hcl hl2d hA hcc hvalid
      have hni2 : s2.inconsistent = false := by rw [hc2.2.2.2.2.2.1]; exact hni
      rw [heq]
      simp only [if_neg (show ¬((!true) = true) from by decide)]
      rw [if_neg (show ¬(({ st with
            s := s2
            numAssigned := st.numAssigned + k } : PState).s.inconsistent = true) from by
          dsimp only; rw [hni2]; exact Bool.false_ne_true)]
      have hwf2 : WfSolver s2 := wf_coreEq s2 st.s hc2 hwf
      have hcl2 : findUnit s2 s2.clauses = none := by
        rw [findUnit_congr s2 st.s hc2.2.2.2.1, hc2.2.1]
        exact hcl
      obtain ⟨r1, r2, r3⟩ := ih { st with s := s2, numAssigned := st.numAssigned + k }
        hwf2 hni2 hcl2
        (by dsimp only; rw [hc2.2.1, hc2.2.2.2.1]; exact hLcons)
        (by dsimp only; rw [hc2.2.1, hc2.2.2.2.1]; exact hA)
        (by
          intro i e2 he2 hav2 x hx
          dsimp only at he2 ⊢
          rw [hc2.2.1, hc2.2.2.2.1]
          exact hcv i e2 he2 hav2 x hx)
        (by
          intro a ha
          dsimp only
          rw [hc2.2.1]
          exact hns a (List.mem_cons_of_mem _ ha))
      refine ⟨coreEq_trans _ _ _ r1 hc2, r2, r3⟩

theorem ite_cond_true {α : Sort _} (a b : α) : (if (true : Bool) = true then a else b) = a := rfl

theorem ite_cond_false {α : Sort _} (a b : α) : (if (false : Bool) = true then a else b) = b := rfl

theorem lundefined_restrict (base e : List Literal) (x : Literal)
    (h : x ∉ base ++ e ∧ x.neg ∉ base ++ e) : x ∉ base ∧ x.neg ∉ base :=
  ⟨fun hm => h.1 (List.mem_append_left _ hm), fun hm => h.2 (List.mem_append_left _ hm)⟩

/-- The closure of the trail extended by an undefined literal is consistent
whenever the scoped propagation of that literal does not conflict. -/
theorem closure_consistent_of_probe (st : PState) (L : Literal)
    (hwf : WfSolver st.s)
    (hv : st.s.valueLit L = .lundefined)
    (hvar : L.var < st.s.numVars)
    (hnc : (st.s.push.assign L).propagate.inconsistent = false) :
    UPconsistent st.s.clauses (st.s.trail ++ [L]) := by
  have hAeq := push_assign_eq st.s L hv
  have hwfA : WfSolver (st.s.push.assign L) :=
    assign_wf st.s.push L (wf_push st.s hwf) hv hvar
  have hwfP : WfSolver (st.s.push.assign L).propagate := propagateFuel_wf _ _ hwfA
  have hreach := propagateFuel_reaches ((st.s.push.assign L).numVars + 1)
    (st.s.push.assign L) hwfA (by omega)
  rw [show propagateFuel ((st.s.push.assign L).numVars + 1) (st.s.push.assign L)
      = (st.s.push.assign L).propagate from rfl] at hreach
  rcases hreach with hbad | hfix
  · rw [hnc] at hbad; cases hbad
  have hclosed := closed_of_findUnit_none _ hwfP hfix
  intro x ⟨h1, h2⟩
  have hb : ∀ a ∈ (st.s.push.assign L).trail,
      UPmem (st.s.push.assign L).propagate.clauses (st.s.push.assign L).trail a :=
    fun a ha => UPmem.base _ ha
  obtain ⟨e, he⟩ := propagate_trail_extend (st.s.push.assign L)
  have hmem1 : x ∈ (st.s.push.assign L).propagate.trail := by
    apply hclosed
    apply UPmem_mono _ (st.s.push.assign L).trail _ (by rw [he]; exact fun a ha => List.mem_append_left _ ha)
    rw [propagate_clauses]
    rw [hAeq]
    exact h1
  have hmem2 : x.neg ∈ (st.s.push.assign L).propagate.trail := by
    apply hclosed
    apply UPmem_mono _ (st.s.push.assign L).trail _ (by rw [he]; exact fun a ha => List.mem_append_left _ ha)
    rw [propagate_clauses]
    rw [hAeq]
    exact h2
  exact not_mem_neg_of_nodupVars _ hwfP.2.1 x hmem1 hmem2

@[simp]
theorem pop1_numVars (s : Solver) : s.pop1.numVars = s.numVars := by
  unfold Solver.pop1; split <;> rfl

@[simp]
theorem pop1_clauses (s : Solver) : s.pop1.clauses = s.clauses := by
  unfold Solver.pop1; split <;> rfl

@[simp]
theorem pop1_elim (s : Solver) : s.pop1.elim = s.elim := by
  unfold Solver.pop1; split <;> rfl

@[simp]
theorem pop1_dratEnabled (s : Solver) : s.pop1.dratEnabled = s.dratEnabled := by
  unfold Solver.pop1; split <;> rfl

@[simp]
theorem cache_bins_s_numVars (st : PState) (l : Literal) (o : Nat) :
    (cache_bins st l o).s.numVars = st.s.numVars := by
  unfold cache_bins
  split
  · rfl
  · split
    · rfl
    · dsimp only
      split <;> rfl

@[simp]
theorem cache_bins_s_clauses (st : PState) (l : Literal) (o : Nat) :
    (cache_bins st l o).s.clauses = st.s.clauses := by
  unfold cache_bins
  split
  · rfl
  · split
    · rfl
    · dsimp only
      split <;> rfl

@[simp]
theorem cache_bins_s_elim (st : PState) (l : Literal) (o : Nat) :
    (cache_bins st l o).s.elim = st.s.elim := by
  unfold cache_bins
  split
  · rfl
  · split
    · rfl
    · dsimp only
      split <;> rfl

@[simp]
theorem cache_bins_s_dratEnabled (st : PState) (l : Literal) (o : Nat) :
    (cache_bins st l o).s.dratEnabled = st.s.dratEnabled := by
  unfold cache_bins
  split
  · rfl
  · split
    · rfl
    · dsimp only
      split <;> rfl

theorem cache_bins_s_coreEq (st : PState) (l : Literal) (o : Nat) :
    coreEq (cache_bins st l o).s st.s := by
  refine ⟨by simp, by simp, by simp, by simp, by simp, by simp, by simp⟩

@[simp]
theorem assertStep_s_numVars (l : Literal) (st : PState) (x : Literal) :
    (assertStep l st x).s.numVars = st.s.numVars := by
  simp [assertStep]

@[simp]
theorem assertStep_s_clauses (l : Literal) (st : PState) (x : Literal) :
    (assertStep l st x).s.clauses = st.s.clauses := by
  simp [assertStep]

@[simp]
theorem assertStep_s_elim (l : Literal) (st : PState) (x : Literal) :
    (assertStep l st x).s.elim = st.s.elim := by
  simp [assertStep]

@[simp]
theorem assertStep_s_dratEnabled (l : Literal) (st : PState) (x : Literal) :
    (assertStep l st x).s.dratEnabled = st.s.dratEnabled := by
  simp [assertStep]

@[simp]
theorem assertFold_s_numVars (l : Literal) (xs : List Literal) :
    ∀ st : PState, (xs.foldl (assertStep l) st).s.numVars = st.s.numVars := by
  induction xs with
  | nil => intro st; rfl
  | cons x xs ih => intro st; rw [List.foldl_cons, ih, assertStep_s_numVars]

@[simp]
theorem assertFold_s_clauses (l : Literal) (xs : List Literal) :
    ∀ st : PState, (xs.foldl (assertStep l) st).s.clauses = st.s.clauses := by
  induction xs with
  | nil => intro st; rfl
  | cons x xs ih => intro st; rw [List.foldl_cons, ih, assertStep_s_clauses]

@[simp]
theorem assertFold_s_elim (l : Literal) (xs : List Literal) :
    ∀ st : PState, (xs.foldl (assertStep l) st).s.elim = st.s.elim := by
  induction xs with
  | nil => intro st; rfl
  | cons x xs ih => intro st; rw [List.foldl_cons, ih, assertStep_s_elim]

@[simp]
theorem assertFold_s_dratEnabled (l : Literal) (xs : List Literal) :
    ∀ st : PState, (xs.foldl (assertStep l) st).s.dratEnabled = st.s.dratEnabled := by
  induction xs with
  | nil => intro st; rfl
  | cons x xs ih => intro st; rw [List.foldl_cons, ih, assertStep_s_dratEnabled]

/-- A four-variable formula on which the binary-implication cache changes the
facts a forced driver pass derives: `x0 ∨ ¬x3` makes `¬x3` a binary neighbour
of `x0` whose cache entry is written while variable 3 is visited, and
`(¬x1 ∨ x2) ∧ (¬x1 ∨ ¬x2)` makes the probe of `x1` conflict, forcing `¬x1`. -/
def cexClauses : List (List Literal) :=
  [[⟨0, false⟩, ⟨3, true⟩], [⟨1, true⟩, ⟨2, false⟩], [⟨1, true⟩, ⟨2, true⟩]]

/-- The cache-enabled probing state of the C5 counterexample: scan resumes at
variable 3 and the pass budget is four probe units. -/
def stProbeOn : PState :=
  { mkPState (mkSolver 4 cexClauses) with stoppedAt := 3, probingLimit := 4 }

/-- The same probing state with the binary-implication cache disabled. -/
def stProbeOff : PState := { stProbeOn with probingCache := false }

/-- C5 counterexample: a fixed formula and collaborator state (four variables,
clauses `x0 ∨ ¬x3`, `¬x1 ∨ x2`, `¬x1 ∨ ¬x2`, scan cursor at variable 3,
budget limit 4) on which a forced driver pass with the cache enabled
permanently asserts `¬x1`, while the identical pass with the cache disabled
asserts nothing: the cache-hit path of `try_lit` skips the cost decrement of
the propagation path (sat_probing.cpp line 87), so the cache-disabled pass
exhausts its budget and is interrupted (returning false) before visiting
variable 1, whose probe would have derived the fact.  Disabling the cache
thus changes the derived facts, not only performance. -/
theorem cache_changes_derived_facts_cex :
    stProbeOff = { stProbeOn with probingCache := false } ∧
    (run stProbeOn true).1 = true ∧
    (run stProbeOn true).2.s.trail = [⟨1, true⟩] ∧
    (run stProbeOff true).1 = false ∧
    (run stProbeOff true).2.s.trail = [] := by
  refine ⟨rfl, by decide, by decide, by decide, by decide⟩

/-- On a clean assertion list (undefined literals of pairwise distinct
variables) the assertion fold leaves the conflict flag untouched. -/
theorem assertFold_inconsistent_clean (l : Literal) (xs : List Literal) :
    ∀ st : PState,
      (∀ x ∈ xs, st.s.valueLit x = .lundefined) →
      ((xs.map Literal.var).Nodup) →
      (xs.foldl (assertStep l) st).s.inconsistent = st.s.inconsistent := by
  induction xs with
  | nil => intro st _ _; rfl
  | cons x xs ih =>
    intro st h1 h2
    have hx : (assertStep l st x).s.trail = st.s.trail ++ [x] :=
      assertStep_trail_of_lundefined l st x (h1 x (List.mem_cons_self _ _))
    rw [List.map_cons] at h2
    have hvarx : x.var ∉ xs.map Literal.var := (List.nodup_cons.1 h2).1
    have h1' : ∀ y ∈ xs, ((assertStep l st x).s).valueLit y = .lundefined := by
      intro y hy
      have hy1 := h1 y (List.mem_cons_of_mem _ hy)
      rw [valueLit_lundef_iff] at hy1 ⊢
      have hvar : y.var ≠ x.var := by
        intro hcon
        exact hvarx (hcon ▸ List.mem_map_of_mem Literal.var hy)
      rw [hx]
      constructor
      · intro hmem
        rcases List.mem_append.1 hmem with hm | hm
        · exact hy1.1 hm
        · rcases List.mem_singleton.1 hm with rfl
          exact hvar rfl
      · intro hmem
        rcases List.mem_append.1 hmem with hm | hm
        · exact hy1.2 hm
        · have : y.neg = x := List.mem_singleton.1 hm
          apply hvar
          rw [show y.var = y.neg.var from rfl, this]
    rw [List.foldl_cons, ih _ h1' (List.nodup_cons.1 h2).2]
    have hstep : (assertStep l st x).s.inconsistent = st.s.inconsistent := by
      unfold assertStep
      dsimp only
      rw [assign_of_lundefined _ _ (by
        rw [dratAdd_valueLit, dratAdd_valueLit]
        exact h1 x (List.mem_cons_self _ _))]
      rw [dratAdd_inconsistent, dratAdd_inconsistent]
    exact hstep


/-- The cache writer changes nothing of the engine state except possibly the
proof log. -/
theorem cache_bins_s_drat_only (st : PState) (l : Literal) (o : Nat) :
    ∃ d, (cache_bins st l o).s = { st.s with drat := d } := by
  unfold cache_bins
  split
  · exact ⟨st.s.drat, by cases st.s with | mk => rfl⟩
  · split
    · exact ⟨st.s.drat, by cases st.s with | mk => rfl⟩
    · dsimp only
      split
      · exact ⟨_, rfl⟩
      · exact ⟨st.s.drat, by cases st.s with | mk => rfl⟩

/-- Backtracking commutes with updates of the proof log. -/
theorem pop1_drat_update (s : Solver) (d : List (Literal × Literal)) :
    Solver.pop1 { s with drat := d } = { s.pop1 with drat := d } := by
  cases s with
  | mk nv cls el tr sc inc de dr => cases sc <;> rfl

theorem drat_update_of_clear_inconsistent (s : Solver) (h : s.inconsistent = false)
    (d : List (Literal × Literal)) :
    ({ { s with inconsistent := false } with drat := d } : Solver) = { s with drat := d } := by
  cases s
  simp_all

/-- Validity of a cache array relative to a clause database and a base trail:
every available entry lists only literals derivable by unit propagation once
the entry's literal is assumed on top of the trail. -/
def CacheOk (cls : List (List Literal)) (tr : List Literal) (bins : List CacheEntry) : Prop :=
  ∀ i e, bins.get? i = some e → e.available = true →
    ∀ x ∈ e.lits, UPmem cls (tr ++ [indexLit i]) x

theorem cacheValid_iff_cacheOk (st : PState) :
    CacheValid st ↔ CacheOk st.s.clauses st.s.trail st.cachedBins := Iff.rfl

theorem CacheOk_nil (cls : List (List Literal)) (tr : List Literal) : CacheOk cls tr [] := by
  intro i e he
  simp at he

theorem CacheOk_mono (cls : List (List Literal)) (tr ext : List Literal)
    (bins : List CacheEntry) (h : CacheOk cls tr bins) :
    CacheOk cls (tr ++ ext) bins := by
  intro i e he hav x hx
  refine UPmem_mono cls (tr ++ [indexLit i]) _ ?_ x (h i e he hav x hx)
  intro a ha
  rcases List.mem_append.1 ha with ha | ha
  · exact List.mem_append_left _ (List.mem_append_left _ ha)
  · exact List.mem_append_right _ ha

theorem reserveCache_get_cases (bins : List CacheEntry) (n i : Nat) (e : CacheEntry)
    (h : (reserveCache bins n).get? i = some e) :
    bins.get? i = some e ∨ e = ⟨false, []⟩ := by
  unfold reserveCache at h
  rw [List.get?_eq_getElem?] at h
  by_cases hi : i < bins.length
  · rw [List.getElem?_append_left hi] at h
    left
    rw [List.get?_eq_getElem?]
    exact h
  · rw [List.getElem?_append_right (Nat.le_of_not_lt hi), List.getElem?_replicate] at h
    split at h
    · right
      injection h with h2
      exact h2.symm
    · cases h

theorem cacheWrite_get_cases (bins : List CacheEntry) (idx : Nat) (v : CacheEntry)
    (i : Nat) (e : CacheEntry)
    (h : ((reserveCache bins (idx + 1)).set idx v).get? i = some e) :
    (i = idx ∧ e = v) ∨ bins.get? i = some e ∨ e = ⟨false, []⟩ := by
  by_cases hi : i = idx
  · subst hi
    rw [List.get?_eq_getElem?] at h
    have hlen : i < (reserveCache bins (i + 1)).length := by
      unfold reserveCache
      rw [List.length_append, List.length_replicate]
      omega
    rw [List.getElem?_set_self hlen] at h
    injection h with h2
    exact Or.inl ⟨rfl, h2.symm⟩
  · rw [List.get?_eq_getElem?, List.getElem?_set_ne (Ne.symm hi)] at h
    exact Or.inr (reserveCache_get_cases bins (idx + 1) i e
      (by rw [List.get?_eq_getElem?]; exact h))

/-- Writing a valid fragment for a literal keeps the cache valid. -/
theorem CacheOk_write (cls : List (List Literal)) (tr : List Literal)
    (bins : List CacheEntry) (l : Literal) (frag : List Literal)
    (hok : CacheOk cls tr bins)
    (hfrag : ∀ x ∈ frag, UPmem cls (tr ++ [l]) x) :
    CacheOk cls tr ((reserveCache bins (l.index + 1)).set l.index ⟨true, frag⟩) := by
  intro i e he hav x hx
  rcases cacheWrite_get_cases bins l.index ⟨true, frag⟩ i e he with ⟨h1, h2⟩ | hold | h3
  · subst h1
    subst h2
    rw [indexLit_index]
    exact hfrag x hx
  · exact hok i e hold hav x hx
  · subst h3
    cases hav

/-- Marking an entry unavailable keeps the cache valid. -/
theorem CacheOk_reset (cls : List (List Literal)) (tr : List Literal)
    (bins : List CacheEntry) (i0 : Nat) (hok : CacheOk cls tr bins) :
    CacheOk cls tr (bins.set i0 ⟨false, []⟩) := by
  intro i e he hav x hx
  rw [List.get?_eq_getElem?, List.getElem?_set] at he
  split at he
  · split at he
    · injection he with h2
      rw [← h2] at hav
      cases hav
    · cases he
  · exact hok i e (by rw [List.get?_eq_getElem?]; exact he) hav x hx

/-- The cache writer either leaves the array unchanged or installs the trail
fragment for the probed literal's slot. -/
theorem cache_bins_cachedBins_cases (st : PState) (l : Literal) (o : Nat) :
    (cache_bins st l o).cachedBins = st.cachedBins ∨
    (cache_bins st l o).cachedBins =
      (reserveCache st.cachedBins (l.index + 1)).set l.index ⟨true, st.s.trail.drop o⟩ := by
  unfold cache_bins
  split
  · exact Or.inl rfl
  · split
    · exact Or.inl rfl
    · dsimp only
      split
      · exact Or.inr rfl
      · exact Or.inr rfl

/-- Characterization of the cache-populating probe `try_lit st L true` on a
well-formed, conflict-free engine: the engine stays well-formed, the clause
database, the variable count and `m_assigned` are untouched, the trail only
grows, the result is in conflict or at an operational fixpoint, and on a
`true` return the engine is conflict-free, the closure of the final trail
extended by `L` is consistent, and every collected literal derivable under
`L` is already on the final trail. -/
theorem try_lit_true_spec (st : PState) (L : Literal)
    (hwf : WfSolver st.s)
    (hni : st.s.inconsistent = false)
    (hv : st.s.valueLit L = .lundefined)
    (hvar : L.var < st.s.numVars)
    (hLna : L ∉ st.assigned) :
    WfSolver (try_lit st L true).2.s ∧
    (try_lit st L true).2.s.clauses = st.s.clauses ∧
    (try_lit st L true).2.s.numVars = st.s.numVars ∧
    (try_lit st L true).2.assigned = st.assigned ∧
    (∃ ext, (try_lit st L true).2.s.trail = st.s.trail ++ ext) ∧
    ((try_lit st L true).2.s.inconsistent = true ∨
      findUnit (try_lit st L true).2.s (try_lit st L true).2.s.clauses = none) ∧
    ((try_lit st L true).2.cachedBins = st.cachedBins ∨
      ∃ frag, (∀ x ∈ frag, UPmem st.s.clauses (st.s.trail ++ [L]) x) ∧
        (try_lit st L true).2.cachedBins =
          (reserveCache st.cachedBins (L.index + 1)).set L.index ⟨true, frag⟩) ∧
    ((try_lit st L true).1 = true →
      (try_lit st L true).2.s.inconsistent = false ∧
      UPconsistent st.s.clauses ((try_lit st L true).2.s.trail ++ [L]) ∧
      (∀ x ∈ st.assigned,
        UPmem st.s.clauses ((try_lit st L true).2.s.trail ++ [L]) x →
          x ∈ (try_lit st L true).2.s.trail)) := by
  have hAeq := push_assign_eq st.s L hv
  have hwfA : WfSolver (st.s.push.assign L) :=
    assign_wf st.s.push L (wf_push st.s hwf) hv hvar
  by_cases hconf : (st.s.push.assign L).propagate.inconsistent = true
  · have heq : try_lit st L true =
        (false, { st with
            s := (((st.s.push.assign L).propagate.pop1).assign L.neg).propagate
            toAssert := []
            counter := st.counter - 1 }) := by
      unfold try_lit
      rw [ite_cond_true]
      dsimp only
      rw [if_pos hconf]
    have hvneg : st.s.valueLit L.neg = .lundefined := by
      rw [valueLit_lundef_iff] at hv ⊢
      exact ⟨hv.2, by rw [neg_neg]; exact hv.1⟩
    have hpop : (st.s.push.assign L).propagate.pop1 = st.s := by
      rw [probe_pop1, set_inconsistent_id st.s hni]
    have hwfB : WfSolver (st.s.assign L.neg) :=
      assign_wf st.s L.neg hwf hvneg hvar
    obtain ⟨⟨e, he, _⟩, hwfP, hfix⟩ := propagate_spec (st.s.assign L.neg) hwfB
    rw [heq]
    dsimp only
    rw [hpop]
    refine ⟨hwfP, by simp, by simp, rfl, ?_, hfix, Or.inl rfl, ?_⟩
    · refine ⟨L.neg :: e, ?_⟩
      rw [he, assign_of_lundefined st.s L.neg hvneg]
      simp
    · intro h
      exact absurd h (by decide)
  · have hncf : (st.s.push.assign L).propagate.inconsistent = false := by
      rwa [Bool.not_eq_true] at hconf
    obtain ⟨P, hP, hPel⟩ :=
      propagateFuel_trail_spec ((st.s.push.assign L).numVars + 1) (st.s.push.assign L)
    have hprobeTrail : (st.s.push.assign L).propagate.trail = (st.s.trail ++ [L]) ++ P := by
      show (propagateFuel ((st.s.push.assign L).numVars + 1) (st.s.push.assign L)).trail = _
      rw [hP, hAeq]
    have hwfProbe : WfSolver (st.s.push.assign L).propagate :=
      propagateFuel_wf _ _ hwfA
    have hAtrail : (st.s.push.assign L).trail = st.s.trail ++ [L] := by rw [hAeq]
    have hPund : ∀ x ∈ P, x ∉ st.s.trail ++ [L] ∧ x.neg ∉ st.s.trail ++ [L] := by
      intro x hx
      have h1 := (hPel x hx).1
      rw [hAeq, valueLit_lundef_iff] at h1
      exact h1
    have hPder : ∀ x ∈ P, UPmem st.s.clauses (st.s.trail ++ [L]) x := by
      intro x hx
      have h2 := (hPel x hx).2
      rw [hAeq] at h2
      exact h2
    have hPnodup : (P.map Literal.var).Nodup := by
      have h3 := hwfProbe.2.1
      rw [hprobeTrail] at h3
      simp only [List.map_append] at h3
      exact (List.nodup_append.1 h3).2.1
    set probe := (st.s.push.assign L).propagate with hprobeDef
    set oldSz := (st.s.push.assign L).trail.length with hold
    set T := (probe.trail.drop oldSz).filter (fun x => x ∈ st.assigned) with hTdef
    set B := cache_bins { st with
        toAssert := T
        s := probe
        counter := st.counter - 1 } L oldSz with hBdef
    set G := B.toAssert.foldl (assertStep L) { B with s := B.s.pop1 } with hGdef
    set R := G.s.propagate with hRdef
    obtain ⟨d, hd⟩ := cache_bins_s_drat_only { st with
        toAssert := T
        s := probe
        counter := st.counter - 1 } L oldSz
    have hd2 : B.s = { probe with drat := d } := hd
    have hpop1 : B.s.pop1 = { st.s with drat := d } := by
      rw [hd2, pop1_drat_update, hprobeDef, probe_pop1,
        drat_update_of_clear_inconsistent st.s hni d]
    have hfragP : probe.trail.drop oldSz = P := by
      rw [hprobeTrail, hold, hAtrail, List.drop_left]
    have hTP : T = P.filter (fun x => x ∈ st.assigned) := by
      rw [hTdef, hfragP]
    have hTsub : ∀ x ∈ T, x ∈ P ∧ x ∈ st.assigned := by
      intro x hx
      rw [hTP] at hx
      have h4 := List.mem_filter.1 hx
      exact ⟨h4.1, by simpa using h4.2⟩
    have hTder : ∀ x ∈ T, UPmem st.s.clauses (st.s.trail ++ [L]) x :=
      fun x hx => hPder x (hTsub x hx).1
    have hTnodup : (T.map Literal.var).Nodup := by
      refine List.Nodup.sublist (List.Sublist.map _ ?_) hPnodup
      rw [hTP]
      exact List.filter_sublist _
    have hTund0 : ∀ x ∈ T, st.s.valueLit x = .lundefined := by
      intro x hx
      rw [valueLit_lundef_iff]
      exact lundefined_restrict st.s.trail [L] x (hPund x (hTsub x hx).1)
    have hBtoAssert : B.toAssert = T := by
      rw [hBdef, cache_bins_toAssert]
    have hIval : ∀ x ∈ T, ({ B with s := B.s.pop1 } : PState).s.valueLit x = .lundefined := by
      intro x hx
      dsimp only
      rw [hpop1, valueLit_congr ({ st.s with drat := d }) st.s rfl x]
      exact hTund0 x hx
    have hIa : ∀ x ∈ B.toAssert, ({ B with s := B.s.pop1 } : PState).s.valueLit x = .lundefined := by
      rw [hBtoAssert]
      exact hIval
    have hIb : (B.toAssert.map Literal.var).Nodup := by
      rw [hBtoAssert]
      exact hTnodup
    have hGtrail : G.s.trail = st.s.trail ++ T := by
      rw [hGdef, assertFold_trail L B.toAssert _ hIa hIb, hBtoAssert]
      dsimp only
      rw [hpop1]
    have hGincons : G.s.inconsistent = false := by
      rw [hGdef, assertFold_inconsistent_clean L B.toAssert _ hIa hIb]
      dsimp only
      rw [hpop1]
      exact hni
    have hGclauses : G.s.clauses = st.s.clauses := by
      rw [hGdef, assertFold_s_clauses]
      dsimp only
      rw [hpop1]
    have hGnumVars : G.s.numVars = st.s.numVars := by
      rw [hGdef, assertFold_s_numVars]
      dsimp only
      rw [hpop1]
    have hGassigned : G.assigned = st.assigned := by
      rw [hGdef, assertFold_assigned]
      dsimp only
      rw [hBdef, cache_bins_assigned]
    have hTvarsub : ∀ x ∈ T, x.var < st.s.numVars := by
      intro x hx
      have hxp : x ∈ probe.trail := by
        rw [hprobeTrail]
        exact List.mem_append_right _ (hTsub x hx).1
      have h5 := hwfProbe.2.2 x hxp
      rw [hprobeDef, propagate_numVars, assign_numVars] at h5
      exact h5
    have hGnodup : (G.s.trail.map Literal.var).Nodup := by
      rw [hGtrail]
      have h3 := hwfProbe.2.1
      rw [hprobeTrail] at h3
      refine List.Nodup.sublist (List.Sublist.map _ ?_) h3
      rw [List.append_assoc]
      refine List.Sublist.append_left ?_ st.s.trail
      refine List.Sublist.trans ?_ (List.sublist_cons_self _ _)
      rw [hTP]
      exact List.filter_sublist _
    have hwfG : WfSolver G.s := by
      refine ⟨?_, hGnodup, ?_⟩
      · rw [hGclauses, hGnumVars]
        exact hwf.1
      · intro x hx
        rw [hGtrail] at hx
        rw [hGnumVars]
        rcases List.mem_append.1 hx with hx | hx
        · exact hwf.2.2 x hx
        · exact hTvarsub x hx
    obtain ⟨Q, hQ, hQel⟩ := propagateFuel_trail_spec (G.s.numVars + 1) G.s
    have hRtrail : R.trail = (st.s.trail ++ T) ++ Q := by
      rw [hRdef]
      show (propagateFuel (G.s.numVars + 1) G.s).trail = _
      rw [hQ, hGtrail]
    have hwfR : WfSolver R := by
      rw [hRdef]
      exact propagateFuel_wf _ _ hwfG
    have hfixR : R.inconsistent = true ∨ findUnit R R.clauses = none := by
      rw [hRdef]
      exact (propagate_spec G.s hwfG).2.2
    have hRclauses : R.clauses = st.s.clauses := by
      rw [hRdef, propagate_clauses, hGclauses]
    have hRnumVars : R.numVars = st.s.numVars := by
      rw [hRdef, propagate_numVars, hGnumVars]
    have heq : try_lit st L true = (!R.inconsistent, { G with s := R }) := by
      rw [hRdef, hGdef, hBdef, hTdef, hold, hprobeDef]
      unfold try_lit
      rw [ite_cond_true]
      dsimp only
      rw [if_neg (show ¬((st.s.push.assign L).propagate.inconsistent = true) from by
        rw [hncf]
        exact Bool.false_ne_true)]
      rw [ite_cond_true]
    have hGbins : G.cachedBins = B.cachedBins := by
      rw [hGdef, assertFold_cachedBins]
    have hBbins : B.cachedBins = st.cachedBins ∨
        B.cachedBins = (reserveCache st.cachedBins (L.index + 1)).set L.index ⟨true, P⟩ := by
      rcases cache_bins_cachedBins_cases { st with
          toAssert := T
          s := probe
          counter := st.counter - 1 } L oldSz with h1 | h2
      · exact Or.inl h1
      · refine Or.inr ?_
        rw [show (({ st with
            toAssert := T
            s := probe
            counter := st.counter - 1 } : PState)).s.trail.drop oldSz = P from hfragP] at h2
        exact h2
    have hbinsConc : G.cachedBins = st.cachedBins ∨
        ∃ frag, (∀ x ∈ frag, UPmem st.s.clauses (st.s.trail ++ [L]) x) ∧
          G.cachedBins =
            (reserveCache st.cachedBins (L.index + 1)).set L.index ⟨true, frag⟩ := by
      rw [hGbins]
      rcases hBbins with hb | hb
      · exact Or.inl hb
      · exact Or.inr ⟨P, hPder, hb⟩
    rw [heq]
    dsimp only
    refine ⟨hwfR, hRclauses, hRnumVars, hGassigned,
      ⟨T ++ Q, by rw [hRtrail, List.append_assoc]⟩, hfixR, hbinsConc, ?_⟩
    intro hret
    have hRincons : R.inconsistent = false := by simpa using hret
    have hLcons : UPconsistent st.s.clauses (st.s.trail ++ [L]) :=
      closure_consistent_of_probe st L hwf hv hvar hncf
    have hQder : ∀ x ∈ Q, UPmem st.s.clauses (st.s.trail ++ T) x := by
      intro x hx
      have h2 := (hQel x hx).2
      rw [hGclauses, hGtrail] at h2
      exact h2
    have hTbase : ∀ a ∈ st.s.trail ++ T, UPmem st.s.clauses (st.s.trail ++ [L]) a := by
      intro a ha
      rcases List.mem_append.1 ha with ha | ha
      · exact UPmem.base _ (List.mem_append_left _ ha)
      · exact hTder a ha
    have hsubR : ∀ a ∈ R.trail ++ [L], UPmem st.s.clauses (st.s.trail ++ [L]) a := by
      intro a ha
      rcases List.mem_append.1 ha with ha | ha
      · rw [hRtrail] at ha
        rcases List.mem_append.1 ha with ha | ha
        · exact hTbase a ha
        · exact UPmem_trans _ _ _ hTbase a (hQder a ha)
      · rcases List.mem_singleton.1 ha with rfl
        exact UPmem.base _ (List.mem_append_right _ (List.mem_singleton.2 rfl))
    have hconsR : UPconsistent st.s.clauses (R.trail ++ [L]) := by
      intro x hx
      exact hLcons x ⟨UPmem_trans _ _ _ hsubR x hx.1, UPmem_trans _ _ _ hsubR x.neg hx.2⟩
    have hprobeFix : findUnit probe probe.clauses = none := by
      rcases (propagate_spec (st.s.push.assign L) hwfA).2.2 with hbad | hfix
      · exact absurd (show probe.inconsistent = true from hbad)
          (by rw [hncf]; exact Bool.false_ne_true)
      · exact hfix
    have hclosedP := closed_of_findUnit_none probe hwfProbe hprobeFix
    have hclseq : probe.clauses = st.s.clauses := by
      rw [hprobeDef, propagate_clauses, assign_clauses]
      rfl
    refine ⟨hRincons, hconsR, ?_⟩
    intro x hxa hxder
    have hxd0 : UPmem st.s.clauses (st.s.trail ++ [L]) x := UPmem_trans _ _ _ hsubR x hxder
    have hxP : x ∈ probe.trail := by
      apply hclosedP
      rw [hclseq]
      refine UPmem_mono _ (st.s.trail ++ [L]) _ ?_ x hxd0
      intro a ha
      rw [hprobeTrail]
      exact List.mem_append_left _ ha
    rw [hprobeTrail] at hxP
    rcases List.mem_append.1 hxP with hx1 | hx2
    · rcases List.mem_append.1 hx1 with hx3 | hx4
      · rw [hRtrail]
        exact List.mem_append_left _ (List.mem_append_left _ hx3)
      · rcases List.mem_singleton.1 hx4 with rfl
        exact absurd hxa hLna
    · have hxT : x ∈ T := by
        rw [hTP]
        exact List.mem_filter.2 ⟨hx2, by simpa using hxa⟩
      rw [hRtrail]
      exact List.mem_append_left _ (List.mem_append_right _ hxT)

theorem assertStep_s_coreEq (l : Literal) (stA stB : PState) (x : Literal)
    (h : coreEq stA.s stB.s) : coreEq (assertStep l stA x).s (assertStep l stB x).s := by
  unfold assertStep
  dsimp only
  refine assign_coreEq _ _ ?_ x
  refine coreEq_trans _ stA.s _ ?_ ?_
  · exact coreEq_trans _ _ _ (dratAdd_coreEq _ _ _) (dratAdd_coreEq _ _ _)
  · exact coreEq_trans _ stB.s _ h
      (coreEq_symm _ _ (coreEq_trans _ _ _ (dratAdd_coreEq _ _ _) (dratAdd_coreEq _ _ _)))

theorem assertFold_s_coreEq (l : Literal) (xs : List Literal) :
    ∀ stA stB : PState, coreEq stA.s stB.s →
      coreEq ((xs.foldl (assertStep l) stA).s) ((xs.foldl (assertStep l) stB).s) := by
  induction xs with
  | nil => intro stA stB h; exact h
  | cons x xs ih =>
    intro stA stB h
    rw [List.foldl_cons, List.foldl_cons]
    exact ih _ _ (assertStep_s_coreEq l stA stB x h)

/-- With the cache configuration flag off, the cache writer is the identity,
so the whole prober leaves the cache array untouched. -/
theorem cache_bins_of_nocache (st : PState) (l : Literal) (o : Nat)
    (h : st.probingCache = false) : cache_bins st l o = st := by
  unfold cache_bins
  rw [if_pos (by rw [h]; rfl)]

theorem try_lit_cachedBins_of_nocache (st : PState) (l : Literal) (u : Bool)
    (h : st.probingCache = false) :
    (try_lit st l u).2.cachedBins = st.cachedBins := by
  unfold try_lit
  cases hu : (if u then none else cachedImpliedLits st l) with
  | some lits =>
    dsimp only
    rw [cacheFold_eq_assertFold]
    simp
  | none =>
    dsimp only
    split
    · simp
    · split
      · rename_i hcu
        rw [cache_bins_of_nocache _ _ _ (by simpa using h)]
        simp
      · simp

theorem binLoop_cachedBins_of_nocache (l : Literal) (ns : List Literal) :
    ∀ st : PState, st.probingCache = false →
      (binLoop l ns st).cachedBins = st.cachedBins := by
  induction ns with
  | nil => intro st _; rfl
  | cons l2 rest ih =>
    intro st h
    unfold binLoop
    split
    · exact ih st h
    split
    · exact ih st h
    rcases htl : try_lit st l2 false with ⟨ok, st2⟩
    have hf : st2.probingCache = st.probingCache := by
      have := try_lit_cfg st l2 false
      rw [htl] at this
      exact ((cfg_proj _ _ this).2.2.2.2.2.1)
    have hb : st2.cachedBins = st.cachedBins := by
      have := try_lit_cachedBins_of_nocache st l2 false h
      rw [htl] at this
      exact this
    dsimp only
    split
    · exact hb
    split
    · exact hb
    · rw [ih st2 (by rw [hf]; exact h)]
      exact hb

theorem try_lit_probingCache (st : PState) (l : Literal) (u : Bool) :
    (try_lit st l u).2.probingCache = st.probingCache :=
  (cfg_proj _ _ (try_lit_cfg st l u)).2.2.2.2.2.1

theorem process_core_cachedBins_of_nocache (st : PState) (v : BVar)
    (h : st.probingCache = false) :
    (process_core st v).cachedBins = st.cachedBins := by
  unfold process_core
  dsimp only
  split
  · rfl
  · rw [cache_bins_of_nocache _ _ _ (by exact h)]
    split
    · rw [try_lit_cachedBins_of_nocache _ _ _ (by exact h)]
    · split
      · rw [binLoop_cachedBins_of_nocache _ _ _
          (by rw [try_lit_probingCache]; exact h)]
        rw [try_lit_cachedBins_of_nocache _ _ _ (by exact h)]
      · rw [try_lit_cachedBins_of_nocache _ _ _ (by exact h)]

/-- The intermediate state of `try_lit st L true` after the scoped probe of
`L` succeeded: the engine holds the propagated scope, `m_to_assert` the
collected double-implication candidates, and one cost unit is charged. -/
def tryLitProbe (st : PState) (L : Literal) : PState :=
  { st with
      toAssert := ((st.s.push.assign L).propagate.trail.drop
          (st.s.push.assign L).trail.length).filter (fun x => x ∈ st.assigned)
      s := (st.s.push.assign L).propagate
      counter := st.counter - 1 }

/-- The final state of `try_lit st L true` on the non-conflict path: cache the
fragment, close the scope, assert the candidates, propagate. -/
def tryLitOkState (st : PState) (L : Literal) : PState :=
  let B := cache_bins (tryLitProbe st L) L (st.s.push.assign L).trail.length
  let G := B.toAssert.foldl (assertStep L) { B with s := B.s.pop1 }
  { G with s := G.s.propagate }

theorem try_lit_true_eq_conflict (st : PState) (L : Literal)
    (hconf : (st.s.push.assign L).propagate.inconsistent = true) :
    try_lit st L true =
      (false, { st with
          s := (((st.s.push.assign L).propagate.pop1).assign L.neg).propagate
          toAssert := []
          counter := st.counter - 1 }) := by
  unfold try_lit
  rw [ite_cond_true]
  dsimp only
  rw [if_pos hconf]

theorem try_lit_true_eq_ok (st : PState) (L : Literal)
    (hncf : (st.s.push.assign L).propagate.inconsistent = false) :
    try_lit st L true =
      (!(tryLitOkState st L).s.inconsistent, tryLitOkState st L) := by
  unfold try_lit tryLitOkState tryLitProbe
  rw [ite_cond_true]
  dsimp only
  rw [if_neg (show ¬((st.s.push.assign L).propagate.inconsistent = true) from by
    rw [hncf]
    exact Bool.false_ne_true)]
  rw [ite_cond_true]

/-- Lockstep congruence of the non-conflict path of the cache-populating
probe: states agreeing on the engine core and on `m_assigned` produce
core-equal results. -/
theorem tryLitOkState_coreEq (stC stN : PState) (L : Literal)
    (hc : coreEq stC.s stN.s) (ha : stC.assigned = stN.assigned) :
    coreEq (tryLitOkState stC L).s (tryLitOkState stN L).s := by
  have hA : coreEq (stC.s.push.assign L) (stN.s.push.assign L) :=
    assign_coreEq _ _ (push_coreEq _ _ hc) L
  have hprobe : coreEq (stC.s.push.assign L).propagate (stN.s.push.assign L).propagate :=
    propagate_coreEq _ _ hA
  have hT : (tryLitProbe stC L).toAssert = (tryLitProbe stN L).toAssert := by
    unfold tryLitProbe
    dsimp only
    rw [hprobe.2.2.2.1, hA.2.2.2.1, ha]
  have hPB : coreEq (tryLitProbe stC L).s (tryLitProbe stN L).s := hprobe
  have hB : coreEq
      (cache_bins (tryLitProbe stC L) L (stC.s.push.assign L).trail.length).s
      (cache_bins (tryLitProbe stN L) L (stN.s.push.assign L).trail.length).s :=
    coreEq_trans _ _ _ (cache_bins_s_coreEq _ _ _)
      (coreEq_trans _ _ _ hPB (coreEq_symm _ _ (cache_bins_s_coreEq _ _ _)))
  have hBT : (cache_bins (tryLitProbe stC L) L (stC.s.push.assign L).trail.length).toAssert
      = (cache_bins (tryLitProbe stN L) L (stN.s.push.assign L).trail.length).toAssert := by
    rw [cache_bins_toAssert, cache_bins_toAssert, hT]
  unfold tryLitOkState
  dsimp only
  refine propagate_coreEq _ _ ?_
  rw [hBT]
  exact assertFold_s_coreEq L _ _ _ (pop1_coreEq _ _ hB)

/-- Lockstep of the cache-populating probe: core-equal states with equal
`m_assigned` give the same return value and core-equal results. -/
theorem try_lit_true_rel (stC stN : PState) (L : Literal)
    (hc : coreEq stC.s stN.s) (ha : stC.assigned = stN.assigned) :
    (try_lit stC L true).1 = (try_lit stN L true).1 ∧
    coreEq (try_lit stC L true).2.s (try_lit stN L true).2.s := by
  have hA : coreEq (stC.s.push.assign L) (stN.s.push.assign L) :=
    assign_coreEq _ _ (push_coreEq _ _ hc) L
  have hprobe : coreEq (stC.s.push.assign L).propagate (stN.s.push.assign L).propagate :=
    propagate_coreEq _ _ hA
  have hcondeq : (stC.s.push.assign L).propagate.inconsistent
      = (stN.s.push.assign L).propagate.inconsistent := hprobe.2.2.2.2.2.1
  by_cases hcf : (stC.s.push.assign L).propagate.inconsistent = true
  · have hcfN : (stN.s.push.assign L).propagate.inconsistent = true := by
      rw [← hcondeq]
      exact hcf
    rw [try_lit_true_eq_conflict stC L hcf, try_lit_true_eq_conflict stN L hcfN]
    refine ⟨rfl, ?_⟩
    dsimp only
    exact propagate_coreEq _ _ (assign_coreEq _ _ (pop1_coreEq _ _ hprobe) L.neg)
  · have hncf : (stC.s.push.assign L).propagate.inconsistent = false := by
      rwa [Bool.not_eq_true] at hcf
    have hncfN : (stN.s.push.assign L).propagate.inconsistent = false := by
      rw [← hcondeq]
      exact hncf
    have hok := tryLitOkState_coreEq stC stN L hc ha
    rw [try_lit_true_eq_ok stC L hncf, try_lit_true_eq_ok stN L hncfN]
    refine ⟨?_, hok⟩
    dsimp only
    rw [hok.2.2.2.2.2.1]

theorem coreEq_drat_update (s : Solver) (d : List (Literal × Literal)) :
    coreEq { s with drat := d } s :=
  ⟨rfl, rfl, rfl, rfl, rfl, rfl, rfl⟩

theorem fixpoint_coreEq (s1 s2 : Solver) (h : coreEq s1 s2)
    (hf : s2.inconsistent = true ∨ findUnit s2 s2.clauses = none) :
    s1.inconsistent = true ∨ findUnit s1 s1.clauses = none := by
  rcases hf with hf | hf
  · exact Or.inl (by rw [h.2.2.2.2.2.1]; exact hf)
  · refine Or.inr ?_
    rw [findUnit_congr s1 s2 h.2.2.2.1, h.2.1]
    exact hf

/-- The state of the variable processor just before the probe of the negated
literal: cost charged, `m_assigned` holds the scope fragment of the probe of
the positive literal, the fragment is cached, the scope is closed. -/
def processMid (st : PState) (v : BVar) : PState :=
  let st1 : PState := { st with
      counter := st.counter - 1
      s := (st.s.push.assign ⟨v, false⟩).propagate
      assigned := (st.s.push.assign ⟨v, false⟩).propagate.trail.drop
        (st.s.push.assign ⟨v, false⟩).trail.length }
  let st2 := cache_bins st1 ⟨v, false⟩ (st.s.push.assign ⟨v, false⟩).trail.length
  { st2 with s := st2.s.pop1 }

theorem process_core_eq_ok (st : PState) (v : BVar)
    (hncf : (st.s.push.assign ⟨v, false⟩).propagate.inconsistent = false) :
    process_core st v =
      (if !(try_lit (processMid st v) (Literal.neg ⟨v, false⟩) true).1
       then (try_lit (processMid st v) (Literal.neg ⟨v, false⟩) true).2
       else if (try_lit (processMid st v) (Literal.neg ⟨v, false⟩) true).2.probingBinary
       then binLoop ⟨v, false⟩
         (binNeighbors (try_lit (processMid st v) (Literal.neg ⟨v, false⟩) true).2.s ⟨v, false⟩)
         (try_lit (processMid st v) (Literal.neg ⟨v, false⟩) true).2
       else (try_lit (processMid st v) (Literal.neg ⟨v, false⟩) true).2) := by
  unfold process_core processMid
  dsimp only
  rw [if_neg (show ¬((st.s.push.assign ⟨v, false⟩).propagate.inconsistent = true) from by
    rw [hncf]
    exact Bool.false_ne_true)]

theorem processMid_assigned_eq (stC stN : PState) (v : BVar) (hc : coreEq stC.s stN.s) :
    (processMid stC v).assigned = (processMid stN v).assigned := by
  unfold processMid
  dsimp only
  rw [cache_bins_assigned, cache_bins_assigned]
  dsimp only
  rw [(propagate_coreEq _ _ (assign_coreEq _ _ (push_coreEq _ _ hc) ⟨v, false⟩)).2.2.2.1,
      (assign_coreEq _ _ (push_coreEq _ _ hc) ⟨v, false⟩).2.2.2.1]

/-- Facts about the pre-probe state of the variable processor: the engine is
restored up to the proof log, the cache flag is preserved, the negated probe
literal is not among the collected fragment, with the cache off the cache
array is untouched, and with a valid input cache the array stays valid for
the restored trail. -/
theorem processMid_spec (st : PState) (v : BVar)
    (hni : st.s.inconsistent = false)
    (hv : st.s.valueVar v = .lundefined) :
    (∃ d, (processMid st v).s = { st.s with drat := d }) ∧
    (processMid st v).probingCache = st.probingCache ∧
    Literal.neg ⟨v, false⟩ ∉ (processMid st v).assigned ∧
    (st.probingCache = false → (processMid st v).cachedBins = st.cachedBins) ∧
    (CacheValid st → CacheOk st.s.clauses st.s.trail (processMid st v).cachedBins) := by
  have hAeq := push_assign_eq st.s ⟨v, false⟩ hv
  obtain ⟨P1, hP1, hP1el⟩ :=
    propagateFuel_trail_spec ((st.s.push.assign ⟨v, false⟩).numVars + 1)
      (st.s.push.assign ⟨v, false⟩)
  have hP1' : (st.s.push.assign ⟨v, false⟩).propagate.trail
      = (st.s.push.assign ⟨v, false⟩).trail ++ P1 := hP1
  have hfrag : (st.s.push.assign ⟨v, false⟩).propagate.trail.drop
      (st.s.push.assign ⟨v, false⟩).trail.length = P1 := by
    rw [hP1', List.drop_left]
  have hP1der : ∀ x ∈ P1, UPmem st.s.clauses (st.s.trail ++ [(⟨v, false⟩ : Literal)]) x := by
    intro x hx
    have h2 := (hP1el x hx).2
    rw [hAeq] at h2
    exact h2
  refine ⟨?_, ?_, ?_, ?_, ?_⟩
  · obtain ⟨d, hd⟩ := cache_bins_s_drat_only { st with
        counter := st.counter - 1
        s := (st.s.push.assign ⟨v, false⟩).propagate
        assigned := (st.s.push.assign ⟨v, false⟩).propagate.trail.drop
          (st.s.push.assign ⟨v, false⟩).trail.length } ⟨v, false⟩
      (st.s.push.assign ⟨v, false⟩).trail.length
    refine ⟨d, ?_⟩
    unfold processMid
    dsimp only
    rw [hd]
    dsimp only
    rw [pop1_drat_update, probe_pop1, drat_update_of_clear_inconsistent st.s hni d]
  · unfold processMid
    dsimp only
    rw [cache_bins_probingCache]
  · unfold processMid
    dsimp only
    rw [cache_bins_assigned]
    dsimp only
    rw [hfrag]
    intro hmem
    have h1 := (hP1el _ hmem).1
    rw [hAeq, valueLit_lundef_iff] at h1
    refine h1.2 ?_
    rw [neg_neg]
    exact List.mem_append_right _ (List.mem_singleton.2 rfl)
  · intro h
    unfold processMid
    dsimp only
    rw [cache_bins_of_nocache _ _ _ (by exact h)]
  · intro hcv
    unfold processMid
    dsimp only
    rcases cache_bins_cachedBins_cases { st with
        counter := st.counter - 1
        s := (st.s.push.assign ⟨v, false⟩).propagate
        assigned := (st.s.push.assign ⟨v, false⟩).propagate.trail.drop
          (st.s.push.assign ⟨v, false⟩).trail.length } ⟨v, false⟩
      (st.s.push.assign ⟨v, false⟩).trail.length with hb | hb
    · rw [hb]
      exact hcv
    · rw [hb]
      rw [show ({ st with
          counter := st.counter - 1
          s := (st.s.push.assign ⟨v, false⟩).propagate
          assigned := (st.s.push.assign ⟨v, false⟩).propagate.trail.drop
            (st.s.push.assign ⟨v, false⟩).trail.length } : PState).s.trail.drop
          (st.s.push.assign ⟨v, false⟩).trail.length = P1 from hfrag]
      exact CacheOk_write st.s.clauses st.s.trail st.cachedBins ⟨v, false⟩ P1 hcv hP1der

theorem cacheValid_of_cacheOk_core (st : PState) (cls : List (List Literal))
    (tr : List Literal) (h1 : st.s.clauses = cls) (h2 : st.s.trail = tr)
    (hok : CacheOk cls tr st.cachedBins) : CacheValid st := by
  intro i e he hav x hx
  rw [h1, h2]
  exact hok i e he hav x hx

/-- Lockstep of the variable processor between a cache-enabled and a
cache-disabled run: on core-equal, well-formed, conflict-free inputs, both
visits leave the engine cores equal, and the cache-enabled side stays
well-formed, in conflict or at a fixpoint, and with a valid cache. -/
theorem process_core_rel (stC stN : PState) (v : BVar)
    (hc : coreEq stC.s stN.s)
    (hwfC : WfSolver stC.s)
    (hniC : stC.s.inconsistent = false)
    (hvC : stC.s.valueVar v = .lundefined)
    (hvar : v < stC.s.numVars)
    (hcvC : CacheValid stC)
    (hNflag : stN.probingCache = false)
    (hNbins : stN.cachedBins = []) :
    coreEq (process_core stC v).s (process_core stN v).s ∧
    WfSolver (process_core stC v).s ∧
    ((process_core stC v).s.inconsistent = true ∨
      findUnit (process_core stC v).s (process_core stC v).s.clauses = none) ∧
    CacheValid (process_core stC v) ∧
    (process_core stC v).s.numVars = stC.s.numVars := by
  have hvl : stC.s.valueLit ⟨v, false⟩ = .lundefined := hvC
  have hprobeRel : coreEq (stC.s.push.assign ⟨v, false⟩).propagate
      (stN.s.push.assign ⟨v, false⟩).propagate :=
    propagate_coreEq _ _ (assign_coreEq _ _ (push_coreEq _ _ hc) _)
  by_cases hcf : (stC.s.push.assign ⟨v, false⟩).propagate.inconsistent = true
  · have hcfN : (stN.s.push.assign ⟨v, false⟩).propagate.inconsistent = true := by
      rw [← hprobeRel.2.2.2.2.2.1]
      exact hcf
    rw [process_core_conflict_eq stC v hcf, process_core_conflict_eq stN v hcfN]
    have hvneg : stC.s.valueLit (Literal.neg ⟨v, false⟩) = .lundefined := by
      rw [valueLit_lundef_iff] at hvl ⊢
      exact ⟨hvl.2, by rw [neg_neg]; exact hvl.1⟩
    have hpopC : (stC.s.push.assign ⟨v, false⟩).propagate.pop1 = stC.s := by
      rw [probe_pop1, set_inconsistent_id stC.s hniC]
    have hwfB : WfSolver (stC.s.assign (Literal.neg ⟨v, false⟩)) :=
      assign_wf stC.s _ hwfC hvneg hvar
    obtain ⟨⟨e, he, _⟩, hwfP, hfix⟩ :=
      propagate_spec (stC.s.assign (Literal.neg ⟨v, false⟩)) hwfB
    refine ⟨?_, ?_, ?_, ?_, ?_⟩
    · dsimp only
      exact propagate_coreEq _ _ (assign_coreEq _ _ (pop1_coreEq _ _ hprobeRel) _)
    · dsimp only
      rw [hpopC]
      exact hwfP
    · dsimp only
      rw [hpopC]
      exact hfix
    · refine cacheValid_of_cacheOk_core _ stC.s.clauses
        (stC.s.trail ++ (Literal.neg ⟨v, false⟩ :: e)) ?_ ?_ ?_
      · dsimp only
        rw [hpopC]
        simp
      · dsimp only
        rw [hpopC, he, assign_of_lundefined stC.s _ hvneg]
        simp
      · exact CacheOk_mono _ _ _ _ hcvC
    · dsimp only
      rw [hpopC]
      simp
  · have hncf : (stC.s.push.assign ⟨v, false⟩).propagate.inconsistent = false := by
      rwa [Bool.not_eq_true] at hcf
    have hncfN : (stN.s.push.assign ⟨v, false⟩).propagate.inconsistent = false := by
      rw [← hprobeRel.2.2.2.2.2.1]
      exact hncf
    obtain ⟨⟨dC, hmidC⟩, hmcfC, hLnaC, _, hokC⟩ := processMid_spec stC v hniC hvC
    have hniN : stN.s.inconsistent = false := by
      rw [← hc.2.2.2.2.2.1]
      exact hniC
    have hvN : stN.s.valueVar v = .lundefined := by
      show stN.s.valueLit ⟨v, false⟩ = _
      rw [← valueLit_congr stC.s stN.s hc.2.2.2.1]
      exact hvl
    obtain ⟨⟨dN, hmidN⟩, hmcfN, hLnaN, hbinsN, _⟩ := processMid_spec stN v hniN hvN
    have hmidRel : coreEq (processMid stC v).s (processMid stN v).s := by
      rw [hmidC, hmidN]
      exact coreEq_trans _ _ _ (coreEq_drat_update stC.s dC)
        (coreEq_trans _ _ _ hc (coreEq_symm _ _ (coreEq_drat_update stN.s dN)))
    have hmidAsg : (processMid stC v).assigned = (processMid stN v).assigned :=
      processMid_assigned_eq stC stN v hc
    have hwfMidC : WfSolver (processMid stC v).s := by
      rw [hmidC]
      exact wf_coreEq _ stC.s (coreEq_drat_update stC.s dC) hwfC
    have hniMidC : (processMid stC v).s.inconsistent = false := by
      rw [hmidC]
      exact hniC
    have hvMidC : (processMid stC v).s.valueLit (Literal.neg ⟨v, false⟩) = .lundefined := by
      rw [hmidC]
      rw [show ({ stC.s with drat := dC } : Solver).valueLit (Literal.neg ⟨v, false⟩)
        = stC.s.valueLit (Literal.neg ⟨v, false⟩) from valueLit_congr _ _ rfl _]
      rw [valueLit_lundef_iff] at hvl ⊢
      exact ⟨hvl.2, by rw [neg_neg]; exact hvl.1⟩
    have hvarMidC : (Literal.neg ⟨v, false⟩).var < (processMid stC v).s.numVars := by
      rw [hmidC]
      exact hvar
    obtain ⟨hwf2C, hcls2C, hnum2C, hasg2C, hext2C, hfix2C, hbins2C, himp2C⟩ :=
      try_lit_true_spec (processMid stC v) (Literal.neg ⟨v, false⟩)
        hwfMidC hniMidC hvMidC hvarMidC hLnaC
    have hwfMidN : WfSolver (processMid stN v).s :=
      wf_coreEq _ _ (coreEq_symm _ _ hmidRel) hwfMidC
    have hniMidN : (processMid stN v).s.inconsistent = false := by
      rw [← hmidRel.2.2.2.2.2.1]
      exact hniMidC
    have hvMidN : (processMid stN v).s.valueLit (Literal.neg ⟨v, false⟩) = .lundefined := by
      rw [← valueLit_congr _ _ hmidRel.2.2.2.1]
      exact hvMidC
    have hvarMidN : (Literal.neg ⟨v, false⟩).var < (processMid stN v).s.numVars := by
      rw [← hmidRel.1]
      exact hvarMidC
    obtain ⟨hwf2N, hcls2N, hnum2N, hasg2N, hext2N, hfix2N, hbins2N, himp2N⟩ :=
      try_lit_true_spec (processMid stN v) (Literal.neg ⟨v, false⟩)
        hwfMidN hniMidN hvMidN hvarMidN hLnaN
    obtain ⟨hbool, hrelOut⟩ := try_lit_true_rel (processMid stC v) (processMid stN v)
      (Literal.neg ⟨v, false⟩) hmidRel hmidAsg
    have hcv2C : CacheValid (try_lit (processMid stC v) (Literal.neg ⟨v, false⟩) true).2 := by
      obtain ⟨ext, hext⟩ := hext2C
      have hmtr : (processMid stC v).s.trail = stC.s.trail := by rw [hmidC]
      have hokmid : CacheOk stC.s.clauses stC.s.trail (processMid stC v).cachedBins :=
        hokC hcvC
      refine cacheValid_of_cacheOk_core _ stC.s.clauses
        (stC.s.trail ++ ext) ?_ ?_ ?_
      · rw [hcls2C, hmidC]
      · rw [hext, hmtr]
      · rcases hbins2C with hb | ⟨frag, hfragval, hb⟩
        · rw [hb]
          exact CacheOk_mono _ _ _ _ hokmid
        · rw [hb]
          refine CacheOk_mono _ _ _ _ ?_
          refine CacheOk_write _ _ _ _ frag hokmid ?_
          intro x hx
          have h6 := hfragval x hx
          rw [hmidC] at h6
          rw [show ({ stC.s with drat := dC } : Solver).trail = stC.s.trail from rfl] at h6
          exact h6
    have hcv2N : CacheValid (try_lit (processMid stN v) (Literal.neg ⟨v, false⟩) true).2 := by
      intro i e he hav x hx
      rw [try_lit_cachedBins_of_nocache _ _ _ (by rw [hmcfN]; exact hNflag),
        hbinsN hNflag, hNbins] at he
      simp at he
    rw [process_core_eq_ok stC v hncf, process_core_eq_ok stN v hncfN]
    cases hok : (try_lit (processMid stC v) (Literal.neg ⟨v, false⟩) true).1 with
    | false =>
      have hokN : (try_lit (processMid stN v) (Literal.neg ⟨v, false⟩) true).1 = false := by
        rw [← hbool]
        exact hok
      rw [hokN]
      simp only [Bool.not_false]
      refine ⟨hrelOut, hwf2C, hfix2C, hcv2C, ?_⟩
      show (try_lit (processMid stC v) (Literal.neg ⟨v, false⟩) true).2.s.numVars
        = stC.s.numVars
      rw [hnum2C, hmidC]
    | true =>
      have hokN : (try_lit (processMid stN v) (Literal.neg ⟨v, false⟩) true).1 = true := by
        rw [← hbool]
        exact hok
      rw [hokN]
      simp only [Bool.not_true]
      rw [ite_cond_false, ite_cond_false]
      obtain ⟨hni2C, hcons2C, hA2C⟩ := himp2C hok
      obtain ⟨hni2N, hcons2N, hA2N⟩ := himp2N hokN
      have hcl2C : findUnit (try_lit (processMid stC v) (Literal.neg ⟨v, false⟩) true).2.s
          (try_lit (processMid stC v) (Literal.neg ⟨v, false⟩) true).2.s.clauses = none := by
        rcases hfix2C with h | h
        · rw [hni2C] at h
          cases h
        · exact h
      have hcl2N : findUnit (try_lit (processMid stN v) (Literal.neg ⟨v, false⟩) true).2.s
          (try_lit (processMid stN v) (Literal.neg ⟨v, false⟩) true).2.s.clauses = none := by
        rcases hfix2N with h | h
        · rw [hni2N] at h
          cases h
        · exact h
      obtain ⟨hCnoop1, hCnoop2, hCnoop3⟩ := binLoop_noop ⟨v, false⟩
        (binNeighbors (try_lit (processMid stC v) (Literal.neg ⟨v, false⟩) true).2.s ⟨v, false⟩)
        (try_lit (processMid stC v) (Literal.neg ⟨v, false⟩) true).2
        hwf2C hni2C hcl2C
        (by rw [hcls2C]; exact hcons2C)
        (by rw [hasg2C, hcls2C]; exact hA2C)
        hcv2C
        (fun l2 h => binNeighbors_spec _ _ l2 h)
      obtain ⟨hNnoop1, hNnoop2, hNnoop3⟩ := binLoop_noop ⟨v, false⟩
        (binNeighbors (try_lit (processMid stN v) (Literal.neg ⟨v, false⟩) true).2.s ⟨v, false⟩)
        (try_lit (processMid stN v) (Literal.neg ⟨v, false⟩) true).2
        hwf2N hni2N hcl2N
        (by rw [hcls2N]; exact hcons2N)
        (by rw [hasg2N, hcls2N]; exact hA2N)
        hcv2N
        (fun l2 h => binNeighbors_spec _ _ l2 h)
      have hCf : coreEq (if (try_lit (processMid stC v) (Literal.neg ⟨v, false⟩)
            true).2.probingBinary = true
          then binLoop ⟨v, false⟩
            (binNeighbors (try_lit (processMid stC v) (Literal.neg ⟨v, false⟩) true).2.s
              ⟨v, false⟩)
            (try_lit (processMid stC v) (Literal.neg ⟨v, false⟩) true).2
          else (try_lit (processMid stC v) (Literal.neg ⟨v, false⟩) true).2).s
          (try_lit (processMid stC v) (Literal.neg ⟨v, false⟩) true).2.s := by
        split
        · exact hCnoop1
        · exact coreEq_refl _
      have hCfbins : (if (try_lit (processMid stC v) (Literal.neg ⟨v, false⟩)
            true).2.probingBinary = true
          then binLoop ⟨v, false⟩
            (binNeighbors (try_lit (processMid stC v) (Literal.neg ⟨v, false⟩) true).2.s
              ⟨v, false⟩)
            (try_lit (processMid stC v) (Literal.neg ⟨v, false⟩) true).2
          else (try_lit (processMid stC v) (Literal.neg ⟨v, false⟩) true).2).cachedBins
          = (try_lit (processMid stC v) (Literal.neg ⟨v, false⟩) true).2.cachedBins := by
        split
        · exact hCnoop2
        · rfl
      have hNf : coreEq (if (try_lit (processMid stN v) (Literal.neg ⟨v, false⟩)
            true).2.probingBinary = true
          then binLoop ⟨v, false⟩
            (binNeighbors (try_lit (processMid stN v) (Literal.neg ⟨v, false⟩) true).2.s
              ⟨v, false⟩)
            (try_lit (processMid stN v) (Literal.neg ⟨v, false⟩) true).2
          else (try_lit (processMid stN v) (Literal.neg ⟨v, false⟩) true).2).s
          (try_lit (processMid stN v) (Literal.neg ⟨v, false⟩) true).2.s := by
        split
        · exact hNnoop1
        · exact coreEq_refl _
      refine ⟨?_, ?_, ?_, ?_, ?_⟩
      · exact coreEq_trans _ _ _ hCf (coreEq_trans _ _ _ hrelOut (coreEq_symm _ _ hNf))
      · exact wf_coreEq _ _ hCf hwf2C
      · exact fixpoint_coreEq _ _ hCf hfix2C
      · refine cacheValid_of_cacheOk_core _
          (try_lit (processMid stC v) (Literal.neg ⟨v, false⟩) true).2.s.clauses
          (try_lit (processMid stC v) (Literal.neg ⟨v, false⟩) true).2.s.trail
          hCf.2.1 hCf.2.2.2.1 ?_
        split
        · rw [hCnoop2]
          exact hcv2C
        · exact hcv2C
      · exact hCf.1.trans (hnum2C.trans (by rw [hmidC]))

theorem reset_cache_CacheValid (st : PState) (l : Literal) (h : CacheValid st) :
    CacheValid (reset_cache st l) := by
  unfold reset_cache
  split
  · refine cacheValid_of_cacheOk_core _ st.s.clauses st.s.trail rfl rfl ?_
    exact CacheOk_reset _ _ _ _ h
  · exact h

theorem process_eq_cases (st : PState) (v : BVar) :
    process st v = process_core st v ∨
    process st v = { process_core st v with counter := st.counter } := by
  unfold process
  dsimp only
  split
  · exact Or.inr rfl
  · exact Or.inl rfl

theorem process_s_eq (st : PState) (v : BVar) :
    (process st v).s = (process_core st v).s := by
  rcases process_eq_cases st v with h | h <;> rw [h]

theorem process_cachedBins_eq (st : PState) (v : BVar) :
    (process st v).cachedBins = (process_core st v).cachedBins := by
  rcases process_eq_cases st v with h | h <;> rw [h]

theorem process_cachedBins_of_nocache (st : PState) (v : BVar)
    (h : st.probingCache = false) :
    (process st v).cachedBins = st.cachedBins := by
  rw [process_cachedBins_eq]
  exact process_core_cachedBins_of_nocache st v h

/-- Lockstep of `process` between a cache-enabled and a cache-disabled run:
the success-is-free counter restoration touches only the cost counter, so the
engine cores stay equal and the cache-enabled side keeps its invariants. -/
theorem process_rel (stC stN : PState) (v : BVar)
    (hc : coreEq stC.s stN.s)
    (hwfC : WfSolver stC.s)
    (hniC : stC.s.inconsistent = false)
    (hvC : stC.s.valueVar v = .lundefined)
    (hvar : v < stC.s.numVars)
    (hcvC : CacheValid stC)
    (hNflag : stN.probingCache = false)
    (hNbins : stN.cachedBins = []) :
    coreEq (process stC v).s (process stN v).s ∧
    WfSolver (process stC v).s ∧
    CacheValid (process stC v) ∧
    (process stC v).s.numVars = stC.s.numVars := by
  obtain ⟨h1, h2, _, h4, h5⟩ :=
    process_core_rel stC stN v hc hwfC hniC hvC hvar hcvC hNflag hNbins
  refine ⟨?_, ?_, ?_, ?_⟩
  · rw [process_s_eq, process_s_eq]
    exact h1
  · rw [process_s_eq]
    exact h2
  · refine cacheValid_of_cacheOk_core _ (process_core stC v).s.clauses
      (process_core stC v).s.trail (by rw [process_s_eq]) (by rw [process_s_eq]) ?_
    rw [process_cachedBins_eq]
    exact h4
  · rw [process_s_eq]
    exact h5

/-- Lockstep of the driver scan between a cache-enabled and a cache-disabled
run, conditioned on neither run being interrupted by the cost budget: the
final engine cores are equal. -/
theorem runLoop_rel (num : Nat) (limit : Int) :
    ∀ (is : List Nat) (stC stN : PState),
      (0 < num ∨ is = []) →
      coreEq stC.s stN.s →
      stC.stoppedAt = stN.stoppedAt →
      WfSolver stC.s →
      CacheValid stC →
      stN.probingCache = false →
      stN.cachedBins = [] →
      num = stC.s.numVars →
      (runLoop num limit is stC).1 = true →
      (runLoop num limit is stN).1 = true →
      coreEq (runLoop num limit is stC).2.s (runLoop num limit is stN).2.s := by
  intro is
  induction is with
  | nil =>
    intro stC stN _ h1 _ _ _ _ _ _ _ _
    exact h1
  | cons i rest ih =>
    intro stC stN hor hcore hstop hwf hcv hNflag hNbins hnum hrC hrN
    have hgt : 0 < num := by
      rcases hor with h | h
      · exact h
      · simp at h
    unfold runLoop at hrC hrN ⊢
    dsimp only at hrC hrN ⊢
    rw [← hstop] at hrN ⊢
    by_cases hbC : stC.counter < limit
    · rw [if_pos hbC] at hrC
      simp at hrC
    rw [if_neg hbC] at hrC ⊢
    by_cases hbN : stN.counter < limit
    · rw [if_pos hbN] at hrN
      simp at hrN
    rw [if_neg hbN] at hrN ⊢
    have hieq : stC.s.inconsistent = stN.s.inconsistent := hcore.2.2.2.2.2.1
    by_cases hinc : stC.s.inconsistent = true
    · rw [if_pos hinc] at hrC ⊢
      rw [if_pos (show stN.s.inconsistent = true from by rw [← hieq]; exact hinc)] at hrN ⊢
      exact hcore
    rw [if_neg hinc] at hrC ⊢
    rw [if_neg (show ¬(stN.s.inconsistent = true) from by
      rw [← hieq]; exact hinc)] at hrN ⊢
    have hveq : stN.s.valueVar ((stC.stoppedAt + i) % num)
        = stC.s.valueVar ((stC.stoppedAt + i) % num) := by
      unfold Solver.valueVar
      exact valueLit_congr _ _ (hcore.2.2.2.1).symm _
    have heleq : stN.s.wasEliminated ((stC.stoppedAt + i) % num)
        = stC.s.wasEliminated ((stC.stoppedAt + i) % num) := by
      unfold Solver.wasEliminated
      rw [hcore.2.2.1]
    by_cases hskip : (stC.s.valueVar ((stC.stoppedAt + i) % num) ≠ .lundefined
        || stC.s.wasEliminated ((stC.stoppedAt + i) % num)) = true
    · rw [if_pos hskip] at hrC ⊢
      rw [if_pos (show (stN.s.valueVar ((stC.stoppedAt + i) % num) ≠ .lundefined
          || stN.s.wasEliminated ((stC.stoppedAt + i) % num)) = true from by
        rw [hveq, heleq]; exact hskip)] at hrN ⊢
      rw [if_neg (show ¬(stN.probingCache = true) from by
        rw [hNflag]; exact Bool.false_ne_true)] at hrN ⊢
      by_cases hpc : stC.probingCache = true
      · rw [if_pos hpc] at hrC ⊢
        refine ih _ _ (Or.inl hgt) ?_ ?_ ?_ ?_ hNflag hNbins ?_ hrC hrN
        · simp only [reset_cache_s]
          exact hcore
        · rw [reset_cache_stoppedAt, reset_cache_stoppedAt]
          exact hstop
        · simp only [reset_cache_s]
          exact hwf
        · exact reset_cache_CacheValid _ _ (reset_cache_CacheValid _ _ hcv)
        · simp only [reset_cache_s]
          exact hnum
      · rw [if_neg hpc] at hrC ⊢
        exact ih _ _ (Or.inl hgt) hcore hstop hwf hcv hNflag hNbins hnum hrC hrN
    · rw [if_neg hskip] at hrC ⊢
      rw [if_neg (show ¬((stN.s.valueVar ((stC.stoppedAt + i) % num) ≠ .lundefined
          || stN.s.wasEliminated ((stC.stoppedAt + i) % num)) = true) from by
        rw [hveq, heleq]; exact hskip)] at hrN ⊢
      have hvundef : stC.s.valueVar ((stC.stoppedAt + i) % num) = .lundefined := by
        simp only [Bool.or_eq_true, decide_eq_true_eq, not_or] at hskip
        exact not_not.1 hskip.1
      have hniC : stC.s.inconsistent = false := by
        rwa [Bool.not_eq_true] at hinc
      have hvar : (stC.stoppedAt + i) % num < stC.s.numVars := by
        rw [← hnum]
        exact Nat.mod_lt _ hgt
      obtain ⟨h1, h2, h3, h4⟩ := process_rel stC stN ((stC.stoppedAt + i) % num)
        hcore hwf hniC hvundef hvar hcv hNflag hNbins
      refine ih _ _ (Or.inl hgt) h1 ?_ h2 h3 ?_ ?_ ?_ hrC hrN
      · rw [process_stoppedAt, process_stoppedAt]
        exact hstop
      · rw [process_probingCache]
        exact hNflag
      · rw [process_cachedBins_of_nocache _ _ hNflag]
        exact hNbins
      · rw [h4]
        exact hnum

/-- C5 (amended): for a fixed formula and collaborator state entering a pass
with a fresh (empty) cache, a forced driver pass with the implication cache
enabled permanently asserts exactly the same set of literals as the identical
pass with the cache disabled — and reaches the same conflict status —
provided neither pass is interrupted by the cost budget (both invocations
run to completion, returning true).  Without that proviso the claim fails,
because the cache-hit path of `try_lit` does not charge the cost unit of the
propagation path (sat_probing.cpp line 87), so the budget interrupt can land
on different variables: see the counterexample. -/
theorem run_cache_equiv (st : PState)
    (hwf : WfSolver st.s)
    (hflag : st.probingCache = true)
    (hcb : st.cachedBins = [])
    (hrC : (run st true).1 = true)
    (hrN : (run { st with probingCache := false } true).1 = true) :
    (run st true).2.s.trail = (run { st with probingCache := false } true).2.s.trail ∧
    (run st true).2.s.inconsistent
      = (run { st with probingCache := false } true).2.s.inconsistent := by
  unfold run at hrC hrN ⊢
  dsimp only at hrC hrN ⊢
  by_cases hpb : st.probing = true
  · have hpb2 : ¬((!st.probing) = true) := by
      rw [hpb]
      decide
    rw [if_neg hpb2] at hrC
    rw [if_neg hpb2] at hrN
    rw [if_neg hpb2, if_neg hpb2]
    by_cases hinc : st.s.propagate.inconsistent = true
    · rw [if_pos hinc] at hrC
      rw [if_pos hinc] at hrN
      rw [if_pos hinc, if_pos hinc]
      exact ⟨rfl, rfl⟩
    · rw [if_neg hinc] at hrC
      rw [if_neg hinc] at hrN
      rw [if_neg hinc, if_neg hinc]
      simp only [Bool.not_true, Bool.false_and, Bool.false_eq_true, if_false] at hrC hrN ⊢
      simp only [hcb, ite_self] at hrC hrN ⊢
      simp only [hrC, hrN, finalize_s, apply_ite PState.s, ite_self]
      have hwfP : WfSolver ({ st with
          s := st.s.propagate
          counter := 0
          cachedBins := ([] : List CacheEntry) } : PState).s :=
        (propagate_spec st.s hwf).2.1
      have hcvS : CacheValid ({ st with
          s := st.s.propagate
          counter := 0
          cachedBins := ([] : List CacheEntry) } : PState) := by
        intro i e he hav x hx
        simp at he
      have hor : 0 < st.s.propagate.numVars ∨ List.range st.s.propagate.numVars = [] := by
        rcases Nat.eq_zero_or_pos st.s.propagate.numVars with h | h
        · exact Or.inr (by rw [h]; rfl)
        · exact Or.inl h
      have hrel := runLoop_rel st.s.propagate.numVars (-(st.probingLimit : Int))
        (List.range st.s.propagate.numVars)
        { st with
            s := st.s.propagate
            counter := 0
            cachedBins := ([] : List CacheEntry) }
        { st with
            s := st.s.propagate
            counter := 0
            cachedBins := ([] : List CacheEntry)
            probingCache := false }
        hor (coreEq_refl st.s.propagate) rfl hwfP hcvS rfl rfl rfl hrC hrN
      exact ⟨hrel.2.2.2.1, hrel.2.2.2.2.2.1⟩
  · have hpb2 : (!st.probing) = true := by
      rw [Bool.not_eq_true] at hpb
      rw [hpb]
      decide
    rw [if_pos hpb2] at hrC
    rw [if_pos hpb2] at hrN
    rw [if_pos hpb2, if_pos hpb2]
    exact ⟨rfl, rfl⟩

theorem run_cache_equiv_witness :
    (WfSolver (mkPState (mkSolver 2 [[⟨0, false⟩, ⟨1, true⟩]])).s ∧
      (mkPState (mkSolver 2 [[⟨0, false⟩, ⟨1, true⟩]])).probingCache = true ∧
      (mkPState (mkSolver 2 [[⟨0, false⟩, ⟨1, true⟩]])).cachedBins = [] ∧
      (run (mkPState (mkSolver 2 [[⟨0, false⟩, ⟨1, true⟩]])) true).1 = true ∧
      (run { mkPState (mkSolver 2 [[⟨0, false⟩, ⟨1, true⟩]]) with
          probingCache := false } true).1 = true) ∧
    (run (mkPState (mkSolver 2 [[⟨0, false⟩, ⟨1, true⟩]])) true).2.s.trail
      = (run { mkPState (mkSolver 2 [[⟨0, false⟩, ⟨1, true⟩]]) with
          probingCache := false } true).2.s.trail :=
  ⟨⟨by decide, by decide, by decide, by decide, by decide⟩,
    (run_cache_equiv (mkPState (mkSolver 2 [[⟨0, false⟩, ⟨1, true⟩]]))
      (by decide) (by decide) (by decide) (by decide) (by decide)).1⟩

end SatProbing
